import Mathlib

/-!
Discovery of package groups and streaming merge of `pkg-merge`.

A shallow embedding of `src/pkg-merge/pkgmerge.cpp`.

* Strings are lists of characters. `size_t` is a natural number below `2 ^ 64`
  with wrap-around arithmetic; `int` has 32 bits.
* What the C++ implementation decides is a parameter `tc : Impl` of the model:
  the range of `long` (32 bits with the Windows tool chain the program is
  written for, 64 bits elsewhere) and the order in which `std::sort` leaves
  pieces of equal `part`.
* The file system is a list of files in directory-enumeration order; a file is
  a path (directory, file name) with its bytes. Two paths name the same file
  when they are equal, character by character. Removing a file or creating one
  leaves the other files in the order they had.
* `pkgMain` starts where `main` has validated its arguments (source line 343).
* An uncaught exception or a failed `assert` ends a run with `Outcome.abort`.
-/

namespace PkgMerge

/-! ## Strings and `size_t` -/

/-- A `std::string`, as the list of its characters. -/
abbrev Str := List Char

/-- The constant `std::string::npos`: the largest value of a 64-bit `size_t`. -/
def npos : Nat := 2 ^ 64 - 1

/-- Addition of two `size_t` values (wraps modulo `2 ^ 64`). -/
def sizeAdd (a b : Nat) : Nat := (a + b) % 2 ^ 64

/-- Subtraction of two `size_t` values (wraps modulo `2 ^ 64`). -/
def sizeSub (a b : Nat) : Nat := (a % 2 ^ 64 + 2 ^ 64 - b % 2 ^ 64) % 2 ^ 64

/-- The call `s.substr(pos, n)`: at most `n` characters from position `pos`.
Every call site of the program has `pos ≤ s.size()`, so the `out_of_range`
exception of the library cannot occur. -/
def substr (s : Str) (pos n : Nat) : Str := (s.drop pos).take n

/-- The helper `endsWith` (source lines 45-48). -/
def endsWith (str suffix : Str) : Bool :=
  if suffix.length > str.length then false
  else decide (substr str (str.length - suffix.length) suffix.length = suffix)

/-- Position of the first occurrence of `c`, if there is one. -/
def findFirst? : Str → Char → Option Nat
  | [], _ => none
  | x :: xs, c => if x = c then some 0 else (findFirst? xs c).map (· + 1)

/-- Position of the last occurrence of `c`, if there is one. -/
def findLast? : Str → Char → Option Nat
  | [], _ => none
  | x :: xs, c =>
    match findLast? xs c with
    | some i => some (i + 1)
    | none => if x = c then some 0 else none

/-- The call `s.find_first_of(c)` for a one-character set: a position or `npos`. -/
def find_first_of (s : Str) (c : Char) : Nat := (findFirst? s c).getD npos

/-- The call `s.find_last_of(c)` for a one-character set: a position or `npos`. -/
def find_last_of (s : Str) (c : Char) : Nat := (findLast? s c).getD npos

/-- Whether `pat` is an initial segment of `s`. -/
def startsWith : Str → Str → Bool
  | _, [] => true
  | [], _ :: _ => false
  | x :: xs, p :: ps => x == p && startsWith xs ps

/-- The call `s.find(pat)`: the position of the first occurrence of `pat` in
`s`. The result `none` stands for `npos`, which the program only compares the
result with (a position in a string is always smaller than `npos`). -/
def find : Str → Str → Option Nat
  | [], pat => if pat = [] then some 0 else none
  | x :: xs, pat =>
    if startsWith (x :: xs) pat then some 0 else (find xs pat).map (· + 1)

/-- The call `path.extension()` on a file name: the text from the rightmost
period on, empty when there is no period, when the only period is the first
character, or for the special name `..`. -/
def extension (file_name : Str) : Str :=
  if file_name = ['.', '.'] then []
  else
    match findLast? file_name '.' with
    | none => []
    | some 0 => []
    | some (i + 1) => file_name.drop (i + 1)

/-- The order of `std::string` keys in a `std::map`: lexicographic on the
character codes, a proper initial segment first. -/
def strLess : Str → Str → Bool
  | [], [] => false
  | [], _ :: _ => true
  | _ :: _, [] => false
  | a :: as, b :: bs =>
    if a.toNat < b.toNat then true
    else if b.toNat < a.toNat then false
    else strLess as bs

/-! ## Files and packages -/

/-- A file location: the directory and the file name in it. -/
structure Path where
  dir : Str
  name : Str
deriving DecidableEq, Repr

/-- A regular file: where it is and what it holds (one number per byte). -/
structure FileEntry where
  path : Path
  bytes : List Nat
deriving DecidableEq, Repr

/-- The file system: its files, in the order a directory iterator lists them. -/
abbrev FS := List FileEntry

/-- A `Package` object used as a piece: the entries of `parts` and the target
of `sc_part`. The program sets and reads only `part` and `file` of such an
object (its own `parts`, `sc_part` and `output_name` stay empty). -/
structure Piece where
  part : Int
  file : Path
deriving DecidableEq, Repr

/-- The `Package` struct of a group (source lines 22-32). -/
structure Package where
  part : Int
  file : Path
  parts : List Piece
  sc_part : Option Piece
  output_name : Str
deriving DecidableEq, Repr

/-- The default constructor `Package()`. -/
def Package.new : Package := ⟨0, ⟨[], []⟩, [], none, []⟩

/-- The comparison `Package::operator<` (source lines 28-30). -/
def Piece.lt (a b : Piece) : Bool := decide (a.part < b.part)

/-- A `std::map<string, Package>`: the bindings in increasing key order. -/
abbrev Packages := List (Str × Package)

/-- The call `packages.find(k)`, `none` standing for `packages.end()`. -/
def mapFind : Packages → Str → Option Package
  | [], _ => none
  | (k, v) :: rest, key => if k = key then some v else mapFind rest key

/-- The call `packages.insert(pair(k, v))`: the binding goes to its place in
key order; an existing binding of the key is kept. -/
def mapInsert : Packages → Str → Package → Packages
  | [], key, v => [(key, v)]
  | (k, w) :: rest, key, v =>
    if strLess key k then (key, v) :: (k, w) :: rest
    else if k = key then (k, w) :: rest
    else (k, w) :: mapInsert rest key v

/-- An update through the pointer `&it->second` of the binding of `key`. -/
def mapModify (m : Packages) (key : Str) (f : Package → Package) : Packages :=
  m.map fun kv => if kv.1 = key then (kv.1, f kv.2) else kv

/-! ## What the C++ implementation decides -/

/-- The facts the program takes from the C++ implementation it is built with.
`LONG_MAX` is the largest value of `long`, which holds every `int` at least
(`int` has 32 bits). `stdSort` is the call
`std::sort(pkg.parts.begin(), pkg.parts.end())` of source line 133, ordering
by `Package::operator<`: the result is a rearrangement of the pieces in which
no piece has a smaller `part` than a piece before it. The order among pieces
of equal `part` is the choice of the implementation. -/
structure Impl where
  LONG_MAX : Int
  long_holds_int : 2147483647 ≤ LONG_MAX
  stdSort : List Piece → List Piece
  stdSort_perm : ∀ parts : List Piece, (stdSort parts).Perm parts
  stdSort_sorted : ∀ parts : List Piece, (stdSort parts).Pairwise fun a b => a.part ≤ b.part

/-- Insertion of one piece in front of the first piece that is not smaller. -/
def sortInsert (x : Piece) : List Piece → List Piece
  | [] => [x]
  | y :: ys => if Piece.lt y x then y :: sortInsert x ys else x :: y :: ys

/-- A sort by insertion: pieces of equal `part` keep the order they had. -/
def insertionSort : List Piece → List Piece
  | [] => []
  | x :: xs => sortInsert x (insertionSort xs)

/-- An implementation with the given range of `long` whose `std::sort` sorts
by insertion. -/
def stableImpl (long_max : Int) (h : 2147483647 ≤ long_max) : Impl where
  LONG_MAX := long_max
  long_holds_int := h
  stdSort := insertionSort
  stdSort_perm := by
    have hins : ∀ (x : Piece) (l : List Piece), (sortInsert x l).Perm (x :: l) := by
      intro x l
      induction l with
      | nil => exact List.Perm.refl _
      | cons y ys ih =>
        unfold sortInsert
        split
        · exact (List.Perm.cons y ih).trans (List.Perm.swap x y ys)
        · exact List.Perm.refl _
    intro l
    induction l with
    | nil => exact List.Perm.refl _
    | cons x xs ih => exact (hins x (insertionSort xs)).trans (List.Perm.cons x ih)
  stdSort_sorted := by
    have hins : ∀ (x : Piece) (l : List Piece), (sortInsert x l).Perm (x :: l) := by
      intro x l
      induction l with
      | nil => exact List.Perm.refl _
      | cons y ys ih =>
        unfold sortInsert
        split
        · exact (List.Perm.cons y ih).trans (List.Perm.swap x y ys)
        · exact List.Perm.refl _
    have hsorted : ∀ (x : Piece) (l : List Piece),
        l.Pairwise (fun a b => a.part ≤ b.part) →
        (sortInsert x l).Pairwise (fun a b => a.part ≤ b.part) := by
      intro x l
      induction l with
      | nil => intro _; simp [sortInsert]
      | cons y ys ih =>
        intro h
        have hy := List.pairwise_cons.mp h
        unfold sortInsert
        by_cases hlt : Piece.lt y x = true
        · rw [if_pos hlt]
          have hyx : y.part < x.part := by simpa [Piece.lt] using hlt
          refine List.pairwise_cons.mpr ⟨?_, ih hy.2⟩
          intro z hz
          rcases List.mem_cons.mp ((List.Perm.mem_iff (hins x ys)).mp hz) with h1 | h1
          · rw [h1]; exact le_of_lt hyx
          · exact hy.1 z h1
        · rw [if_neg hlt]
          have hxy : x.part ≤ y.part := by
            have : ¬ y.part < x.part := by simpa [Piece.lt] using hlt
            exact not_lt.mp this
          refine List.pairwise_cons.mpr ⟨?_, h⟩
          intro z hz
          rcases List.mem_cons.mp hz with h1 | h1
          · rw [h1]; exact hxy
          · exact le_trans hxy (hy.1 z h1)
    intro l
    induction l with
    | nil => simp [insertionSort]
    | cons x xs ih => exact hsorted x _ ih

/-- The Windows tool chain the program is written for (`stdafx.h`, `\\`
separators): `long` has 32 bits. -/
def impl32 : Impl := stableImpl 2147483647 (by decide)

/-- A tool chain with a 64-bit `long`. -/
def impl64 : Impl := stableImpl 9223372036854775807 (by decide)

/-! ## `strtol` -/

/-- Smallest value of `long`. -/
def LONG_MIN (tc : Impl) : Int := -tc.LONG_MAX - 1

/-- The C classification `isspace` in the "C" locale. -/
def isspace (c : Char) : Bool := c.toNat = 32 || (9 ≤ c.toNat && c.toNat ≤ 13)

/-- The C classification `isdigit`. -/
def isdigit (c : Char) : Bool := 48 ≤ c.toNat && c.toNat ≤ 57

/-- Reads the leading decimal digits of a string: the accumulated value and
the number of digits consumed. -/
def scanDigits : Str → Nat → Nat → Nat × Nat
  | [], acc, n => (acc, n)
  | c :: cs, acc, n =>
    if isdigit c then scanDigits cs (acc * 10 + (c.toNat - 48)) (n + 1) else (acc, n)

/-- The call `strtol(nptr, &ptr, 10)`: the converted value and the value
stored in `ptr`. White space is skipped, one sign is accepted, the decimal
digits that follow are converted; out-of-range values saturate at `LONG_MAX`
or `LONG_MIN`. The end pointer is `some k` for the address `nptr + k`; the
library never stores a null pointer (`none`) there: without digits it stores
`nptr` itself. -/
def strtol (tc : Impl) (nptr : Str) : Int × Option Nat :=
  let ws := (nptr.takeWhile isspace).length
  let s1 := nptr.dropWhile isspace
  let sgn : Bool × Str × Nat :=
    match s1 with
    | [] => (false, [], 0)
    | c :: r =>
      if c = '-' then (true, r, 1) else if c = '+' then (false, r, 1) else (false, c :: r, 0)
  let d := scanDigits sgn.2.1 0 0
  if d.2 = 0 then (0, some 0)
  else
    ((if sgn.1 then max (LONG_MIN tc) (-(d.1 : Int)) else min tc.LONG_MAX (d.1 : Int)),
      some (ws + sgn.2.2 + d.2))

/-- The conversion of a `long` to `int` in the assignment
`piece.part = pkg_piece` (source lines 412 and 543): the value modulo `2 ^ 32`
in the range of `int`. A value that is in that range is kept. -/
def intOfLong (v : Int) : Int := (v + 2147483648) % 4294967296 - 2147483648

/-! ## Discovery -/

/-- The constant `PKG_MAGIC` (source line 34). -/
def PKG_MAGIC : List Nat := [0x7F, 0x43, 0x4E, 0x54]

/-- The value of `sizeof(PKG_MAGIC)`. -/
def sizeof_PKG_MAGIC : Nat := 4

/-- The buffer `char magic[4]` after `ifs.read(magic, 4)`: the first bytes of
the file, then what the uninitialised buffer `uninit` held where the file is
shorter than four bytes. -/
def readMagic (uninit bytes : List Nat) : List Nat :=
  bytes.take 4 ++ (uninit.take 4).drop (bytes.take 4).length

/-- The call `memcmp(a, b, n)`: zero exactly when the first `n` bytes agree. -/
def memcmp (a b : List Nat) (n : Nat) : Int :=
  if a.take n = b.take n then 0 else 1

/-- The third argument of the `memcmp` call of source lines 424 and 555,
`sizeof(PKG_MAGIC) != 0`: a truth value converted to `size_t`. -/
def magicCompareLength : Nat := if sizeof_PKG_MAGIC ≠ 0 then 1 else 0

/-- The text `"_sc.pkg"`. -/
def scSuffix : Str := "_sc.pkg".toList

/-- The text `".pkg"`. -/
def pkgExt : Str := ".pkg".toList

/-- The text `"-merged"`. -/
def mergedTag : Str := "-merged".toList

/-- The text `"-merged.pkg"`. -/
def mergedSuffix : Str := "-merged.pkg".toList

/-- Source line 394: `file_name.find_last_of("_") + 1`. -/
def found_part_begin (file_name : Str) : Nat := sizeAdd (find_last_of file_name '_') 1

/-- Source line 395: `file_name.find_first_of(".")`. -/
def found_part_end (file_name : Str) : Nat := find_first_of file_name '.'

/-- Source line 396: the text handed to `strtol`. -/
def partText (file_name : Str) : Str :=
  substr file_name (found_part_begin file_name)
    (sizeSub (found_part_end file_name) (found_part_begin file_name))

/-- Source line 397: the identifier `title_id` of a non-terminal file. -/
def titleId (file_name : Str) : Str :=
  substr file_name 0 (sizeSub (found_part_begin file_name) 1)

/-- Source lines 446 and 492: the base name of a file ending in `_sc.pkg`.
Such a name has at least 7 characters, so `length() - 7` does not wrap. -/
def baseName (file_name : Str) : Str := substr file_name 0 (file_name.length - 7)

/-- The block of source lines 394-433, repeated verbatim at lines 525-564:
what one non-terminal `.pkg` file does to the map. -/
def addFragment (tc : Impl) (uninit : List Nat) (packages : Packages) (file : FileEntry) :
    Packages :=
  let file_name := file.path.name
  let title_id := titleId file_name
  let conv := strtol tc (partText file_name)
  let pkg_piece := conv.1
  let ptr := conv.2
  if ptr = none then packages
  else
    match mapFind packages title_id with
    | some _ =>
      mapModify packages title_id fun pkg =>
        { pkg with parts := pkg.parts ++ [⟨intOfLong pkg_piece, file.path⟩] }
    | none =>
      let magic := readMagic uninit file.bytes
      if memcmp magic PKG_MAGIC magicCompareLength ≠ 0 then packages
      else mapInsert packages title_id { Package.new with part := 0, file := file.path }

/-- The piece made for a `_sc` file (source lines 456-458). -/
def scPiece (file : FileEntry) : Piece := ⟨9999, file.path⟩

/-- The group made from a `_sc` file alone (source lines 451-459, 499-507). -/
def scPackage (file : FileEntry) : Package :=
  { Package.new with
    part := 0, file := file.path,
    output_name := baseName file.path.name, sc_part := some (scPiece file) }

/-- The update of an existing group by a `_sc` file (lines 468-472, 514-518). -/
def attachSc (file : FileEntry) (pkg : Package) : Package :=
  { pkg with sc_part := some (scPiece file), output_name := baseName file.path.name }

/-- The counting loop body of source lines 345-355. -/
def countStep (sc_file_count : Nat) (file : FileEntry) : Nat :=
  let file_name := file.path.name
  if extension file_name ≠ pkgExt then sc_file_count
  else if find file_name mergedTag ≠ none then sc_file_count
  else if endsWith file_name scSuffix then sc_file_count + 1
  else sc_file_count

/-- First pass of Single mode, one file (source lines 379-434). -/
def firstPassStep (tc : Impl) (uninit : List Nat) (packages : Packages) (file : FileEntry) :
    Packages :=
  let file_name := file.path.name
  if extension file_name ≠ pkgExt then packages
  else if find file_name mergedTag ≠ none then packages
  else if endsWith file_name scSuffix then packages
  else addFragment tc uninit packages file

/-- Second pass of Single mode, one file (source lines 437-476). -/
def secondPassStep (packages : Packages) (file : FileEntry) : Packages :=
  let file_name := file.path.name
  if extension file_name ≠ pkgExt then packages
  else if find file_name mergedTag ≠ none then packages
  else if endsWith file_name scSuffix then
    match packages with
    | [] => mapInsert [] (baseName file_name) (scPackage file)
    | (k, pkg) :: rest => (k, attachSc file pkg) :: rest
  else packages

/-- The loop body of Multiple mode, one file (source lines 479-565). -/
def multipleStep (tc : Impl) (uninit : List Nat) (packages : Packages) (file : FileEntry) :
    Packages :=
  let file_name := file.path.name
  if extension file_name ≠ pkgExt then packages
  else if find file_name mergedTag ≠ none then packages
  else if endsWith file_name scSuffix then
    let title_id := baseName file_name
    match mapFind packages title_id with
    | none => mapInsert packages title_id (scPackage file)
    | some _ => mapModify packages title_id (attachSc file)
  else addFragment tc uninit packages file

/-- The two grouping modes, `-single` and `-multiple`. -/
inductive Mode where
  | single
  | multiple
deriving DecidableEq, Repr

/-- The map built by source lines 374-566 from the files of the source
directory, in enumeration order. -/
def discover (tc : Impl) (mode : Mode) (uninit : List Nat) (files : List FileEntry) :
    Packages :=
  match mode with
  | Mode.single => files.foldl secondPassStep (files.foldl (firstPassStep tc uninit) [])
  | Mode.multiple => files.foldl (multipleStep tc uninit) []

/-! ## File system operations -/

/-- The files a `directory_iterator` over `dir` yields, in order. -/
def listDir (fs : FS) (dir : Str) : List FileEntry := fs.filter fun e => e.path.dir = dir

/-- The bytes of the file at `p`, `none` when there is no such file. -/
def readFile : FS → Path → Option (List Nat)
  | [], _ => none
  | e :: rest, p => if e.path = p then some e.bytes else readFile rest p

/-- The call `fs::file_size(p)`; `none` stands for the exception it throws
when the file does not exist. -/
def file_size (fs : FS) (p : Path) : Option Nat := (readFile fs p).map List.length

/-- The call `fs::exists(p)`. -/
def fsExists (fs : FS) (p : Path) : Bool := (readFile fs p).isSome

/-- The call `fs::remove(p)`. -/
def fsRemove (fs : FS) (p : Path) : FS := fs.filter fun e => e.path ≠ p

/-- The call `fwrite(buffer, 1, n, merged)` on a stream opened for appending:
the chunk goes to the end of the file at `p`. -/
def fwrite (fs : FS) (p : Path) (chunk : List Nat) : FS :=
  fs.map fun e => if e.path = p then { e with bytes := e.bytes ++ chunk } else e

/-- The call `fs::copy_file(from, to, update_existing)`; `none` stands for the
exception thrown when `from` is missing or is `to` itself. At its only call
site `to` has just been removed, so there is no existing file whose age the
option `update_existing` would look at, and the copy is created as a new file. -/
def copy_file (fs : FS) (src dst : Path) : Option FS :=
  if src = dst then none
  else
    match readFile fs src with
    | none => none
    | some content => some (fsRemove fs dst ++ [⟨dst, content⟩])

/-! ## Merge -/

/-- The inner loop of source lines 95-100 for the pieces of one group. -/
def scanParts (fs : FS) : List Piece → Nat → Option Nat
  | [], max_file_size => some max_file_size
  | part :: rest, max_file_size =>
    match file_size fs part.file with
    | none => none
    | some part_size =>
      scanParts fs rest (if part_size > max_file_size then part_size else max_file_size)

/-- The loop of source lines 92-108: the largest size seen, `none` when
`fs::file_size` throws. -/
def scanPackages (fs : FS) : Packages → Nat → Option Nat
  | [], max_file_size => some max_file_size
  | root :: rest, max_file_size =>
    match scanParts fs root.2.parts max_file_size with
    | none => none
    | some m =>
      match root.2.sc_part with
      | none => scanPackages fs rest m
      | some sc =>
        match file_size fs sc.file with
        | none => none
        | some sc_size => scanPackages fs rest (if sc_size > m then sc_size else m)

/-- The tiers of source lines 111-124: the value of `BUFFER_SIZE`. -/
def chooseBufferSize (max_file_size : Nat) : Nat :=
  if max_file_size < 200 * 1024 * 1024 then 512 * 1024
  else if max_file_size < 1024 * 1024 * 1024 then 2 * 1024 * 1024
  else if max_file_size < 4 * 1024 * 1024 * 1024 then 4 * 1024 * 1024
  else 8 * 1024 * 1024

/-- The name of the output of a group (source lines 147-153). -/
def mergedFileName (root : Str × Package) : Str :=
  if root.2.output_name ≠ [] then root.2.output_name ++ mergedSuffix
  else root.1 ++ mergedSuffix

/-- The location `full_merged_file` of the output (source line 155). -/
def fullMergedFile (target_dir : Str) (root : Str × Package) : Path :=
  ⟨target_dir, mergedFileName root⟩

/-- The read-and-append loop of source lines 180-186 (and 201-207): `to_merge`
is what is still unread of the piece. An iteration reads up to `BUFFER_SIZE`
bytes and appends them to the merged file; the loop ends at the first empty
read. The first argument bounds the number of iterations. -/
def copyLoop (BUFFER_SIZE : Nat) (merged : Path) : Nat → List Nat → FS → FS
  | 0, _, fs => fs
  | fuel + 1, to_merge, fs =>
    let chunk := to_merge.take BUFFER_SIZE
    if chunk.length > 0 then
      copyLoop BUFFER_SIZE merged fuel (to_merge.drop BUFFER_SIZE) (fwrite fs merged chunk)
    else fs

/-- Appending one piece to the merged file (source lines 173-187, 194-208).
An error carries the file system at the point of the abort: the piece cannot
be opened, or `assert(total_size != 0)` fails. A piece that is the merged
file itself would be read while it grows; that case is reported as an error. -/
def appendPiece (BUFFER_SIZE : Nat) (merged : Path) (fs : FS) (file : Path) : Except FS FS :=
  match readFile fs file with
  | none => Except.error fs
  | some content =>
    if content.length = 0 then Except.error fs
    else if file = merged then Except.error fs
    else Except.ok (copyLoop BUFFER_SIZE merged (content.length + 1) content fs)

/-- The loop of source lines 172-190 over the sorted pieces. -/
def appendParts (BUFFER_SIZE : Nat) (merged : Path) : List Piece → FS → Except FS FS
  | [], fs => Except.ok fs
  | part :: rest, fs =>
    match appendPiece BUFFER_SIZE merged fs part.file with
    | Except.error fs1 => Except.error fs1
    | Except.ok fs1 => appendParts BUFFER_SIZE merged rest fs1

/-- The body of the loop over the groups (source lines 129-217). -/
def mergePackage (tc : Impl) (BUFFER_SIZE : Nat) (target_dir : Str) (fs : FS)
    (root : Str × Package) : Except FS FS :=
  let pkg := root.2
  let parts := tc.stdSort pkg.parts
  let full_merged_file := fullMergedFile target_dir root
  let fs1 := if fsExists fs full_merged_file then fsRemove fs full_merged_file else fs
  match copy_file fs1 pkg.file full_merged_file with
  | none => Except.error fs1
  | some fs2 =>
    match appendParts BUFFER_SIZE full_merged_file parts fs2 with
    | Except.error fs3 => Except.error fs3
    | Except.ok fs3 =>
      match pkg.sc_part with
      | none => Except.ok fs3
      | some sc => appendPiece BUFFER_SIZE full_merged_file fs3 sc.file

/-- The loop over the groups, in key order, with the list `created_files`. -/
def mergeLoop (tc : Impl) (BUFFER_SIZE : Nat) (target_dir : Str) :
    Packages → FS → List Path → Except FS (FS × List Path)
  | [], fs, created_files => Except.ok (fs, created_files)
  | root :: rest, fs, created_files =>
    match mergePackage tc BUFFER_SIZE target_dir fs root with
    | Except.error fs1 => Except.error fs1
    | Except.ok fs1 =>
      mergeLoop tc BUFFER_SIZE target_dir rest fs1
        (created_files ++ [fullMergedFile target_dir root])

/-- Source lines 89-124: the value of `BUFFER_SIZE`, the size of the one
buffer `merge` allocates (the program reports the tier on the console);
`none` when `fs::file_size` throws. -/
def bufferSize (fs : FS) (packages : Packages) : Option Nat :=
  (scanPackages fs packages 0).map chooseBufferSize

/-- The function `merge` (source lines 86-223): the final file system and the
list of created files, or the file system at the point of an abort. -/
def merge (tc : Impl) (fs : FS) (packages : Packages) (target_dir : Str) :
    Except FS (FS × List Path) :=
  match bufferSize fs packages with
  | none => Except.error fs
  | some BUFFER_SIZE => mergeLoop tc BUFFER_SIZE target_dir packages fs []

/-! ## The program -/

/-- How a run ends: `main` returns an exit code, with the final file system
and the created files it printed, or the run is aborted by an uncaught
exception or a failed assertion. -/
inductive Outcome where
  | exit (code : Nat) (fs : FS) (created_files : List Path)
  | abort (fs : FS)
deriving DecidableEq, Repr

/-- The function `main` from source line 343 on: both directories exist. -/
def pkgMain (tc : Impl) (mode : Mode) (uninit : List Nat) (fs : FS)
    (source_path target_path : Str) : Outcome :=
  let files := listDir fs source_path
  let sc_file_count := files.foldl countStep 0
  if mode = Mode.single ∧ sc_file_count > 1 then Outcome.exit 1 fs []
  else
    match merge tc fs (discover tc mode uninit files) target_path with
    | Except.error fs1 => Outcome.abort fs1
    | Except.ok r => Outcome.exit 0 r.1 r.2

/-! ## Vocabulary of the statements -/

/-- The bytes of the file at `p`, empty when there is none. -/
def contentOf (fs : FS) (p : Path) : List Nat := (readFile fs p).getD []

/-- The bytes of the pieces of a list, one after the other. -/
def piecesBytes (fs : FS) (parts : List Piece) : List Nat :=
  (parts.map fun p => contentOf fs p.file).flatten

/-- The bytes of the optional terminal piece. -/
def scBytes (fs : FS) (sc_part : Option Piece) : List Nat :=
  match sc_part with
  | none => []
  | some sc => contentOf fs sc.file

/-- The pieces a group appends after its root: the numbered ones, then the
terminal one. -/
def appended (pkg : Package) : List Piece :=
  pkg.parts ++ (match pkg.sc_part with
    | none => []
    | some sc => [sc])

/-- The conditions under which the loop body for one group runs to its end:
the root can be read and is not the output file, and every appended piece is
a non-empty file other than the output file. -/
def Mergeable (fs : FS) (merged : Path) (pkg : Package) : Prop :=
  fsExists fs pkg.file = true ∧ pkg.file ≠ merged ∧
    ∀ p ∈ appended pkg, contentOf fs p.file ≠ [] ∧ p.file ≠ merged

/-- The bytes the loop body for one group puts in the output file. -/
def groupBytes (tc : Impl) (fs : FS) (pkg : Package) : List Nat :=
  contentOf fs pkg.file ++ piecesBytes fs (tc.stdSort pkg.parts) ++ scBytes fs pkg.sc_part

instance (fs : FS) (merged : Path) (pkg : Package) : Decidable (Mergeable fs merged pkg) :=
  inferInstanceAs (Decidable (_ ∧ _ ∧ ∀ p ∈ appended pkg, _))

/-- A file name the loops look at: extension `.pkg`, no `-merged` in it. -/
def isCandidate (file_name : Str) : Bool :=
  decide (extension file_name = pkgExt) && decide (find file_name mergedTag = none)

/-- A terminal file: a candidate whose name ends with `_sc.pkg`. -/
def isTerminal (file_name : Str) : Bool := isCandidate file_name && endsWith file_name scSuffix

/-- A fragment file: a candidate whose name does not end with `_sc.pkg`. -/
def isFragment (file_name : Str) : Bool := isCandidate file_name && !endsWith file_name scSuffix

/-- Every file a group refers to: the root, the numbered pieces, the terminal
piece. -/
def fragmentPaths (pkg : Package) : List Path := pkg.file :: (appended pkg).map fun p => p.file

/-- The output files of the groups of a map, in key order. -/
def outputsOf (target_dir : Str) (packages : Packages) : List Path :=
  packages.map (fullMergedFile target_dir)

/-- Every file the groups of a map refer to satisfies `S`. -/
def Good (S : Path → Prop) (packages : Packages) : Prop :=
  ∀ kv ∈ packages, ∀ p ∈ fragmentPaths kv.2, S p

/-- The numbered and terminal pieces of all groups, in the order the scan of
source lines 92-108 visits them. -/
def allAppended : Packages → List Piece
  | [] => []
  | root :: rest => appended root.2 ++ allAppended rest

/-- The largest number of a list, 0 for the empty list. -/
def largest (sizes : List Nat) : Nat := sizes.foldr max 0

/-- The largest size among the numbered and terminal pieces of all groups. -/
def largestAppended (fs : FS) (packages : Packages) : Nat :=
  largest ((allAppended packages).map fun p => (contentOf fs p.file).length)

/-- The largest size among all files of all groups, the roots included: the
maximum the specification describes. -/
def largestOfAll (fs : FS) (packages : Packages) : Nat :=
  largest (packages.map fun root =>
    largest ((fragmentPaths root.2).map fun p => (contentOf fs p).length))

/-- The number a string of decimal digits denotes. -/
def decimalValue (digits : Str) : Nat :=
  digits.foldl (fun acc c => acc * 10 + (c.toNat - 48)) 0

instance : Inhabited Package := ⟨Package.new⟩

/-- The identifier the program derives from a candidate file name: the base
name of a terminal file, `title_id` for the others. -/
def derivedId (file_name : Str) : Str :=
  if endsWith file_name scSuffix then baseName file_name else titleId file_name

/-- The keys of a map, in order. -/
def keysOf (m : Packages) : List Str := m.map Prod.fst

/-- Every binding of the map satisfies `S`. -/
def KeyedBy (S : Str → Package → Prop) (m : Packages) : Prop := ∀ kv ∈ m, S kv.1 kv.2

/-- A group of Multiple mode is consistent with its key: its output name is
unset or the key, and all its files have the key as derived identifier. -/
def OwnFiles (k : Str) (pkg : Package) : Prop :=
  (pkg.output_name = [] ∨ pkg.output_name = k) ∧
    ∀ p ∈ fragmentPaths pkg, derivedId p.name = k

/-! ## Example directories -/

/-- A file of the directory `src`, for the examples. -/
def srcFile (name : String) (bytes : List Nat) : FileEntry := ⟨⟨"src".toList, name.toList⟩, bytes⟩

/-- The directory of the concrete scenario of the specification: a root with
the magic header, two numbered pieces listed out of order, a terminal piece. -/
def gameFs : FS :=
  [srcFile "GAME_0.pkg" [0x7F, 0x43, 0x4E, 0x54, 1], srcFile "GAME_2.pkg" [2, 2, 2],
   srcFile "GAME_1.pkg" [3], srcFile "GAME_sc.pkg" [9, 9]]

/-- The group discovery builds from `gameFs`. -/
def gameGroup : Str × Package :=
  ("GAME".toList,
    ⟨0, ⟨"src".toList, "GAME_0.pkg".toList⟩,
      [⟨2, ⟨"src".toList, "GAME_2.pkg".toList⟩⟩, ⟨1, ⟨"src".toList, "GAME_1.pkg".toList⟩⟩],
      some ⟨9999, ⟨"src".toList, "GAME_sc.pkg".toList⟩⟩, "GAME".toList⟩)

/-- A directory with two terminal files. -/
def twoScFs : FS :=
  [srcFile "A_0.pkg" [0x7F, 0x43, 0x4E, 0x54], srcFile "A_sc.pkg" [1], srcFile "B_sc.pkg" [2]]

/-- The output of the scenario `gameFs`, merged into the source directory. -/
def gameOutput : FileEntry :=
  srcFile "GAME-merged.pkg" [0x7F, 0x43, 0x4E, 0x54, 1, 3, 2, 2, 2, 9, 9]

/-- The three fragment files of the scenario, in the order of `gameFs`. -/
def gameFragments : List FileEntry :=
  [srcFile "GAME_0.pkg" [0x7F, 0x43, 0x4E, 0x54, 1], srcFile "GAME_2.pkg" [2, 2, 2],
   srcFile "GAME_1.pkg" [3]]

/-- The terminal file of the scenario. -/
def gameSc : FileEntry := srcFile "GAME_sc.pkg" [9, 9]

/-- A directory with a valid root and a file whose ordinal text is `x`. -/
def nonNumericFs : FS :=
  [srcFile "GAME_0.pkg" [0x7F, 0x43, 0x4E, 0x54, 1], srcFile "GAME_x.pkg" [5, 6],
   srcFile "title_x.pkg" [0x7F, 0x43, 0x4E, 0x54, 7]]

/-- A directory whose only file starts with `7F 00 00 00`. -/
def badMagicFs : FS := [srcFile "GAME_0.pkg" [0x7F, 0, 0, 0, 8]]

/-- A root of 200 MiB (after the magic header) with one small numbered piece. -/
def bigRootFs : FS :=
  [⟨⟨"src".toList, "BIG_0.pkg".toList⟩,
      0x7F :: 0x43 :: 0x4E :: 0x54 :: List.replicate (200 * 1024 * 1024) 0⟩,
   ⟨⟨"src".toList, "BIG_1.pkg".toList⟩, [1]⟩]

/-- The group discovery builds from `bigRootFs`. -/
def bigRootPackages : Packages :=
  [("BIG".toList, ⟨0, ⟨"src".toList, "BIG_0.pkg".toList⟩,
      [⟨1, ⟨"src".toList, "BIG_1.pkg".toList⟩⟩], none, []⟩)]

/-- Two packages side by side, listed with the second one's terminal file
first. -/
def twoGroupsFs : FS :=
  [srcFile "B_sc.pkg" [8, 8], srcFile "A_0.pkg" [0x7F, 0x43, 0x4E, 0x54, 1],
   srcFile "B_0.pkg" [0x7F, 0x43, 0x4E, 0x54, 2], srcFile "A_1.pkg" [3],
   srcFile "B_1.pkg" [4], srcFile "A_sc.pkg" [9, 9]]

/-- The ordinal the program derives from the name of a fragment file: the
`long` that `strtol` returns for the ordinal text, as stored in the `int`
member `part` (source lines 396-399 and 412, 527-530 and 543). -/
def ordinalOf (tc : Impl) (file_name : Str) : Int :=
  intOfLong (strtol tc (partText file_name)).1

/-- The piece the program makes of a fragment file whose group exists already
(source lines 541-544): the derived ordinal and the file. -/
def pieceOf (tc : Impl) (file : FileEntry) : Piece := ⟨ordinalOf tc file.path.name, file.path⟩

/-- The pieces made of the fragment files with identifier `X` in a listing,
in enumeration order. -/
def piecesFor (tc : Impl) (X : Str) (files : List FileEntry) : List Piece :=
  (files.filter fun f => isFragment f.path.name && decide (titleId f.path.name = X)).map
    (pieceOf tc)

/-- The conditions under which `merge` runs to its end on a map: every root
can be read, every numbered or terminal piece is a non-empty file, and no
file of a group is the output file of a group. -/
def AllMergeable (fs : FS) (target_dir : Str) (packages : Packages) : Prop :=
  ∀ root ∈ packages, fsExists fs root.2.file = true ∧
    (∀ p ∈ appended root.2, contentOf fs p.file ≠ []) ∧
    ∀ p ∈ fragmentPaths root.2, p ∉ outputsOf target_dir packages

instance (fs : FS) (target_dir : Str) (packages : Packages) :
    Decidable (AllMergeable fs target_dir packages) :=
  inferInstanceAs (Decidable (∀ root ∈ packages, _ ∧ (∀ p ∈ appended root.2, _) ∧
    ∀ p ∈ fragmentPaths root.2, _))

/-- A terminal file listed first, then two fragment files of its identifier:
`X_0.pkg` does not start with the magic header. -/
def scFirstFs : FS :=
  [srcFile "X_sc.pkg" [9, 9], srcFile "X_1.pkg" [3], srcFile "X_0.pkg" [5, 6]]

/-- A directory that holds a terminal file and nothing else. -/
def scOnlyFs : FS := [srcFile "X_sc.pkg" [9, 9]]

/-- Two roots and one terminal file. In Single mode the terminal file is
attached to the first group, `A`, which takes the output name `B`; the group
`B` has no output name of its own, so both write to `B-merged.pkg`. -/
def sharedOutputFs : FS :=
  [srcFile "A_0.pkg" [0x7F, 0x43, 0x4E, 0x54, 1], srcFile "B_0.pkg" [0x7F, 0x43, 0x4E, 0x54, 2],
   srcFile "B_sc.pkg" [9, 9]]

/-- The groups discovery builds from `sharedOutputFs` in Single mode. -/
def sharedOutputPackages : Packages :=
  [("A".toList, ⟨0, ⟨"src".toList, "A_0.pkg".toList⟩, [],
      some ⟨9999, ⟨"src".toList, "B_sc.pkg".toList⟩⟩, "B".toList⟩),
   ("B".toList, ⟨0, ⟨"src".toList, "B_0.pkg".toList⟩, [], none, []⟩)]

/-- Whether the number `strtol` reads in a text lies within the range of
`int`: every implementation then returns that number, and the conversion to
`int` keeps it. -/
def readsAnInt (nptr : Str) : Bool :=
  let s1 := nptr.dropWhile isspace
  let sgn : Bool × Str × Nat :=
    match s1 with
    | [] => (false, [], 0)
    | c :: r =>
      if c = '-' then (true, r, 1) else if c = '+' then (false, r, 1) else (false, c :: r, 0)
  decide ((scanDigits sgn.2.1 0 0).1 ≤ 2147483647)

/-- A root with the magic header and a fragment file whose ordinal text
denotes 4294967295, more than an `int` holds. -/
def largeOrdinalFs : FS :=
  [srcFile "GAME_0.pkg" [0x7F, 0x43, 0x4E, 0x54, 1], srcFile "GAME_4294967295.pkg" [5]]

/-- An implementation whose `std::sort` leaves pieces of equal `part` in the
reverse of the order they had. -/
def tiesReversedImpl (long_max : Int) (h : 2147483647 ≤ long_max) : Impl where
  LONG_MAX := long_max
  long_holds_int := h
  stdSort := fun parts => insertionSort parts.reverse
  stdSort_perm := fun parts =>
    ((stableImpl long_max h).stdSort_perm parts.reverse).trans (List.reverse_perm parts)
  stdSort_sorted := fun parts => (stableImpl long_max h).stdSort_sorted parts.reverse

/-- A terminal file listed first, then two fragment files whose ordinal texts
`0` and `00` denote the same number. -/
def scTieFs : FS :=
  [srcFile "X_sc.pkg" [9], srcFile "X_0.pkg" [1], srcFile "X_00.pkg" [2]]

/-! # Theorems -/

/-! ## Facts about the file system operations -/

theorem fwrite_cons (e : FileEntry) (rest : FS) (p : Path) (c : List Nat) :
    fwrite (e :: rest) p c
      = (if e.path = p then { e with bytes := e.bytes ++ c } else e) :: fwrite rest p c := rfl

theorem fsRemove_cons (e : FileEntry) (rest : FS) (p : Path) :
    fsRemove (e :: rest) p = if e.path = p then fsRemove rest p else e :: fsRemove rest p := by
  by_cases h : e.path = p <;> simp [fsRemove, List.filter_cons, h]

theorem readFile_fwrite_same (fs : FS) (p : Path) (c : List Nat) :
    readFile (fwrite fs p c) p = (readFile fs p).map (· ++ c) := by
  induction fs with
  | nil => rfl
  | cons e rest ih =>
    rw [fwrite_cons]
    by_cases h : e.path = p
    · simp [readFile, h]
    · simp [readFile, h, ih]

theorem readFile_fwrite_ne (fs : FS) (p q : Path) (c : List Nat) (hq : q ≠ p) :
    readFile (fwrite fs p c) q = readFile fs q := by
  induction fs with
  | nil => rfl
  | cons e rest ih =>
    rw [fwrite_cons]
    by_cases h : e.path = p
    · have hne : ¬ p = q := fun h2 => hq h2.symm
      simp [readFile, h, hne, ih]
    · by_cases h2 : e.path = q
      · simp [readFile, h2, hq]
      · simp [readFile, h, h2, ih]

theorem fwrite_nil (fs : FS) (p : Path) : fwrite fs p [] = fs := by
  induction fs with
  | nil => rfl
  | cons e rest ih => rw [fwrite_cons, ih]; simp

theorem fwrite_fwrite (fs : FS) (p : Path) (a b : List Nat) :
    fwrite (fwrite fs p a) p b = fwrite fs p (a ++ b) := by
  induction fs with
  | nil => rfl
  | cons e rest ih =>
    rw [fwrite_cons, fwrite_cons, fwrite_cons, ih]
    by_cases h : e.path = p <;> simp [h]

/-- The chunked loop writes exactly the bytes it was given, whatever the
positive buffer size, as soon as the iteration bound exceeds their number. -/
theorem copyLoop_eq_fwrite (B : Nat) (hB : 0 < B) (p : Path) :
    ∀ (fuel : Nat) (src : List Nat) (fs : FS), src.length < fuel →
      copyLoop B p fuel src fs = fwrite fs p src := by
  intro fuel
  induction fuel with
  | zero => intro src fs h; omega
  | succ n ih =>
    intro src fs h
    cases src with
    | nil => simp [copyLoop, fwrite_nil]
    | cons x xs =>
      have hpos : 0 < (List.take B (x :: xs)).length := by
        simp [List.length_take]; omega
      have hlen : (List.drop B (x :: xs)).length < n := by
        simp [List.length_drop] at h ⊢; omega
      simp only [copyLoop, hpos, if_true]
      rw [ih _ _ hlen, fwrite_fwrite, List.take_append_drop]

theorem readFile_fsRemove_same (fs : FS) (p : Path) : readFile (fsRemove fs p) p = none := by
  induction fs with
  | nil => rfl
  | cons e rest ih =>
    rw [fsRemove_cons]
    by_cases h : e.path = p
    · simp [h, ih]
    · simp [h, readFile, ih]

theorem readFile_fsRemove_ne (fs : FS) (p q : Path) (hq : q ≠ p) :
    readFile (fsRemove fs p) q = readFile fs q := by
  induction fs with
  | nil => rfl
  | cons e rest ih =>
    rw [fsRemove_cons]
    by_cases h : e.path = p
    · have hne : ¬ p = q := fun h2 => hq h2.symm
      simp [h, readFile, hne, ih]
    · by_cases h2 : e.path = q
      · simp [readFile, h2, hq]
      · simp [h, readFile, h2, ih]

theorem readFile_append (fs : FS) (e : FileEntry) (q : Path) :
    readFile (fs ++ [e]) q
      = match readFile fs q with
        | some b => some b
        | none => if e.path = q then some e.bytes else none := by
  induction fs with
  | nil => simp [readFile]
  | cons x rest ih =>
    by_cases h : x.path = q
    · simp [readFile, h]
    · simp [readFile, h, ih]

/-! ## One group -/

theorem contentOf_fwrite_ne (fs : FS) (p q : Path) (c : List Nat) (hq : q ≠ p) :
    contentOf (fwrite fs p c) q = contentOf fs q := by
  simp [contentOf, readFile_fwrite_ne fs p q c hq]

theorem appendPiece_ok (B : Nat) (hB : 0 < B) (merged file : Path) (fs : FS)
    (content : List Nat) (hr : readFile fs file = some content) (hne : content ≠ [])
    (hf : file ≠ merged) :
    appendPiece B merged fs file = Except.ok (fwrite fs merged content) := by
  have hl : content.length ≠ 0 := fun h => hne (List.length_eq_zero.mp h)
  simp only [appendPiece, hr, hl, hf, if_false]
  rw [copyLoop_eq_fwrite B hB merged _ _ _ (Nat.lt_succ_self _)]

theorem appendParts_ok (B : Nat) (hB : 0 < B) (merged : Path) :
    ∀ (parts : List Piece) (fs : FS),
      (∀ p ∈ parts, p.file ≠ merged ∧ ∃ b, readFile fs p.file = some b ∧ b ≠ []) →
      appendParts B merged parts fs = Except.ok (fwrite fs merged (piecesBytes fs parts)) := by
  intro parts
  induction parts with
  | nil => intro fs _; simp [appendParts, piecesBytes, fwrite_nil]
  | cons p rest ih =>
    intro fs h
    obtain ⟨hp, b, hb, hbne⟩ := h p (List.mem_cons_self _ _)
    have hrest : ∀ q ∈ rest, q.file ≠ merged ∧
        ∃ c, readFile (fwrite fs merged b) q.file = some c ∧ c ≠ [] := by
      intro q hq
      obtain ⟨hq1, c, hc, hcne⟩ := h q (List.mem_cons_of_mem _ hq)
      exact ⟨hq1, c, by rw [readFile_fwrite_ne fs merged q.file b hq1]; exact hc, hcne⟩
    have hbytes : piecesBytes (fwrite fs merged b) rest = piecesBytes fs rest := by
      unfold piecesBytes
      congr 1
      apply List.map_congr_left
      intro q hq
      exact contentOf_fwrite_ne fs merged q.file b (h q (List.mem_cons_of_mem _ hq)).1
    simp only [appendParts, appendPiece_ok B hB merged p.file fs b hb hbne hp]
    rw [ih _ hrest, fwrite_fwrite, hbytes]
    simp [piecesBytes, contentOf, hb]

theorem fsRemove_of_absent (fs : FS) (p : Path) (h : readFile fs p = none) :
    fsRemove fs p = fs := by
  induction fs with
  | nil => rfl
  | cons e rest ih =>
    rw [fsRemove_cons]
    by_cases hp : e.path = p
    · simp [readFile, hp] at h
    · simp only [readFile, hp, if_false] at h
      simp [hp, ih h]

theorem fsRemove_idem (fs : FS) (p : Path) : fsRemove (fsRemove fs p) p = fsRemove fs p :=
  fsRemove_of_absent _ _ (readFile_fsRemove_same fs p)

theorem fwrite_of_absent (fs : FS) (p : Path) (c : List Nat) (h : readFile fs p = none) :
    fwrite fs p c = fs := by
  induction fs with
  | nil => rfl
  | cons e rest ih =>
    rw [fwrite_cons]
    by_cases hp : e.path = p
    · simp [readFile, hp] at h
    · simp only [readFile, hp, if_false] at h
      simp [hp, ih h]

theorem fwrite_append_single (fs : FS) (p : Path) (a c : List Nat) :
    fwrite (fs ++ [⟨p, a⟩]) p c = fwrite fs p c ++ [⟨p, a ++ c⟩] := by
  simp [fwrite]

theorem contentOf_nonempty (fs : FS) (p : Path) (h : contentOf fs p ≠ []) :
    ∃ b, readFile fs p = some b ∧ b ≠ [] := by
  unfold contentOf at h
  cases hr : readFile fs p with
  | none => simp [hr] at h
  | some b => exact ⟨b, rfl, by simpa [hr] using h⟩

/-- The state in which the pieces are appended: the output file holds `a`. -/
theorem readFile_fresh_ne (fs : FS) (merged q : Path) (a : List Nat) (hq : q ≠ merged) :
    readFile (fsRemove fs merged ++ [⟨merged, a⟩]) q = readFile fs q := by
  rw [readFile_append, readFile_fsRemove_ne fs merged q hq]
  have : ¬ merged = q := fun h => hq h.symm
  cases readFile fs q <;> simp [this]

theorem readFile_fresh_same (fs : FS) (merged : Path) (a : List Nat) :
    readFile (fsRemove fs merged ++ [⟨merged, a⟩]) merged = some a := by
  rw [readFile_append, readFile_fsRemove_same]
  simp

theorem contentOf_fresh_ne (fs : FS) (merged q : Path) (a : List Nat) (hq : q ≠ merged) :
    contentOf (fsRemove fs merged ++ [⟨merged, a⟩]) q = contentOf fs q := by
  simp [contentOf, readFile_fresh_ne fs merged q a hq]

theorem fwrite_fresh (fs : FS) (merged : Path) (a c : List Nat) :
    fwrite (fsRemove fs merged ++ [⟨merged, a⟩]) merged c
      = fsRemove fs merged ++ [⟨merged, a ++ c⟩] := by
  rw [fwrite_append_single, fwrite_of_absent _ _ _ (readFile_fsRemove_same fs merged)]

theorem piecesBytes_fresh (fs : FS) (merged : Path) (a : List Nat) (parts : List Piece)
    (h : ∀ p ∈ parts, p.file ≠ merged) :
    piecesBytes (fsRemove fs merged ++ [⟨merged, a⟩]) parts = piecesBytes fs parts := by
  unfold piecesBytes
  congr 1
  apply List.map_congr_left
  intro q hq
  exact contentOf_fresh_ne fs merged q.file a (h q hq)

/-- Closed form of the loop body for one group: the old output file, if any,
is gone and a new one holds the root, the sorted pieces and the terminal piece. -/
theorem mergePackage_ok {tc : Impl} (B : Nat) (hB : 0 < B) (target_dir : Str) (fs : FS)
    (root : Str × Package) (h : Mergeable fs (fullMergedFile target_dir root) root.2) :
    mergePackage tc B target_dir fs root
      = Except.ok (fsRemove fs (fullMergedFile target_dir root)
          ++ [⟨fullMergedFile target_dir root, groupBytes tc fs root.2⟩]) := by
  obtain ⟨hex, hfile, hp⟩ := h
  generalize hm : fullMergedFile target_dir root = merged at *
  have hclear : fsRemove (if fsExists fs merged = true then fsRemove fs merged else fs) merged
      = fsRemove fs merged := by
    by_cases he : fsExists fs merged = true
    · rw [if_pos he, fsRemove_idem]
    · rw [if_neg he]
  obtain ⟨r, hr⟩ : ∃ r, readFile fs root.2.file = some r := by
    unfold fsExists at hex
    exact Option.isSome_iff_exists.mp hex
  have hr1 : readFile (if fsExists fs merged = true then fsRemove fs merged else fs) root.2.file
      = some r := by
    by_cases he : fsExists fs merged = true
    · rw [if_pos he, readFile_fsRemove_ne fs merged _ hfile, hr]
    · rw [if_neg he, hr]
  have hparts : ∀ p ∈ tc.stdSort root.2.parts, p.file ≠ merged ∧
      ∃ b, readFile (fsRemove fs merged ++ [⟨merged, r⟩]) p.file = some b ∧ b ≠ [] := by
    intro p hpm
    have hmem : p ∈ appended root.2 :=
      List.mem_append_left _ ((List.Perm.mem_iff (tc.stdSort_perm _)).mp hpm)
    obtain ⟨b, hb, hbne⟩ := contentOf_nonempty fs p.file (hp p hmem).1
    exact ⟨(hp p hmem).2, b, by rw [readFile_fresh_ne fs merged _ r (hp p hmem).2]; exact hb, hbne⟩
  have hpb : piecesBytes (fsRemove fs merged ++ [⟨merged, r⟩]) (tc.stdSort root.2.parts)
      = piecesBytes fs (tc.stdSort root.2.parts) :=
    piecesBytes_fresh fs merged r _ (fun p hpm => (hparts p hpm).1)
  unfold mergePackage
  simp only [hm, copy_file, hfile, if_false, hr1, hclear]
  rw [appendParts_ok B hB merged _ _ hparts, fwrite_fresh, hpb]
  cases hsc : root.2.sc_part with
  | none =>
    simp [groupBytes, scBytes, hsc, contentOf, hr]
  | some sc =>
    have hmem : sc ∈ appended root.2 := by simp [appended, hsc]
    obtain ⟨b, hb, hbne⟩ := contentOf_nonempty fs sc.file (hp sc hmem).1
    have hb2 : readFile (fsRemove fs merged ++ [⟨merged, r ++ piecesBytes fs (tc.stdSort root.2.parts)⟩])
        sc.file = some b := by
      rw [readFile_fresh_ne fs merged _ _ (hp sc hmem).2]; exact hb
    simp only []
    rw [appendPiece_ok B hB merged sc.file _ b hb2 hbne (hp sc hmem).2, fwrite_fresh]
    simp [groupBytes, scBytes, hsc, contentOf, hr, hb]

theorem length_piecesBytes (fs : FS) (parts : List Piece) :
    (piecesBytes fs parts).length = (parts.map fun p => (contentOf fs p.file).length).sum := by
  induction parts with
  | nil => rfl
  | cons p rest ih =>
    have : piecesBytes fs (p :: rest) = contentOf fs p.file ++ piecesBytes fs rest := by
      simp [piecesBytes]
    rw [this, List.length_append, ih]
    simp

/-! ## The loop bodies, by kind of file -/

theorem countStep_eq (n : Nat) (file : FileEntry) :
    countStep n file = if isTerminal file.path.name = true then n + 1 else n := by
  unfold countStep isTerminal isCandidate
  by_cases h1 : extension file.path.name = pkgExt <;>
  by_cases h2 : find file.path.name mergedTag = none <;>
  by_cases h3 : endsWith file.path.name scSuffix = true <;> simp [h1, h2, h3]

theorem firstPassStep_eq {tc : Impl} (uninit : List Nat) (packages : Packages) (file : FileEntry) :
    firstPassStep tc uninit packages file
      = if isFragment file.path.name = true then addFragment tc uninit packages file
        else packages := by
  unfold firstPassStep isFragment isCandidate
  by_cases h1 : extension file.path.name = pkgExt <;>
  by_cases h2 : find file.path.name mergedTag = none <;>
  by_cases h3 : endsWith file.path.name scSuffix = true <;> simp [h1, h2, h3]

theorem secondPassStep_eq (packages : Packages) (file : FileEntry) :
    secondPassStep packages file
      = if isTerminal file.path.name = true then
          (match packages with
            | [] => mapInsert [] (baseName file.path.name) (scPackage file)
            | (k, pkg) :: rest => (k, attachSc file pkg) :: rest)
        else packages := by
  unfold secondPassStep isTerminal isCandidate
  by_cases h1 : extension file.path.name = pkgExt <;>
  by_cases h2 : find file.path.name mergedTag = none <;>
  by_cases h3 : endsWith file.path.name scSuffix = true <;> simp [h1, h2, h3]

theorem multipleStep_eq {tc : Impl} (uninit : List Nat) (packages : Packages) (file : FileEntry) :
    multipleStep tc uninit packages file
      = if isTerminal file.path.name = true then
          (match mapFind packages (baseName file.path.name) with
            | none => mapInsert packages (baseName file.path.name) (scPackage file)
            | some _ => mapModify packages (baseName file.path.name) (attachSc file))
        else if isFragment file.path.name = true then addFragment tc uninit packages file
        else packages := by
  unfold multipleStep isTerminal isFragment isCandidate
  by_cases h1 : extension file.path.name = pkgExt <;>
  by_cases h2 : find file.path.name mergedTag = none <;>
  by_cases h3 : endsWith file.path.name scSuffix = true <;> simp [h1, h2, h3]

theorem foldl_countStep (files : List FileEntry) :
    ∀ n, files.foldl countStep n
      = n + (files.filter fun f => isTerminal f.path.name).length := by
  induction files with
  | nil => intro n; simp
  | cons f rest ih =>
    intro n
    rw [List.foldl_cons, ih, countStep_eq, List.filter_cons]
    by_cases h : isTerminal f.path.name = true
    · simp [h]; omega
    · simp [h]

/-- C2. In Single mode, when the source directory lists two or more files
with extension `.pkg`, without `-merged` in the name and ending in `_sc.pkg`,
`main` returns 1 before any group is built: the file system is the one the
run started from and no file is reported as created. -/
theorem single_mode_rejects_several_sc (tc : Impl) (uninit : List Nat) (fs : FS)
    (source_path target_path : Str)
    (h : 2 ≤ ((listDir fs source_path).filter fun f => isTerminal f.path.name).length) :
    pkgMain tc Mode.single uninit fs source_path target_path = Outcome.exit 1 fs [] := by
  unfold pkgMain
  simp only [foldl_countStep, Nat.zero_add]
  rw [if_pos]
  exact ⟨trivial, by omega⟩

theorem single_mode_rejects_several_sc_witness :
    2 ≤ ((listDir twoScFs "src".toList).filter fun f => isTerminal f.path.name).length ∧
    pkgMain impl32 Mode.single [0, 0, 0, 0] twoScFs "src".toList "out".toList
      = Outcome.exit 1 twoScFs [] :=
  ⟨by decide, single_mode_rejects_several_sc impl32 [0, 0, 0, 0] twoScFs "src".toList "out".toList
    (by decide)⟩

/-! ## What does not depend on the implementation -/

theorem stdSort_nil (tc : Impl) : tc.stdSort [] = [] := (tc.stdSort_perm []).eq_nil

theorem stdSort_singleton (tc : Impl) (p : Piece) : tc.stdSort [p] = [p] :=
  List.perm_singleton.mp (tc.stdSort_perm [p])

theorem intOfLong_of_int (v : Int) (h1 : -2147483648 ≤ v) (h2 : v ≤ 2147483647) :
    intOfLong v = v := by
  unfold intOfLong
  omega

theorem intOfLong_range (v : Int) : -2147483648 ≤ intOfLong v ∧ intOfLong v ≤ 2147483647 := by
  unfold intOfLong
  omega

/-- Two sorted rearrangements of the same pieces are equal when no two of the
pieces have the same `part`. -/
theorem sorted_perm_unique (l1 : List Piece) :
    ∀ l2 : List Piece, l1.Perm l2 →
      l1.Pairwise (fun a b => a.part ≤ b.part) → l2.Pairwise (fun a b => a.part ≤ b.part) →
      (∀ a ∈ l1, ∀ b ∈ l1, a.part = b.part → a = b) → l1 = l2 := by
  induction l1 with
  | nil =>
    intro l2 hp _ _ _
    exact hp.symm.eq_nil.symm
  | cons a t1 ih =>
    intro l2 hp h1 h2 hinj
    cases l2 with
    | nil => exact absurd hp.eq_nil (by simp)
    | cons b t2 =>
      have ha2 : a ∈ b :: t2 := hp.subset (List.mem_cons_self _ _)
      have hb1 : b ∈ a :: t1 := hp.symm.subset (List.mem_cons_self _ _)
      have hab : a = b := by
        apply hinj a (List.mem_cons_self _ _) b hb1
        apply le_antisymm
        · rcases List.mem_cons.mp hb1 with e | hb
          · rw [e]
          · exact (List.pairwise_cons.mp h1).1 b hb
        · rcases List.mem_cons.mp ha2 with e | ha
          · rw [e]
          · exact (List.pairwise_cons.mp h2).1 a ha
      subst hab
      have hp2 : t1.Perm t2 := (List.perm_cons a).mp hp
      rw [ih t2 hp2 (List.pairwise_cons.mp h1).2 (List.pairwise_cons.mp h2).2
        (fun x hx y hy => hinj x (List.mem_cons_of_mem _ hx) y (List.mem_cons_of_mem _ hy))]

/-- Every implementation sorts pieces of distinct `part` the same way. -/
theorem stdSort_unique (tc tc0 : Impl) (parts : List Piece)
    (h : ∀ a ∈ parts, ∀ b ∈ parts, a.part = b.part → a = b) :
    tc.stdSort parts = tc0.stdSort parts := by
  apply sorted_perm_unique _ _ ((tc.stdSort_perm parts).trans (tc0.stdSort_perm parts).symm)
    (tc.stdSort_sorted parts) (tc0.stdSort_sorted parts)
  intro a ha b hb
  exact h a ((tc.stdSort_perm parts).subset ha) b ((tc.stdSort_perm parts).subset hb)

/-- Every implementation reads a number within the range of `int` the same
way. -/
theorem strtol_of_readsAnInt (tc tc0 : Impl) (s : Str) (h : readsAnInt s = true) :
    strtol tc s = strtol tc0 s := by
  have kmin : ∀ (t : Impl) (d : Nat), d ≤ 2147483647 → min t.LONG_MAX (d : Int) = (d : Int) := by
    intro t d hd
    have hl := t.long_holds_int
    exact min_eq_right (by omega)
  have kmax : ∀ (t : Impl) (d : Nat), d ≤ 2147483647 →
      max (LONG_MIN t) (-(d : Int)) = -(d : Int) := by
    intro t d hd
    have hl := t.long_holds_int
    unfold LONG_MIN
    exact max_eq_right (by omega)
  unfold readsAnInt at h
  simp only [decide_eq_true_eq] at h
  unfold strtol
  simp only []
  split_ifs with h0 hneg
  · rfl
  · congr 1
    exact (kmax tc _ h).trans (kmax tc0 _ h).symm
  · congr 1
    exact (kmin tc _ h).trans (kmin tc0 _ h).symm

theorem foldl_congr_mem {α β : Type} (f g : α → β → α) :
    ∀ (l : List β) (a : α), (∀ x ∈ l, ∀ a, f a x = g a x) → l.foldl f a = l.foldl g a := by
  intro l
  induction l with
  | nil => intro a _; rfl
  | cons x xs ih =>
    intro a h
    rw [List.foldl_cons, List.foldl_cons, h x (List.mem_cons_self _ _),
      ih _ (fun y hy => h y (List.mem_cons_of_mem _ hy))]

theorem addFragment_impl (tc tc0 : Impl) (uninit : List Nat) (m : Packages) (file : FileEntry)
    (h : strtol tc (partText file.path.name) = strtol tc0 (partText file.path.name)) :
    addFragment tc uninit m file = addFragment tc0 uninit m file := by
  unfold addFragment
  simp only []
  rw [h]

/-- Discovery is the same with every implementation that reads the ordinals
of the fragment files the same way. -/
theorem discover_impl (tc tc0 : Impl) (mode : Mode) (uninit : List Nat) (files : List FileEntry)
    (h : ∀ f ∈ files, isFragment f.path.name = true →
      strtol tc (partText f.path.name) = strtol tc0 (partText f.path.name)) :
    discover tc mode uninit files = discover tc0 mode uninit files := by
  have h1 : ∀ f ∈ files, ∀ m, firstPassStep tc uninit m f = firstPassStep tc0 uninit m f := by
    intro f hf m
    rw [firstPassStep_eq, firstPassStep_eq]
    by_cases hfr : isFragment f.path.name = true
    · rw [if_pos hfr, if_pos hfr, addFragment_impl tc tc0 uninit m f (h f hf hfr)]
    · rw [if_neg hfr, if_neg hfr]
  have h3 : ∀ f ∈ files, ∀ m, multipleStep tc uninit m f = multipleStep tc0 uninit m f := by
    intro f hf m
    rw [multipleStep_eq, multipleStep_eq]
    by_cases ht : isTerminal f.path.name = true
    · rw [if_pos ht, if_pos ht]
    · rw [if_neg ht, if_neg ht]
      by_cases hfr : isFragment f.path.name = true
      · rw [if_pos hfr, if_pos hfr, addFragment_impl tc tc0 uninit m f (h f hf hfr)]
      · rw [if_neg hfr, if_neg hfr]
  cases mode with
  | single =>
    unfold discover
    simp only []
    rw [foldl_congr_mem _ _ files [] h1]
  | multiple =>
    unfold discover
    simp only []
    rw [foldl_congr_mem _ _ files [] h3]

theorem mergePackage_impl (tc tc0 : Impl) (B : Nat) (target_dir : Str) (fs : FS)
    (root : Str × Package) (h : tc.stdSort root.2.parts = tc0.stdSort root.2.parts) :
    mergePackage tc B target_dir fs root = mergePackage tc0 B target_dir fs root := by
  unfold mergePackage
  simp only []
  rw [h]

theorem mergeLoop_impl (tc tc0 : Impl) (B : Nat) (target_dir : Str) :
    ∀ (packages : Packages) (fs : FS) (c : List Path),
      (∀ root ∈ packages, tc.stdSort root.2.parts = tc0.stdSort root.2.parts) →
      mergeLoop tc B target_dir packages fs c = mergeLoop tc0 B target_dir packages fs c := by
  intro packages
  induction packages with
  | nil => intro fs c _; rfl
  | cons root rest ih =>
    intro fs c h
    unfold mergeLoop
    rw [mergePackage_impl tc tc0 B target_dir fs root (h root (List.mem_cons_self _ _))]
    cases mergePackage tc0 B target_dir fs root with
    | error e => rfl
    | ok fs1 => exact ih fs1 _ (fun r hr => h r (List.mem_cons_of_mem _ hr))

/-- A run is the same with every implementation when the ordinals of the
fragment files are numbers within the range of `int` and no group has two
numbered pieces of the same ordinal. -/
theorem pkgMain_impl (tc tc0 : Impl) (mode : Mode) (uninit : List Nat) (fs : FS)
    (source_path target_path : Str)
    (hnum : ∀ f ∈ listDir fs source_path, isFragment f.path.name = true →
      readsAnInt (partText f.path.name) = true)
    (hties : ∀ root ∈ discover tc0 mode uninit (listDir fs source_path),
      ∀ a ∈ root.2.parts, ∀ b ∈ root.2.parts, a.part = b.part → a = b) :
    pkgMain tc mode uninit fs source_path target_path
      = pkgMain tc0 mode uninit fs source_path target_path := by
  have hd : discover tc mode uninit (listDir fs source_path)
      = discover tc0 mode uninit (listDir fs source_path) :=
    discover_impl tc tc0 mode uninit _
      (fun f hf hfr => strtol_of_readsAnInt tc tc0 _ (hnum f hf hfr))
  unfold pkgMain merge
  simp only []
  rw [hd]
  split_ifs
  · rfl
  · cases bufferSize fs (discover tc0 mode uninit (listDir fs source_path)) with
    | none => rfl
    | some B =>
      simp only []
      rw [mergeLoop_impl tc tc0 B target_path _ fs []
        (fun root hr => stdSort_unique tc tc0 _ (hties root hr))]

/-- Discovery is the same with every implementation when the ordinals of
the fragment files are numbers within the range of `int`. -/
theorem discover_any_impl (tc tc0 : Impl) (mode : Mode) (uninit : List Nat)
    (files : List FileEntry)
    (hnum : ∀ f ∈ files, isFragment f.path.name = true →
      readsAnInt (partText f.path.name) = true) :
    discover tc mode uninit files = discover tc0 mode uninit files :=
  discover_impl tc tc0 mode uninit files
    (fun f hf hfr => strtol_of_readsAnInt tc tc0 _ (hnum f hf hfr))

/-- The function `merge` does the same with every implementation when no
group has two numbered pieces of the same ordinal. -/
theorem merge_any_impl (tc tc0 : Impl) (fs : FS) (packages : Packages) (target_dir : Str)
    (hties : ∀ root ∈ packages, ∀ a ∈ root.2.parts, ∀ b ∈ root.2.parts,
      a.part = b.part → a = b) :
    merge tc fs packages target_dir = merge tc0 fs packages target_dir := by
  unfold merge
  cases bufferSize fs packages with
  | none => rfl
  | some B =>
    simp only []
    rw [mergeLoop_impl tc tc0 B target_dir _ fs []
      (fun root hr => stdSort_unique tc tc0 _ (hties root hr))]

/-! ## The loop body for one group, read backwards -/

theorem appendPiece_inv (B : Nat) (merged file : Path) (fs fs1 : FS)
    (h : appendPiece B merged fs file = Except.ok fs1) :
    file ≠ merged ∧ ∃ b, readFile fs file = some b ∧ b ≠ [] := by
  unfold appendPiece at h
  cases hr : readFile fs file with
  | none => simp [hr] at h
  | some b =>
    simp only [hr] at h
    by_cases hl : b.length = 0
    · simp [hl] at h
    · by_cases hf : file = merged
      · simp [hl, hf] at h
      · exact ⟨hf, b, rfl, fun hb => hl (by simp [hb])⟩

theorem appendParts_inv (B : Nat) (hB : 0 < B) (merged : Path) :
    ∀ (parts : List Piece) (fs fs1 : FS), appendParts B merged parts fs = Except.ok fs1 →
      ∀ p ∈ parts, p.file ≠ merged ∧ ∃ b, readFile fs p.file = some b ∧ b ≠ [] := by
  intro parts
  induction parts with
  | nil => intro fs fs1 _ p hp; cases hp
  | cons q rest ih =>
    intro fs fs1 h p hp
    unfold appendParts at h
    cases hq : appendPiece B merged fs q.file with
    | error e => simp [hq] at h
    | ok fs2 =>
      simp only [hq] at h
      obtain ⟨hq1, b, hb, hbne⟩ := appendPiece_inv B merged q.file fs fs2 hq
      rcases List.mem_cons.mp hp with h1 | h1
      · rw [h1]; exact ⟨hq1, b, hb, hbne⟩
      · have hfs2 : fs2 = fwrite fs merged b := by
          have := appendPiece_ok B hB merged q.file fs b hb hbne hq1
          rw [hq] at this
          exact Except.ok.inj this
        obtain ⟨hp1, c, hc, hcne⟩ := ih fs2 fs1 h p h1
        rw [hfs2, readFile_fwrite_ne fs merged p.file b hp1] at hc
        exact ⟨hp1, c, hc, hcne⟩

theorem contentOf_ne_nil_of_read (fs : FS) (p : Path) (b : List Nat)
    (h : readFile fs p = some b) (hb : b ≠ []) : contentOf fs p ≠ [] := by
  simp [contentOf, h, hb]

theorem readFile_cleared_ne (fs : FS) (merged q : Path) (hq : q ≠ merged) :
    readFile (if fsExists fs merged = true then fsRemove fs merged else fs) q = readFile fs q := by
  by_cases he : fsExists fs merged = true
  · rw [if_pos he, readFile_fsRemove_ne fs merged q hq]
  · rw [if_neg he]

theorem fsRemove_cleared (fs : FS) (merged : Path) :
    fsRemove (if fsExists fs merged = true then fsRemove fs merged else fs) merged
      = fsRemove fs merged := by
  by_cases he : fsExists fs merged = true
  · rw [if_pos he, fsRemove_idem]
  · rw [if_neg he]

/-- When the loop body for a group ends normally, the group was mergeable. -/
theorem mergePackage_inv {tc : Impl} (B : Nat) (hB : 0 < B) (target_dir : Str) (fs fs1 : FS)
    (root : Str × Package) (h : mergePackage tc B target_dir fs root = Except.ok fs1) :
    Mergeable fs (fullMergedFile target_dir root) root.2 := by
  unfold mergePackage at h
  generalize hm : fullMergedFile target_dir root = merged at *
  simp only [copy_file] at h
  by_cases hfile : root.2.file = merged
  · simp [hfile] at h
  · simp only [hfile, if_false] at h
    cases hr : readFile (if fsExists fs merged = true then fsRemove fs merged else fs)
        root.2.file with
    | none => simp [hr] at h
    | some r =>
      simp only [hr, fsRemove_cleared] at h
      have hr0 : readFile fs root.2.file = some r := by
        rw [← readFile_cleared_ne fs merged _ hfile]; exact hr
      cases hp : appendParts B merged (tc.stdSort root.2.parts)
          (fsRemove fs merged ++ [⟨merged, r⟩]) with
      | error e => simp [hp] at h
      | ok fs3 =>
        simp only [hp] at h
        have hparts := appendParts_inv B hB merged _ _ _ hp
        have hparts0 : ∀ p ∈ root.2.parts, contentOf fs p.file ≠ [] ∧ p.file ≠ merged := by
          intro p hpm
          obtain ⟨h1, b, hb, hbne⟩ :=
            hparts p ((List.Perm.mem_iff (tc.stdSort_perm _)).mpr hpm)
          rw [readFile_fresh_ne fs merged _ r h1] at hb
          exact ⟨contentOf_ne_nil_of_read fs _ b hb hbne, h1⟩
        have hfs3 : fs3 = fsRemove fs merged
            ++ [⟨merged, r ++ piecesBytes (fsRemove fs merged ++ [⟨merged, r⟩])
                  (tc.stdSort root.2.parts)⟩] := by
          have := appendParts_ok B hB merged _ _ hparts
          rw [hp, fwrite_fresh] at this
          exact Except.ok.inj this
        refine ⟨by simp [fsExists, hr0], hfile, ?_⟩
        intro p hpm
        unfold appended at hpm
        rcases List.mem_append.mp hpm with h1 | h1
        · exact hparts0 p h1
        · cases hsc : root.2.sc_part with
          | none => simp [hsc] at h1
          | some sc =>
            simp only [hsc, List.mem_singleton] at h1
            simp only [hsc] at h
            obtain ⟨h2, b, hb, hbne⟩ := appendPiece_inv B merged sc.file fs3 fs1 h
            rw [hfs3, readFile_fresh_ne fs merged _ _ h2] at hb
            rw [h1]
            exact ⟨contentOf_ne_nil_of_read fs _ b hb hbne, h2⟩

/-! ## What a group's output depends on -/

theorem contentOf_congr (fs gs : FS) (p : Path) (h : readFile fs p = readFile gs p) :
    contentOf fs p = contentOf gs p := by
  simp [contentOf, h]

theorem mem_fragmentPaths_file (pkg : Package) : pkg.file ∈ fragmentPaths pkg :=
  List.mem_cons_self _ _

theorem mem_fragmentPaths_appended (pkg : Package) (p : Piece) (h : p ∈ appended pkg) :
    p.file ∈ fragmentPaths pkg :=
  List.mem_cons_of_mem _ (List.mem_map_of_mem (fun p => p.file) h)

theorem mem_appended_of_sorted {tc : Impl}
    (pkg : Package) (p : Piece) (h : p ∈ tc.stdSort pkg.parts) :
    p ∈ appended pkg :=
  List.mem_append_left _ ((List.Perm.mem_iff (tc.stdSort_perm _)).mp h)

theorem groupBytes_congr {tc : Impl} (fs gs : FS) (pkg : Package)
    (h : ∀ p ∈ fragmentPaths pkg, readFile fs p = readFile gs p) :
    groupBytes tc fs pkg = groupBytes tc gs pkg := by
  unfold groupBytes
  have h1 : contentOf fs pkg.file = contentOf gs pkg.file :=
    contentOf_congr _ _ _ (h _ (mem_fragmentPaths_file pkg))
  have h2 : piecesBytes fs (tc.stdSort pkg.parts) = piecesBytes gs (tc.stdSort pkg.parts) := by
    unfold piecesBytes
    congr 1
    apply List.map_congr_left
    intro q hq
    exact contentOf_congr _ _ _
      (h _ (mem_fragmentPaths_appended pkg q (mem_appended_of_sorted pkg q hq)))
  have h3 : scBytes fs pkg.sc_part = scBytes gs pkg.sc_part := by
    cases hsc : pkg.sc_part with
    | none => rfl
    | some sc =>
      have : sc ∈ appended pkg := by simp [appended, hsc]
      exact contentOf_congr _ _ _ (h _ (mem_fragmentPaths_appended pkg sc this))
  rw [h1, h2, h3]

theorem Mergeable_congr (fs gs : FS) (merged : Path) (pkg : Package)
    (h : ∀ p ∈ fragmentPaths pkg, readFile fs p = readFile gs p)
    (hm : Mergeable fs merged pkg) : Mergeable gs merged pkg := by
  obtain ⟨h1, h2, h3⟩ := hm
  refine ⟨?_, h2, ?_⟩
  · unfold fsExists at h1 ⊢
    rw [← h _ (mem_fragmentPaths_file pkg)]; exact h1
  · intro p hp
    rw [← contentOf_congr fs gs p.file (h _ (mem_fragmentPaths_appended pkg p hp))]
    exact h3 p hp

/-! ## The loop over the groups -/

theorem outputsOf_cons (target_dir : Str) (root : Str × Package) (rest : Packages) :
    outputsOf target_dir (root :: rest)
      = fullMergedFile target_dir root :: outputsOf target_dir rest := rfl

theorem mergeLoop_created {tc : Impl} (B : Nat) (target_dir : Str) :
    ∀ (packages : Packages) (fs fs1 : FS) (c c1 : List Path),
      mergeLoop tc B target_dir packages fs c = Except.ok (fs1, c1) →
      c1 = c ++ outputsOf target_dir packages := by
  intro packages
  induction packages with
  | nil =>
    intro fs fs1 c c1 h
    simp only [mergeLoop, Except.ok.injEq, Prod.mk.injEq] at h
    simp [outputsOf, h.2]
  | cons root rest ih =>
    intro fs fs1 c c1 h
    unfold mergeLoop at h
    cases hm : mergePackage tc B target_dir fs root with
    | error e => simp [hm] at h
    | ok fs2 =>
      simp only [hm] at h
      rw [ih _ _ _ _ h]
      simp [outputsOf]

/-- Two runs of the loop from file systems that agree on every file the
groups refer to: if one ends normally so does the other, with the same list
of created files; the files on which the two file systems agreed still agree
at the end, and so do the output files. -/
theorem mergeLoop_agree {tc : Impl} (B : Nat) (hB : 0 < B) (target_dir : Str) :
    ∀ (packages : Packages) (fs gs fs1 : FS) (c c1 : List Path),
      (∀ root ∈ packages, ∀ p ∈ fragmentPaths root.2, readFile fs p = readFile gs p) →
      mergeLoop tc B target_dir packages fs c = Except.ok (fs1, c1) →
      ∃ gs1, mergeLoop tc B target_dir packages gs c = Except.ok (gs1, c1) ∧
        (∀ p, readFile fs p = readFile gs p → readFile fs1 p = readFile gs1 p) ∧
        (∀ p ∈ outputsOf target_dir packages, readFile fs1 p = readFile gs1 p) := by
  intro packages
  induction packages with
  | nil =>
    intro fs gs fs1 c c1 _ h
    simp only [mergeLoop, Except.ok.injEq, Prod.mk.injEq] at h
    refine ⟨gs, by simp [mergeLoop, h.2], ?_, ?_⟩
    · intro p hp; rw [← h.1]; exact hp
    · intro p hp; simp [outputsOf] at hp
  | cons root rest ih =>
    intro fs gs fs1 c c1 hagree h
    unfold mergeLoop at h
    cases hm : mergePackage tc B target_dir fs root with
    | error e => simp [hm] at h
    | ok fs2 =>
      simp only [hm] at h
      have hroot := hagree root (List.mem_cons_self _ _)
      have hmf := mergePackage_inv B hB target_dir fs fs2 root hm
      have hmg := Mergeable_congr fs gs _ root.2 hroot hmf
      have hfs2 : fs2 = fsRemove fs (fullMergedFile target_dir root)
          ++ [⟨fullMergedFile target_dir root, groupBytes tc fs root.2⟩] := by
        have := @mergePackage_ok tc B hB target_dir fs root hmf
        rw [hm] at this
        exact Except.ok.inj this
      have hgs2 := @mergePackage_ok tc B hB target_dir gs root hmg
      rw [← groupBytes_congr fs gs root.2 hroot] at hgs2
      have hstep : ∀ p, readFile fs p = readFile gs p →
          readFile fs2 p = readFile (fsRemove gs (fullMergedFile target_dir root)
            ++ [⟨fullMergedFile target_dir root, groupBytes tc fs root.2⟩]) p := by
        intro p hp
        rw [hfs2]
        by_cases hpo : p = fullMergedFile target_dir root
        · rw [hpo, readFile_fresh_same, readFile_fresh_same]
        · rw [readFile_fresh_ne _ _ _ _ hpo, readFile_fresh_ne _ _ _ _ hpo, hp]
      have hagree2 : ∀ r ∈ rest, ∀ p ∈ fragmentPaths r.2,
          readFile fs2 p = readFile (fsRemove gs (fullMergedFile target_dir root)
            ++ [⟨fullMergedFile target_dir root, groupBytes tc fs root.2⟩]) p :=
        fun r hr p hp => hstep p (hagree r (List.mem_cons_of_mem _ hr) p hp)
      obtain ⟨gs1, hg1, hg2, hg3⟩ := ih fs2 _ fs1 _ c1 hagree2 h
      refine ⟨gs1, ?_, ?_, ?_⟩
      · unfold mergeLoop
        simp only [hgs2]
        exact hg1
      · intro p hp; exact hg2 p (hstep p hp)
      · intro p hp
        rw [outputsOf_cons] at hp
        rcases List.mem_cons.mp hp with h1 | h1
        · apply hg2
          rw [h1, hfs2, readFile_fresh_same, readFile_fresh_same]
        · exact hg3 p h1

/-- The loop leaves alone every file that is not an output file. -/
theorem mergeLoop_frame {tc : Impl} (B : Nat) (hB : 0 < B) (target_dir : Str) :
    ∀ (packages : Packages) (fs fs1 : FS) (c c1 : List Path),
      mergeLoop tc B target_dir packages fs c = Except.ok (fs1, c1) →
      (∀ p, p ∉ outputsOf target_dir packages → readFile fs1 p = readFile fs p) ∧
      (∀ keep : FileEntry → Bool,
        (∀ e, e.path ∈ outputsOf target_dir packages → keep e = false) →
        fs1.filter keep = fs.filter keep) := by
  intro packages
  induction packages with
  | nil =>
    intro fs fs1 c c1 h
    simp only [mergeLoop, Except.ok.injEq, Prod.mk.injEq] at h
    rw [h.1]
    exact ⟨fun _ _ => rfl, fun _ _ => rfl⟩
  | cons root rest ih =>
    intro fs fs1 c c1 h
    unfold mergeLoop at h
    cases hm : mergePackage tc B target_dir fs root with
    | error e => simp [hm] at h
    | ok fs2 =>
      simp only [hm] at h
      have hmf := mergePackage_inv B hB target_dir fs fs2 root hm
      have hfs2 : fs2 = fsRemove fs (fullMergedFile target_dir root)
          ++ [⟨fullMergedFile target_dir root, groupBytes tc fs root.2⟩] := by
        have := @mergePackage_ok tc B hB target_dir fs root hmf
        rw [hm] at this
        exact Except.ok.inj this
      obtain ⟨h1, h2⟩ := ih fs2 fs1 _ c1 h
      constructor
      · intro p hp
        have hp1 : p ≠ fullMergedFile target_dir root := by
          intro he; apply hp; rw [outputsOf_cons, he]; exact List.mem_cons_self _ _
        have hp2 : p ∉ outputsOf target_dir rest := by
          intro he; apply hp; rw [outputsOf_cons]; exact List.mem_cons_of_mem _ he
        rw [h1 p hp2, hfs2, readFile_fresh_ne _ _ _ _ hp1]
      · intro keep hkeep
        have hk2 : ∀ e, e.path ∈ outputsOf target_dir rest → keep e = false := by
          intro e he; apply hkeep
          rw [outputsOf_cons]; exact List.mem_cons_of_mem _ he
        have hk1 : ∀ e : FileEntry, e.path = fullMergedFile target_dir root → keep e = false := by
          intro e he; apply hkeep; rw [outputsOf_cons, he]; exact List.mem_cons_self _ _
        rw [h2 keep hk2, hfs2, List.filter_append]
        have hlast : List.filter keep
            [(⟨fullMergedFile target_dir root, groupBytes tc fs root.2⟩ : FileEntry)] = [] := by
          simp [List.filter_cons, hk1 ⟨fullMergedFile target_dir root, groupBytes tc fs root.2⟩ rfl]
        rw [hlast, List.append_nil]
        unfold fsRemove
        rw [List.filter_filter]
        apply List.filter_congr
        intro e _
        by_cases he : e.path = fullMergedFile target_dir root
        · simp [hk1 e he]
        · simp [he]

/-! ## The scan for the largest size -/

theorem scanParts_congr (fs gs : FS) :
    ∀ (parts : List Piece) (m : Nat),
      (∀ p ∈ parts, readFile fs p.file = readFile gs p.file) →
      scanParts fs parts m = scanParts gs parts m := by
  intro parts
  induction parts with
  | nil => intro m _; rfl
  | cons q rest ih =>
    intro m h
    have hq : file_size fs q.file = file_size gs q.file := by
      simp [file_size, h q (List.mem_cons_self _ _)]
    unfold scanParts
    rw [hq]
    cases file_size gs q.file with
    | none => rfl
    | some sz => exact ih _ (fun p hp => h p (List.mem_cons_of_mem _ hp))

theorem scanPackages_congr (fs gs : FS) :
    ∀ (packages : Packages) (m : Nat),
      (∀ root ∈ packages, ∀ p ∈ fragmentPaths root.2, readFile fs p = readFile gs p) →
      scanPackages fs packages m = scanPackages gs packages m := by
  intro packages
  induction packages with
  | nil => intro m _; rfl
  | cons root rest ih =>
    intro m h
    have hroot := h root (List.mem_cons_self _ _)
    have hrest : ∀ r ∈ rest, ∀ p ∈ fragmentPaths r.2, readFile fs p = readFile gs p :=
      fun r hr => h r (List.mem_cons_of_mem _ hr)
    have hparts : ∀ p ∈ root.2.parts, readFile fs p.file = readFile gs p.file :=
      fun p hp => hroot _ (mem_fragmentPaths_appended root.2 p (List.mem_append_left _ hp))
    unfold scanPackages
    rw [scanParts_congr fs gs root.2.parts m hparts]
    cases scanParts gs root.2.parts m with
    | none => rfl
    | some m1 =>
      cases hsc : root.2.sc_part with
      | none => exact ih _ hrest
      | some sc =>
        have hmem : sc ∈ appended root.2 := by simp [appended, hsc]
        have hs : file_size fs sc.file = file_size gs sc.file := by
          simp [file_size, hroot _ (mem_fragmentPaths_appended root.2 sc hmem)]
        simp only [hs]
        cases file_size gs sc.file with
        | none => rfl
        | some sz => exact ih _ hrest

theorem chooseBufferSize_pos (m : Nat) : 0 < chooseBufferSize m := by
  unfold chooseBufferSize
  split_ifs <;> omega

/-! ## Output names are never candidates -/

theorem startsWith_append (p y : Str) : startsWith (p ++ y) p = true := by
  induction p with
  | nil => cases y <;> rfl
  | cons c cs ih => simp [startsWith, ih]

theorem find_append_isSome (x p y : Str) : (find (x ++ (p ++ y)) p).isSome = true := by
  induction x with
  | nil =>
    cases hpy : p ++ y with
    | nil =>
      have hp : p = [] := (List.append_eq_nil.mp hpy).1
      simp [find, hp]
    | cons c cs =>
      have : startsWith (c :: cs) p = true := by rw [← hpy]; exact startsWith_append p y
      simp [find, this]
  | cons c cs ih =>
    rw [List.cons_append]
    unfold find
    by_cases hs : startsWith (c :: (cs ++ (p ++ y))) p = true
    · simp [hs]
    · simp only [hs, Bool.false_eq_true, if_false, Option.isSome_map']
      exact ih

theorem isCandidate_merged (x : Str) : isCandidate (x ++ mergedSuffix) = false := by
  have h : (find (x ++ (mergedTag ++ pkgExt)) mergedTag).isSome = true :=
    find_append_isSome x mergedTag pkgExt
  have hs : mergedSuffix = mergedTag ++ pkgExt := by decide
  unfold isCandidate
  rw [hs]
  cases hf : find (x ++ (mergedTag ++ pkgExt)) mergedTag with
  | none => rw [hf] at h; cases h
  | some i => simp

theorem isCandidate_output (target_dir : Str) (root : Str × Package) :
    isCandidate (fullMergedFile target_dir root).name = false := by
  unfold fullMergedFile mergedFileName
  split_ifs <;> exact isCandidate_merged _

theorem isCandidate_of_mem_outputs (target_dir : Str) (packages : Packages) (p : Path)
    (h : p ∈ outputsOf target_dir packages) : isCandidate p.name = false := by
  unfold outputsOf at h
  obtain ⟨root, _, hr⟩ := List.mem_map.mp h
  rw [← hr]
  exact isCandidate_output target_dir root

/-! ## Where the files of the groups come from -/

theorem mem_mapInsert (m : Packages) (k : Str) (v : Package) (kv : Str × Package)
    (h : kv ∈ mapInsert m k v) : kv ∈ m ∨ kv = (k, v) := by
  induction m with
  | nil => right; simpa [mapInsert] using h
  | cons x rest ih =>
    obtain ⟨xk, xv⟩ := x
    unfold mapInsert at h
    split_ifs at h with h1 h2
    · rcases List.mem_cons.mp h with h3 | h3
      · exact Or.inr h3
      · exact Or.inl h3
    · exact Or.inl h
    · rcases List.mem_cons.mp h with h3 | h3
      · left; rw [h3]; exact List.mem_cons_self _ _
      · rcases ih h3 with h4 | h4
        · exact Or.inl (List.mem_cons_of_mem _ h4)
        · exact Or.inr h4

theorem Good_nil (S : Path → Prop) : Good S [] := by
  intro kv h; cases h

theorem Good_mapInsert (S : Path → Prop) (m : Packages) (k : Str) (v : Package)
    (hm : Good S m) (hv : ∀ p ∈ fragmentPaths v, S p) : Good S (mapInsert m k v) := by
  intro kv hkv
  rcases mem_mapInsert m k v kv hkv with h | h
  · exact hm kv h
  · rw [h]; exact hv

theorem Good_mapModify (S : Path → Prop) (m : Packages) (k : Str) (f : Package → Package)
    (hm : Good S m)
    (hf : ∀ pkg, (∀ p ∈ fragmentPaths pkg, S p) → ∀ p ∈ fragmentPaths (f pkg), S p) :
    Good S (mapModify m k f) := by
  intro kv hkv
  unfold mapModify at hkv
  obtain ⟨kv0, h0, h1⟩ := List.mem_map.mp hkv
  by_cases hk : kv0.1 = k
  · rw [if_pos hk] at h1
    rw [← h1]
    exact hf kv0.2 (hm kv0 h0)
  · rw [if_neg hk] at h1
    rw [← h1]
    exact hm kv0 h0

theorem mem_fragmentPaths (pkg : Package) (p : Path) :
    p ∈ fragmentPaths pkg ↔
      p = pkg.file ∨ (∃ q ∈ pkg.parts, q.file = p) ∨ (∃ sc, pkg.sc_part = some sc ∧ sc.file = p) := by
  unfold fragmentPaths appended
  cases hsc : pkg.sc_part with
  | none => simp
  | some sc =>
    simp only [List.mem_cons, List.mem_map, List.mem_append, Option.some.injEq]
    constructor
    · rintro (h | ⟨q, (hq | hq | hq), hqp⟩)
      · exact Or.inl h
      · exact Or.inr (Or.inl ⟨q, hq, hqp⟩)
      · exact Or.inr (Or.inr ⟨sc, rfl, by rw [← hq]; exact hqp⟩)
      · cases hq
    · rintro (h | ⟨q, hq, hqp⟩ | ⟨s, hs, hsp⟩)
      · exact Or.inl h
      · exact Or.inr ⟨q, Or.inl hq, hqp⟩
      · exact Or.inr ⟨sc, Or.inr (Or.inl rfl), by rw [hs]; exact hsp⟩

theorem Good_addFragment {tc : Impl} (S : Path → Prop) (uninit : List Nat) (m : Packages)
    (file : FileEntry) (hm : Good S m) (hf : S file.path) :
    Good S (addFragment tc uninit m file) := by
  unfold addFragment
  simp only []
  by_cases h1 : (strtol tc (partText file.path.name)).2 = none
  · rw [if_pos h1]; exact hm
  · rw [if_neg h1]
    cases hfind : mapFind m (titleId file.path.name) with
    | some v =>
      simp only []
      apply Good_mapModify S m _ _ hm
      intro pkg hpkg p hp
      rcases (mem_fragmentPaths _ p).mp hp with h | ⟨q, hq, hqp⟩ | ⟨sc, hsc, hsp⟩
      · exact hpkg p ((mem_fragmentPaths pkg p).mpr (Or.inl h))
      · rcases List.mem_append.mp hq with h2 | h2
        · exact hpkg p ((mem_fragmentPaths pkg p).mpr (Or.inr (Or.inl ⟨q, h2, hqp⟩)))
        · rw [List.mem_singleton] at h2
          rw [← hqp, h2]; exact hf
      · exact hpkg p ((mem_fragmentPaths pkg p).mpr (Or.inr (Or.inr ⟨sc, hsc, hsp⟩)))
    | none =>
      simp only []
      split_ifs with h2
      · exact hm
      · apply Good_mapInsert S m _ _ hm
        intro p hp
        rcases (mem_fragmentPaths _ p).mp hp with h | ⟨q, hq, _⟩ | ⟨sc, hsc, _⟩
        · rw [h]; exact hf
        · simp [Package.new] at hq
        · simp [Package.new] at hsc

theorem fragmentPaths_scPackage (S : Path → Prop) (file : FileEntry) (hf : S file.path) :
    ∀ p ∈ fragmentPaths (scPackage file), S p := by
  intro p hp
  rcases (mem_fragmentPaths _ p).mp hp with h | ⟨q, hq, _⟩ | ⟨sc, hsc, hsp⟩
  · rw [h]; exact hf
  · simp [scPackage, Package.new] at hq
  · simp only [scPackage, Option.some.injEq] at hsc
    rw [← hsp, ← hsc]; exact hf

theorem fragmentPaths_attachSc (S : Path → Prop) (file : FileEntry) (hf : S file.path)
    (pkg : Package) (hpkg : ∀ p ∈ fragmentPaths pkg, S p) :
    ∀ p ∈ fragmentPaths (attachSc file pkg), S p := by
  intro p hp
  rcases (mem_fragmentPaths _ p).mp hp with h | ⟨q, hq, hqp⟩ | ⟨sc, hsc, hsp⟩
  · exact hpkg p ((mem_fragmentPaths pkg p).mpr (Or.inl h))
  · exact hpkg p ((mem_fragmentPaths pkg p).mpr (Or.inr (Or.inl ⟨q, hq, hqp⟩)))
  · simp only [attachSc, Option.some.injEq] at hsc
    rw [← hsp, ← hsc]; exact hf

theorem Good_firstPassStep {tc : Impl} (S : Path → Prop) (uninit : List Nat) (m : Packages)
    (file : FileEntry) (hm : Good S m) (hf : isCandidate file.path.name = true → S file.path) :
    Good S (firstPassStep tc uninit m file) := by
  rw [firstPassStep_eq]
  split_ifs with h
  · exact Good_addFragment S uninit m file hm
      (hf (by unfold isFragment at h; simp at h; exact h.1))
  · exact hm

theorem Good_secondPassStep (S : Path → Prop) (m : Packages)
    (file : FileEntry) (hm : Good S m) (hf : isCandidate file.path.name = true → S file.path) :
    Good S (secondPassStep m file) := by
  rw [secondPassStep_eq]
  split_ifs with h
  · have hS : S file.path := hf (by unfold isTerminal at h; simp at h; exact h.1)
    cases m with
    | nil => exact Good_mapInsert S [] _ _ (Good_nil S) (fragmentPaths_scPackage S file hS)
    | cons x rest =>
      obtain ⟨k, pkg⟩ := x
      intro kv hkv
      rcases List.mem_cons.mp hkv with h1 | h1
      · rw [h1]
        exact fragmentPaths_attachSc S file hS pkg (hm (k, pkg) (List.mem_cons_self _ _))
      · exact hm kv (List.mem_cons_of_mem _ h1)
  · exact hm

theorem Good_multipleStep {tc : Impl} (S : Path → Prop) (uninit : List Nat) (m : Packages)
    (file : FileEntry) (hm : Good S m) (hf : isCandidate file.path.name = true → S file.path) :
    Good S (multipleStep tc uninit m file) := by
  rw [multipleStep_eq]
  split_ifs with h h2
  · have hS : S file.path := hf (by unfold isTerminal at h; simp at h; exact h.1)
    split
    · exact Good_mapInsert S m _ _ hm (fragmentPaths_scPackage S file hS)
    · exact Good_mapModify S m _ _ hm (fragmentPaths_attachSc S file hS)
  · exact Good_addFragment S uninit m file hm
      (hf (by unfold isFragment at h2; simp at h2; exact h2.1))
  · exact hm

theorem Good_foldl (S : Path → Prop) (step : Packages → FileEntry → Packages)
    (hstep : ∀ m file, Good S m → (isCandidate file.path.name = true → S file.path) →
      Good S (step m file)) :
    ∀ (files : List FileEntry) (m : Packages), Good S m →
      (∀ f ∈ files, isCandidate f.path.name = true → S f.path) →
      Good S (files.foldl step m) := by
  intro files
  induction files with
  | nil => intro m hm _; exact hm
  | cons f rest ih =>
    intro m hm hf
    rw [List.foldl_cons]
    exact ih _ (hstep m f hm (hf f (List.mem_cons_self _ _)))
      (fun g hg => hf g (List.mem_cons_of_mem _ hg))

/-- Every file of every discovered group is a candidate file of the listing. -/
theorem discover_good {tc : Impl} (S : Path → Prop) (mode : Mode) (uninit : List Nat)
    (files : List FileEntry) (h : ∀ f ∈ files, isCandidate f.path.name = true → S f.path) :
    Good S (discover tc mode uninit files) := by
  cases mode with
  | single =>
    exact Good_foldl S secondPassStep (Good_secondPassStep S) files _
      (Good_foldl S (firstPassStep tc uninit) (Good_firstPassStep S uninit) files [] (Good_nil S) h) h
  | multiple =>
    exact Good_foldl S (multipleStep tc uninit) (Good_multipleStep S uninit) files [] (Good_nil S) h

/-! ## Discovery looks at the candidate files only -/

theorem foldl_filter_of_skip {α β : Type} (step : α → β → α) (c : β → Bool)
    (hskip : ∀ a f, c f = false → step a f = a) :
    ∀ (l : List β) (a : α), l.foldl step a = (l.filter c).foldl step a := by
  intro l
  induction l with
  | nil => intro a; rfl
  | cons f rest ih =>
    intro a
    rw [List.foldl_cons, List.filter_cons]
    by_cases h : c f = true
    · rw [if_pos h, List.foldl_cons, ih]
    · rw [if_neg h, hskip a f (by simpa using h), ih]

theorem isTerminal_false_of_not_candidate (n : Str) (h : isCandidate n = false) :
    isTerminal n = false := by simp [isTerminal, h]

theorem isFragment_false_of_not_candidate (n : Str) (h : isCandidate n = false) :
    isFragment n = false := by simp [isFragment, h]

theorem discover_filter {tc : Impl} (mode : Mode) (uninit : List Nat) (files : List FileEntry) :
    discover tc mode uninit files
      = discover tc mode uninit (files.filter fun f => isCandidate f.path.name) := by
  have h1 : ∀ a (f : FileEntry), isCandidate f.path.name = false →
      firstPassStep tc uninit a f = a := by
    intro a f h
    rw [firstPassStep_eq, isFragment_false_of_not_candidate _ h]; rfl
  have h2 : ∀ a (f : FileEntry), isCandidate f.path.name = false →
      secondPassStep a f = a := by
    intro a f h
    rw [secondPassStep_eq, isTerminal_false_of_not_candidate _ h]; rfl
  have h3 : ∀ a (f : FileEntry), isCandidate f.path.name = false →
      multipleStep tc uninit a f = a := by
    intro a f h
    rw [multipleStep_eq, isTerminal_false_of_not_candidate _ h,
      isFragment_false_of_not_candidate _ h]; rfl
  cases mode with
  | single =>
    unfold discover
    simp only []
    rw [foldl_filter_of_skip (firstPassStep tc uninit) _ h1 files,
      foldl_filter_of_skip secondPassStep _ h2 files]
  | multiple =>
    unfold discover
    simp only []
    rw [foldl_filter_of_skip (multipleStep tc uninit) _ h3 files]

/-! ## A second run -/

theorem filter_terminal_of_candidates (files : List FileEntry) :
    files.filter (fun f => isTerminal f.path.name)
      = (files.filter fun f => isCandidate f.path.name).filter
          (fun f => isTerminal f.path.name) := by
  rw [List.filter_filter]
  apply List.filter_congr
  intro f _
  by_cases h : isCandidate f.path.name = true <;> simp [isTerminal, h]

theorem candidates_listDir (fs : FS) (source_path : Str) :
    (listDir fs source_path).filter (fun f => isCandidate f.path.name)
      = fs.filter fun e => decide (e.path.dir = source_path) && isCandidate e.path.name := by
  unfold listDir
  rw [List.filter_filter]
  apply List.filter_congr
  intro f _
  rw [Bool.and_comm]

theorem pkgMain_exit_zero {tc : Impl} (mode : Mode) (uninit : List Nat) (fs : FS)
    (source_path target_path : Str) (fs1 : FS) (created : List Path)
    (h : pkgMain tc mode uninit fs source_path target_path = Outcome.exit 0 fs1 created) :
    ¬ (mode = Mode.single ∧ (listDir fs source_path).foldl countStep 0 > 1) ∧
    merge tc fs (discover tc mode uninit (listDir fs source_path)) target_path
      = Except.ok (fs1, created) := by
  unfold pkgMain at h
  simp only [] at h
  split_ifs at h with hc
  · simp at h
  · refine ⟨hc, ?_⟩
    cases hm : merge tc fs (discover tc mode uninit (listDir fs source_path)) target_path with
    | error e => simp [hm] at h
    | ok r =>
      simp only [hm, Outcome.exit.injEq, true_and] at h
      obtain ⟨r1, r2⟩ := r
      simp only at h
      rw [h.1, h.2]

theorem merge_ok_inv {tc : Impl} (fs : FS) (packages : Packages) (target_dir : Str) (fs1 : FS)
    (created : List Path) (h : merge tc fs packages target_dir = Except.ok (fs1, created)) :
    ∃ m, scanPackages fs packages 0 = some m ∧
      mergeLoop tc (chooseBufferSize m) target_dir packages fs [] = Except.ok (fs1, created) := by
  unfold merge bufferSize at h
  cases hs : scanPackages fs packages 0 with
  | none => simp [hs] at h
  | some m => exact ⟨m, rfl, by simpa [hs] using h⟩

/-- C8. When a run ends normally, a second run on the file system it left
behind (same source and target directories, the target possibly being the
source) ends normally too, reports the same created files, and leaves every
file with the content the first run gave it: the outputs of the first run are
not taken for fragments and are rewritten from scratch, not appended to. -/
theorem rerun_is_idempotent (tc : Impl) (mode : Mode) (uninit : List Nat) (fs : FS)
    (source_path target_path : Str) (fs1 : FS) (created : List Path)
    (h : pkgMain tc mode uninit fs source_path target_path = Outcome.exit 0 fs1 created) :
    ∃ fs2, pkgMain tc mode uninit fs1 source_path target_path = Outcome.exit 0 fs2 created ∧
      ∀ p, readFile fs2 p = readFile fs1 p := by
  obtain ⟨hc, hmerge⟩ := pkgMain_exit_zero mode uninit fs source_path target_path fs1 created h
  obtain ⟨m, hscan, hloop⟩ := merge_ok_inv _ _ _ _ _ hmerge
  have hB := chooseBufferSize_pos m
  obtain ⟨hframe, hfilter⟩ := mergeLoop_frame _ hB target_path _ _ _ _ _ hloop
  -- the candidate files of the source directory are the same
  have hcand : (listDir fs1 source_path).filter (fun f => isCandidate f.path.name)
      = (listDir fs source_path).filter (fun f => isCandidate f.path.name) := by
    rw [candidates_listDir, candidates_listDir]
    apply hfilter
    intro e he
    simp [isCandidate_of_mem_outputs target_path _ e.path he]
  have hdisc : discover tc mode uninit (listDir fs1 source_path)
      = discover tc mode uninit (listDir fs source_path) := by
    rw [discover_filter mode uninit (listDir fs1 source_path), hcand, ← discover_filter]
  have hcount : (listDir fs1 source_path).foldl countStep 0
      = (listDir fs source_path).foldl countStep 0 := by
    rw [foldl_countStep, foldl_countStep, filter_terminal_of_candidates (listDir fs1 source_path),
      hcand, ← filter_terminal_of_candidates]
  -- the files of the groups are untouched by the first run
  have hgood : Good (fun p => isCandidate p.name = true)
      (discover tc mode uninit (listDir fs source_path)) :=
    discover_good _ mode uninit _ (fun f _ hf => hf)
  have hsame : ∀ root ∈ discover tc mode uninit (listDir fs source_path),
      ∀ p ∈ fragmentPaths root.2, readFile fs p = readFile fs1 p := by
    intro root hroot p hp
    have hpc : isCandidate p.name = true := hgood root hroot p hp
    have hpo : p ∉ outputsOf target_path (discover tc mode uninit (listDir fs source_path)) := by
      intro ho
      rw [isCandidate_of_mem_outputs target_path _ p ho] at hpc
      cases hpc
    exact (hframe p hpo).symm
  obtain ⟨fs2, hloop2, hkeep, hout⟩ := mergeLoop_agree _ hB target_path _ fs fs1 fs1 [] created
    hsame hloop
  refine ⟨fs2, ?_, ?_⟩
  · unfold pkgMain
    simp only []
    rw [hcount, if_neg hc, hdisc]
    unfold merge bufferSize
    rw [← scanPackages_congr fs fs1 _ 0 hsame, hscan]
    simp only [Option.map_some', hloop2]
  · intro p
    by_cases hp : p ∈ outputsOf target_path (discover tc mode uninit (listDir fs source_path))
    · exact (hout p hp).symm
    · exact (hkeep p (hframe p hp).symm).symm

theorem rerun_is_idempotent_witness :
    pkgMain impl32 Mode.single [0, 0, 0, 0] gameFs "src".toList "src".toList
      = Outcome.exit 0 (gameFs ++ [gameOutput]) [gameOutput.path] ∧
    ∃ fs2, pkgMain impl32 Mode.single [0, 0, 0, 0] (gameFs ++ [gameOutput]) "src".toList "src".toList
        = Outcome.exit 0 fs2 [gameOutput.path] ∧
      ∀ p, readFile fs2 p = readFile (gameFs ++ [gameOutput]) p :=
  ⟨by decide, rerun_is_idempotent impl32 Mode.single [0, 0, 0, 0] gameFs "src".toList "src".toList
    (gameFs ++ [gameOutput]) [gameOutput.path] (by decide)⟩

/-! ## The two passes of Single mode -/

theorem isFragment_false_of_sc (n : Str) (h : endsWith n scSuffix = true) :
    isFragment n = false := by simp [isFragment, h]

theorem foldl_firstPass_skip_sc {tc : Impl}
    (uninit : List Nat) (a b : List FileEntry) (t : FileEntry)
    (ht : endsWith t.path.name scSuffix = true) (m : Packages) :
    (a ++ t :: b).foldl (firstPassStep tc uninit) m = (a ++ b).foldl (firstPassStep tc uninit) m := by
  rw [List.foldl_append, List.foldl_cons, List.foldl_append, firstPassStep_eq,
    isFragment_false_of_sc _ ht]
  rfl

theorem foldl_secondPass_skip (files : List FileEntry)
    (h : ∀ f ∈ files, isTerminal f.path.name = false) (m : Packages) :
    files.foldl secondPassStep m = m := by
  induction files with
  | nil => rfl
  | cons f rest ih =>
    rw [List.foldl_cons, secondPassStep_eq, h f (List.mem_cons_self _ _)]
    exact ih (fun g hg => h g (List.mem_cons_of_mem _ hg))

theorem discover_single_split {tc : Impl} (uninit : List Nat) (a b : List FileEntry) (t : FileEntry)
    (ht : endsWith t.path.name scSuffix = true)
    (hothers : ∀ f ∈ a ++ b, isTerminal f.path.name = false) :
    discover tc Mode.single uninit (a ++ t :: b)
      = secondPassStep ((a ++ b).foldl (firstPassStep tc uninit) []) t := by
  unfold discover
  simp only []
  rw [foldl_firstPass_skip_sc uninit a b t ht, List.foldl_append, List.foldl_cons,
    foldl_secondPass_skip a (fun f hf => hothers f (List.mem_append_left _ hf)),
    foldl_secondPass_skip b (fun f hf => hothers f (List.mem_append_right _ hf))]

/-- C9 as stated fails in its last part. A source directory that holds the
terminal file `GAME_sc.pkg` and nothing else: the first pass builds no group,
so the second pass makes the terminal file the root of the new group `GAME`
(and its terminal piece as well); the output holds its bytes twice. -/
theorem lone_terminal_becomes_root :
    isTerminal gameSc.path.name = true ∧
    (∀ tc : Impl, discover tc Mode.single [0, 0, 0, 0] [gameSc]
      = [("GAME".toList, ⟨0, gameSc.path, [], some ⟨9999, gameSc.path⟩, "GAME".toList⟩)]) ∧
    (∀ tc : Impl, pkgMain tc Mode.single [0, 0, 0, 0] [gameSc] "src".toList "out".toList
      = Outcome.exit 0
          [gameSc, ⟨⟨"out".toList, "GAME-merged.pkg".toList⟩, [9, 9, 9, 9]⟩]
          [⟨"out".toList, "GAME-merged.pkg".toList⟩]) := by
  refine ⟨by decide, ?_, ?_⟩
  · intro tc
    rw [discover_any_impl tc impl32 _ _ _ (by decide)]
    decide
  · intro tc
    rw [pkgMain_impl tc impl32 _ _ _ _ _ (by decide) (by decide)]
    decide

/-- C9, amended. In Single mode, with `t` the one terminal file of the
listing, the map discovery builds is the same wherever `t` stands in the
enumeration, the other files keeping their order. The first pass never looks
at `t`: it builds what it builds from the other files alone, and the result
of discovery is the second-pass step for `t` applied to that map. When the
first pass has built a group, `t` is attached to the first group, whose root
and numbered pieces stay as they are; only when it has built none does `t`
become the root (and terminal piece) of a new group named from its base name. -/
theorem single_mode_terminal_position (tc : Impl) (uninit : List Nat) (a b c d : List FileEntry)
    (t : FileEntry) (ht : isTerminal t.path.name = true)
    (hothers : ∀ f ∈ a ++ b, isTerminal f.path.name = false)
    (hsame : a ++ b = c ++ d) :
    discover tc Mode.single uninit (a ++ t :: b) = discover tc Mode.single uninit (c ++ t :: d) ∧
    (a ++ t :: b).foldl (firstPassStep tc uninit) [] = (a ++ b).foldl (firstPassStep tc uninit) [] ∧
    discover tc Mode.single uninit (a ++ t :: b)
      = secondPassStep ((a ++ b).foldl (firstPassStep tc uninit) []) t ∧
    (∀ k pkg rest, (a ++ b).foldl (firstPassStep tc uninit) [] = (k, pkg) :: rest →
      discover tc Mode.single uninit (a ++ t :: b) = (k, attachSc t pkg) :: rest ∧
      (attachSc t pkg).file = pkg.file ∧ (attachSc t pkg).parts = pkg.parts) ∧
    ((a ++ b).foldl (firstPassStep tc uninit) [] = [] →
      discover tc Mode.single uninit (a ++ t :: b) = [(baseName t.path.name, scPackage t)]) := by
  have hsc : endsWith t.path.name scSuffix = true := by
    unfold isTerminal at ht
    simp only [Bool.and_eq_true] at ht
    exact ht.2
  have h1 := @discover_single_split tc uninit a b t hsc hothers
  have h2 := @discover_single_split tc uninit c d t hsc (by rw [← hsame]; exact hothers)
  refine ⟨by rw [h1, h2, hsame], foldl_firstPass_skip_sc uninit a b t hsc [], h1, ?_, ?_⟩
  · intro k pkg rest hm
    rw [h1, hm, secondPassStep_eq, if_pos ht]
    exact ⟨rfl, rfl, rfl⟩
  · intro hm
    rw [h1, hm, secondPassStep_eq, if_pos ht]
    rfl

theorem single_mode_terminal_position_witness :
    isTerminal gameSc.path.name = true ∧
    (∀ f ∈ [] ++ gameFragments, isTerminal f.path.name = false) ∧
    [] ++ gameFragments = gameFragments ++ [] ∧
    discover impl32 Mode.single [0, 0, 0, 0] ([] ++ gameSc :: gameFragments)
      = discover impl32 Mode.single [0, 0, 0, 0] (gameFragments ++ gameSc :: []) ∧
    ([] ++ gameSc :: gameFragments).foldl (firstPassStep impl32 [0, 0, 0, 0]) []
      = ([] ++ gameFragments).foldl (firstPassStep impl32 [0, 0, 0, 0]) [] ∧
    discover impl32 Mode.single [0, 0, 0, 0] ([] ++ gameSc :: gameFragments)
      = secondPassStep (([] ++ gameFragments).foldl (firstPassStep impl32 [0, 0, 0, 0]) []) gameSc ∧
    (∀ k pkg rest, ([] ++ gameFragments).foldl (firstPassStep impl32 [0, 0, 0, 0]) []
        = (k, pkg) :: rest →
      discover impl32 Mode.single [0, 0, 0, 0] ([] ++ gameSc :: gameFragments)
        = (k, attachSc gameSc pkg) :: rest ∧
      (attachSc gameSc pkg).file = pkg.file ∧ (attachSc gameSc pkg).parts = pkg.parts) ∧
    (([] ++ gameFragments).foldl (firstPassStep impl32 [0, 0, 0, 0]) [] = [] →
      discover impl32 Mode.single [0, 0, 0, 0] ([] ++ gameSc :: gameFragments)
        = [(baseName gameSc.path.name, scPackage gameSc)]) :=
  ⟨by decide, by decide, by decide,
    single_mode_terminal_position impl32 [0, 0, 0, 0] [] gameFragments gameFragments [] gameSc
      (by decide) (by decide) (by decide)⟩

/-! ## The two checks that never reject -/

/-- The end pointer `strtol` stores is never null, so the test `ptr == NULL`
of source lines 400 and 531 never holds. -/
theorem strtol_ptr_ne_null {tc : Impl} (s : Str) : (strtol tc s).2 ≠ none := by
  unfold strtol
  simp only []
  split_ifs <;> simp

/-- The magic test of source lines 424 and 555 looks at one byte only. -/
theorem magic_check_first_byte (uninit bytes : List Nat) :
    memcmp (readMagic uninit bytes) PKG_MAGIC magicCompareLength = 0
      ↔ (readMagic uninit bytes).take 1 = [0x7F] := by
  unfold memcmp
  have h1 : magicCompareLength = 1 := by decide
  have h2 : List.take 1 PKG_MAGIC = [0x7F] := by decide
  rw [h1, h2]
  split_ifs with h
  · simp [h]
  · simp [h]

/-- C4 (the code at the failing input). The end pointer `strtol` stores is
never null, whatever the text, so the skip of source lines 400-403 and 531-534
is never taken. With `GAME_0.pkg`, `GAME_x.pkg` and `title_x.pkg` in the
source directory, the files with ordinal text `x` are not skipped:
`GAME_x.pkg` becomes piece 0 of group `GAME`, `title_x.pkg` becomes the root
of a group `title`, and their bytes are in the merged outputs. -/
theorem non_numeric_ordinal_is_not_skipped :
    (∀ (tc : Impl) (s : Str), (strtol tc s).2 ≠ none) ∧
    partText "GAME_x.pkg".toList = "x".toList ∧
    (∀ tc : Impl, strtol tc "x".toList = (0, some 0)) ∧
    (∀ tc : Impl, discover tc Mode.single [0, 0, 0, 0] nonNumericFs
      = [("GAME".toList, ⟨0, ⟨"src".toList, "GAME_0.pkg".toList⟩,
            [⟨0, ⟨"src".toList, "GAME_x.pkg".toList⟩⟩], none, []⟩),
         ("title".toList, ⟨0, ⟨"src".toList, "title_x.pkg".toList⟩, [], none, []⟩)]) ∧
    (∀ tc : Impl, discover tc Mode.multiple [0, 0, 0, 0] nonNumericFs
      = discover tc Mode.single [0, 0, 0, 0] nonNumericFs) ∧
    (∀ tc : Impl, pkgMain tc Mode.single [0, 0, 0, 0] nonNumericFs "src".toList "out".toList
      = Outcome.exit 0
          (nonNumericFs ++
            [⟨⟨"out".toList, "GAME-merged.pkg".toList⟩, [0x7F, 0x43, 0x4E, 0x54, 1, 5, 6]⟩,
             ⟨⟨"out".toList, "title-merged.pkg".toList⟩, [0x7F, 0x43, 0x4E, 0x54, 7]⟩])
          [⟨"out".toList, "GAME-merged.pkg".toList⟩,
            ⟨"out".toList, "title-merged.pkg".toList⟩]) := by
  refine ⟨fun tc s => strtol_ptr_ne_null s, by decide, ?_, ?_, ?_, ?_⟩
  · intro tc
    rw [strtol_of_readsAnInt tc impl32 _ (by decide)]
    decide
  · intro tc
    rw [discover_any_impl tc impl32 _ _ _ (by decide)]
    decide
  · intro tc
    rw [discover_any_impl tc impl32 Mode.multiple _ _ (by decide),
      discover_any_impl tc impl32 Mode.single _ _ (by decide)]
    decide
  · intro tc
    rw [pkgMain_impl tc impl32 _ _ _ _ _ (by decide) (by decide)]
    decide

/-- C5 (the code at the failing input). The magic test passes exactly when
the first byte read is `7F`, whatever the three bytes after it. A file
`GAME_0.pkg` starting with `7F 00 00 00` differs from the magic `7F 43 4E 54`
in three positions, yet in both modes it is accepted as the root of a new
group `GAME`. -/
theorem wrong_magic_is_accepted :
    (∀ uninit bytes : List Nat,
      memcmp (readMagic uninit bytes) PKG_MAGIC magicCompareLength = 0
        ↔ (readMagic uninit bytes).take 1 = [0x7F]) ∧
    List.take 4 [0x7F, 0, 0, 0, 8] ≠ PKG_MAGIC ∧
    magicCompareLength = 1 ∧
    (∀ tc : Impl, discover tc Mode.single [0, 0, 0, 0] badMagicFs
      = [("GAME".toList, ⟨0, ⟨"src".toList, "GAME_0.pkg".toList⟩, [], none, []⟩)]) ∧
    (∀ tc : Impl, discover tc Mode.multiple [0, 0, 0, 0] badMagicFs
      = [("GAME".toList, ⟨0, ⟨"src".toList, "GAME_0.pkg".toList⟩, [], none, []⟩)]) := by
  refine ⟨magic_check_first_byte, by decide, by decide, ?_, ?_⟩
  · intro tc
    rw [discover_any_impl tc impl32 _ _ _ (by decide)]
    decide
  · intro tc
    rw [discover_any_impl tc impl32 _ _ _ (by decide)]
    decide

/-! ## The buffer size -/

theorem scanParts_cons (fs : FS) (q : Piece) (rest : List Piece) (m : Nat) :
    scanParts fs (q :: rest) m
      = match file_size fs q.file with
        | none => none
        | some part_size => scanParts fs rest (if part_size > m then part_size else m) := rfl

theorem scanParts_eq (fs : FS) :
    ∀ (parts : List Piece) (m : Nat), (∀ p ∈ parts, fsExists fs p.file = true) →
      scanParts fs parts m
        = some (max m (largest (parts.map fun p => (contentOf fs p.file).length))) := by
  intro parts
  induction parts with
  | nil => intro m _; simp [scanParts, largest]
  | cons q rest ih =>
    intro m h
    obtain ⟨b, hb⟩ : ∃ b, readFile fs q.file = some b := by
      have := h q (List.mem_cons_self _ _)
      unfold fsExists at this
      exact Option.isSome_iff_exists.mp this
    have hstep : (if b.length > m then b.length else m) = max m b.length := by
      split_ifs with hlt
      · exact (max_eq_right (le_of_lt hlt)).symm
      · exact (max_eq_left (not_lt.mp hlt)).symm
    rw [scanParts_cons]
    simp only [file_size, hb, Option.map_some']
    rw [ih _ (fun p hp => h p (List.mem_cons_of_mem _ hp)), hstep, max_assoc]
    simp [largest, contentOf, hb]

theorem scanParts_append (fs : FS) :
    ∀ (a b : List Piece) (m : Nat),
      scanParts fs (a ++ b) m = (scanParts fs a m).bind (scanParts fs b) := by
  intro a
  induction a with
  | nil => intro b m; rfl
  | cons q rest ih =>
    intro b m
    rw [List.cons_append, scanParts_cons, scanParts_cons]
    cases file_size fs q.file with
    | none => rfl
    | some sz => exact ih b _

theorem scanPackages_eq_scanParts (fs : FS) :
    ∀ (packages : Packages) (m : Nat),
      scanPackages fs packages m = scanParts fs (allAppended packages) m := by
  intro packages
  induction packages with
  | nil => intro m; rfl
  | cons root rest ih =>
    intro m
    unfold scanPackages allAppended appended
    rw [scanParts_append, scanParts_append]
    cases scanParts fs root.2.parts m with
    | none => rfl
    | some m1 =>
      cases hsc : root.2.sc_part with
      | none => simp only [Option.some_bind, scanParts]; exact ih m1
      | some sc =>
        simp only [Option.some_bind, scanParts]
        cases file_size fs sc.file with
        | none => rfl
        | some sz => simp only [Option.some_bind]; exact ih _

theorem scanPackages_eq_largest (fs : FS) (packages : Packages)
    (h : ∀ p ∈ allAppended packages, fsExists fs p.file = true) :
    scanPackages fs packages 0 = some (largestAppended fs packages) := by
  rw [scanPackages_eq_scanParts, scanParts_eq fs _ 0 h]
  simp [largestAppended]

theorem le_largest (l : List Nat) (x : Nat) (h : x ∈ l) : x ≤ largest l := by
  induction l with
  | nil => cases h
  | cons y ys ih =>
    unfold largest
    rw [List.foldr_cons]
    rcases List.mem_cons.mp h with h1 | h1
    · rw [h1]; exact le_max_left _ _
    · exact le_trans (ih h1) (le_max_right _ _)

theorem le_largestOfAll (fs : FS) (packages : Packages) (root : Str × Package)
    (hroot : root ∈ packages) (p : Path) (hp : p ∈ fragmentPaths root.2) :
    (contentOf fs p).length ≤ largestOfAll fs packages := by
  unfold largestOfAll
  refine le_trans ?_ (le_largest _ _ (List.mem_map_of_mem _ hroot))
  exact le_largest _ _ (List.mem_map_of_mem (fun p => (contentOf fs p).length) hp)

theorem chooseBufferSize_ge (m : Nat) (h : 200 * 1024 * 1024 ≤ m) :
    2 * 1024 * 1024 ≤ chooseBufferSize m := by
  unfold chooseBufferSize
  split_ifs <;> omega

/-! ## Parsing a file name -/

theorem sizeAdd_small (a b : Nat) (h : a + b < 2 ^ 64) : sizeAdd a b = a + b :=
  Nat.mod_eq_of_lt h

theorem sizeSub_ge (a b : Nat) (hb : b ≤ a) (ha : a < 2 ^ 64) : sizeSub a b = a - b := by
  unfold sizeSub
  rw [Nat.mod_eq_of_lt ha, Nat.mod_eq_of_lt (lt_of_le_of_lt hb ha)]
  have h1 : a + 2 ^ 64 - b = (a - b) + 2 ^ 64 := by omega
  rw [h1, Nat.add_mod_right]
  exact Nat.mod_eq_of_lt (by omega)

theorem sizeSub_lt (a b : Nat) (hab : a < b) (hb : b < 2 ^ 64) :
    sizeSub a b = a + 2 ^ 64 - b := by
  unfold sizeSub
  rw [Nat.mod_eq_of_lt (lt_trans hab hb), Nat.mod_eq_of_lt hb]
  exact Nat.mod_eq_of_lt (by omega)

theorem findLast_none (s : Str) (c : Char) (h : c ∉ s) : findLast? s c = none := by
  induction s with
  | nil => rfl
  | cons x xs ih =>
    have hx : x ≠ c := fun e => h (by rw [e]; exact List.mem_cons_self _ _)
    have hxs : c ∉ xs := fun e => h (List.mem_cons_of_mem _ e)
    simp [findLast?, ih hxs, hx]

theorem findLast_split (pre rest : Str) (c : Char) (h : c ∉ rest) :
    findLast? (pre ++ c :: rest) c = some pre.length := by
  induction pre with
  | nil => simp [findLast?, findLast_none rest c h]
  | cons x xs ih => simp [findLast?, ih]

theorem exists_last_split (s : Str) (c : Char) (h : c ∈ s) :
    ∃ pre rest, s = pre ++ c :: rest ∧ c ∉ rest := by
  induction s with
  | nil => cases h
  | cons x xs ih =>
    by_cases hxs : c ∈ xs
    · obtain ⟨pre, rest, h1, h2⟩ := ih hxs
      exact ⟨x :: pre, rest, by rw [h1]; rfl, h2⟩
    · have hx : c = x := by
        rcases List.mem_cons.mp h with h1 | h1
        · exact h1
        · exact absurd h1 hxs
      exact ⟨[], xs, by rw [hx]; rfl, hxs⟩

theorem findFirst_none (s : Str) (c : Char) (h : c ∉ s) : findFirst? s c = none := by
  induction s with
  | nil => rfl
  | cons x xs ih =>
    have hx : x ≠ c := fun e => h (by rw [e]; exact List.mem_cons_self _ _)
    have hxs : c ∉ xs := fun e => h (List.mem_cons_of_mem _ e)
    simp [findFirst?, ih hxs, hx]

theorem findFirst_of_mem_left (pre s : Str) (c : Char) (h : c ∈ pre) :
    ∃ j, j < pre.length ∧ findFirst? (pre ++ s) c = some j := by
  induction pre with
  | nil => cases h
  | cons x xs ih =>
    by_cases hx : x = c
    · exact ⟨0, by simp, by simp [findFirst?, hx]⟩
    · have hxs : c ∈ xs := by
        rcases List.mem_cons.mp h with h1 | h1
        · exact absurd h1.symm hx
        · exact h1
      obtain ⟨j, hj, hf⟩ := ih hxs
      exact ⟨j + 1, by simp; omega, by simp [findFirst?, hx, hf]⟩

theorem findFirst_append_not_mem (pre s : Str) (c : Char) (h : c ∉ pre) :
    findFirst? (pre ++ s) c = (findFirst? s c).map (· + pre.length) := by
  induction pre with
  | nil => simp
  | cons x xs ih =>
    have hx : x ≠ c := fun e => h (by rw [e]; exact List.mem_cons_self _ _)
    have hxs : c ∉ xs := fun e => h (List.mem_cons_of_mem _ e)
    rw [List.cons_append]
    simp only [findFirst?, hx, if_false]
    rw [ih hxs]
    cases findFirst? s c with
    | none => rfl
    | some k => simp [Nat.add_assoc]

theorem findFirst_take (s : Str) (c : Char) :
    ∀ k, findFirst? s c = some k → k < s.length ∧ s.take k = s.takeWhile (fun x => x ≠ c) := by
  induction s with
  | nil => intro k h; simp [findFirst?] at h
  | cons x xs ih =>
    intro k h
    by_cases hx : x = c
    · simp only [findFirst?, hx, if_true, Option.some.injEq] at h
      rw [← h]
      simp [hx]
    · simp only [findFirst?, hx, if_false] at h
      cases hf : findFirst? xs c with
      | none => simp [hf] at h
      | some j =>
        simp only [hf, Option.map_some', Option.some.injEq] at h
        obtain ⟨h1, h2⟩ := ih j hf
        rw [← h]
        refine ⟨by simp; omega, ?_⟩
        simp [hx, h2]

theorem takeWhile_ne_of_not_mem (s : Str) (c : Char) (h : c ∉ s) :
    s.takeWhile (fun x => x ≠ c) = s := by
  induction s with
  | nil => rfl
  | cons x xs ih =>
    have hx : x ≠ c := fun e => h (by rw [e]; exact List.mem_cons_self _ _)
    have hxs : c ∉ xs := fun e => h (List.mem_cons_of_mem _ e)
    rw [List.takeWhile_cons_of_pos (by simpa using hx), ih hxs]

theorem found_part_begin_split (pre rest : Str) (h : '_' ∉ rest)
    (hlen : (pre ++ '_' :: rest).length < 2 ^ 64) :
    found_part_begin (pre ++ '_' :: rest) = pre.length + 1 := by
  unfold found_part_begin find_last_of
  rw [findLast_split pre rest '_' h]
  simp only [Option.getD_some]
  apply sizeAdd_small
  simp at hlen
  omega

theorem titleId_split (pre rest : Str) (h : '_' ∉ rest)
    (hlen : (pre ++ '_' :: rest).length < 2 ^ 64) :
    titleId (pre ++ '_' :: rest) = pre := by
  unfold titleId
  rw [found_part_begin_split pre rest h hlen]
  have hl : pre.length + 1 < 2 ^ 64 := by simp at hlen; omega
  rw [sizeSub_ge _ _ (by omega) hl]
  simp [substr]

theorem partText_split (pre rest : Str) (h : '_' ∉ rest)
    (hlen : (pre ++ '_' :: rest).length < 2 ^ 64) :
    partText (pre ++ '_' :: rest)
      = if '.' ∈ pre then rest else rest.takeWhile (fun x => x ≠ '.') := by
  have hl : pre.length + 1 + rest.length < 2 ^ 64 := by simp at hlen; omega
  have hdrop : List.drop (pre.length + 1) (pre ++ '_' :: rest) = rest := by
    have : pre ++ '_' :: rest = (pre ++ ['_']) ++ rest := by simp
    rw [this]
    have hl2 : pre.length + 1 = (pre ++ ['_']).length := by simp
    rw [hl2, List.drop_left]
  unfold partText
  rw [found_part_begin_split pre rest h hlen]
  unfold substr
  rw [hdrop]
  unfold found_part_end find_first_of
  by_cases hdot : '.' ∈ pre
  · rw [if_pos hdot]
    obtain ⟨j, hj, hf⟩ := findFirst_of_mem_left pre ('_' :: rest) '.' hdot
    rw [hf]
    simp only [Option.getD_some]
    rw [sizeSub_lt _ _ (by omega) (by omega)]
    exact List.take_of_length_le (by omega)
  · rw [if_neg hdot, findFirst_append_not_mem pre _ '.' hdot]
    have hne : ('_' : Char) ≠ '.' := by decide
    simp only [findFirst?, hne, if_false, Option.map_map]
    cases hf : findFirst? rest '.' with
    | none =>
      have hnm : '.' ∉ rest := by
        intro hm
        obtain ⟨j, _, hj⟩ := findFirst_of_mem_left rest [] '.' hm
        rw [List.append_nil, hf] at hj
        cases hj
      simp only [Option.map_none', Option.getD_none, npos]
      rw [sizeSub_ge _ _ (by omega) (by omega), takeWhile_ne_of_not_mem rest '.' hnm]
      exact List.take_of_length_le (by omega)
    | some k =>
      obtain ⟨hk, htake⟩ := findFirst_take rest '.' k hf
      simp only [Option.map_some', Option.getD_some, Function.comp]
      rw [sizeSub_ge _ _ (by omega) (by omega)]
      have : k + 1 + pre.length - (pre.length + 1) = k := by omega
      rw [this, htake]

theorem isdigit_not_isspace (c : Char) (h : isdigit c = true) : isspace c = false := by
  unfold isdigit at h
  unfold isspace
  simp only [Bool.and_eq_true, decide_eq_true_eq] at h
  simp only [Bool.or_eq_false_iff, Bool.and_eq_false_iff, decide_eq_false_iff_not]
  omega

theorem isdigit_ne_sign (c : Char) (h : isdigit c = true) : c ≠ '-' ∧ c ≠ '+' := by
  unfold isdigit at h
  simp only [Bool.and_eq_true, decide_eq_true_eq] at h
  constructor
  · intro e; rw [e] at h; revert h; decide
  · intro e; rw [e] at h; revert h; decide

theorem scanDigits_digits (digits s : Str) (hd : ∀ c ∈ digits, isdigit c = true)
    (hs : ∀ c ∈ s.head?, isdigit c = false) :
    ∀ acc n, scanDigits (digits ++ s) acc n
      = (digits.foldl (fun a c => a * 10 + (c.toNat - 48)) acc, n + digits.length) := by
  induction digits with
  | nil =>
    intro acc n
    cases s with
    | nil => rfl
    | cons c cs =>
      have : isdigit c = false := hs c (by simp)
      simp [scanDigits, this]
  | cons d ds ih =>
    intro acc n
    have hdd : isdigit d = true := hd d (List.mem_cons_self _ _)
    rw [List.cons_append]
    simp only [scanDigits, hdd, if_true, List.foldl_cons, List.length_cons]
    rw [ih (fun c hc => hd c (List.mem_cons_of_mem _ hc))]
    congr 1
    omega

/-- The value `strtol` returns for text that starts with a non-empty run of
decimal digits: their value, saturated at `LONG_MAX`. -/
theorem strtol_digits {tc : Impl} (digits s : Str) (hne : digits ≠ [])
    (hd : ∀ c ∈ digits, isdigit c = true) (hs : ∀ c ∈ s.head?, isdigit c = false) :
    strtol tc (digits ++ s) = (min tc.LONG_MAX (decimalValue digits : Int), some digits.length) := by
  cases digits with
  | nil => exact absurd rfl hne
  | cons d ds =>
    have hdd : isdigit d = true := hd d (List.mem_cons_self _ _)
    have hsp : isspace d = false := isdigit_not_isspace d hdd
    obtain ⟨hm, hp⟩ := isdigit_ne_sign d hdd
    have hscan := scanDigits_digits (d :: ds) s hd hs 0 0
    unfold strtol
    simp only [List.cons_append, List.takeWhile_cons, hsp, List.dropWhile_cons, hm, hp,
      if_false, List.length_nil, Bool.false_eq_true]
    rw [List.cons_append] at hscan
    rw [hscan]
    simp [decimalValue]

theorem not_mem_pkgExt : '_' ∉ pkgExt := by decide

theorem isdigit_ne_underscore (c : Char) (h : isdigit c = true) : c ≠ '_' := by
  unfold isdigit at h
  simp only [Bool.and_eq_true, decide_eq_true_eq] at h
  intro e; rw [e] at h; revert h; decide

theorem isdigit_ne_dot (c : Char) (h : isdigit c = true) : c ≠ '.' := by
  unfold isdigit at h
  simp only [Bool.and_eq_true, decide_eq_true_eq] at h
  intro e; rw [e] at h; revert h; decide

theorem takeWhile_digits_pkgExt (digits : Str) (hd : ∀ c ∈ digits, isdigit c = true) :
    (digits ++ pkgExt).takeWhile (fun x => x ≠ '.') = digits := by
  induction digits with
  | nil => decide
  | cons d ds ih =>
    have hdd : d ≠ '.' := isdigit_ne_dot d (hd d (List.mem_cons_self _ _))
    rw [List.cons_append, List.takeWhile_cons_of_pos (by simpa using hdd),
      ih (fun c hc => hd c (List.mem_cons_of_mem _ hc))]

/-! ## Runs that end normally -/

theorem readFile_some_mem (fs : FS) (p : Path) (b : List Nat) (h : readFile fs p = some b) :
    ∃ e ∈ fs, e.path = p ∧ e.bytes = b := by
  induction fs with
  | nil => cases h
  | cons x rest ih =>
    by_cases hx : x.path = p
    · simp only [readFile, hx, if_true, Option.some.injEq] at h
      exact ⟨x, List.mem_cons_self _ _, hx, h⟩
    · simp only [readFile, hx, if_false] at h
      obtain ⟨e, he, h1, h2⟩ := ih h
      exact ⟨e, List.mem_cons_of_mem _ he, h1, h2⟩

theorem readFile_isSome_of_mem (fs : FS) (e : FileEntry) (h : e ∈ fs) :
    (readFile fs e.path).isSome = true := by
  induction fs with
  | nil => cases h
  | cons x rest ih =>
    by_cases hx : x.path = e.path
    · simp [readFile, hx]
    · rcases List.mem_cons.mp h with h1 | h1
      · exact absurd (by rw [h1]) hx
      · simp only [readFile, hx, if_false]
        exact ih h1

/-- A listed file whose directory holds no empty candidate has content. -/
theorem contentOf_listed_ne_nil (fs : FS) (source_path : Str)
    (hne : ∀ e ∈ fs, e.path.dir = source_path → isCandidate e.path.name = true → e.bytes ≠ [])
    (f : FileEntry) (hf : f ∈ listDir fs source_path) (hc : isCandidate f.path.name = true) :
    contentOf fs f.path ≠ [] := by
  have hmem : f ∈ fs ∧ f.path.dir = source_path := by
    unfold listDir at hf
    simpa using hf
  obtain ⟨b, hb⟩ := Option.isSome_iff_exists.mp (readFile_isSome_of_mem fs f hmem.1)
  obtain ⟨e, he, h1, h2⟩ := readFile_some_mem fs f.path b hb
  have : e.bytes ≠ [] := hne e he (by rw [h1]; exact hmem.2) (by rw [h1]; exact hc)
  simp only [contentOf, hb, Option.getD_some]
  rw [← h2]; exact this

theorem fsExists_of_content (fs : FS) (p : Path) (h : contentOf fs p ≠ []) :
    fsExists fs p = true := by
  obtain ⟨b, hb, _⟩ := contentOf_nonempty fs p h
  simp [fsExists, hb]

/-- The loop over the groups ends normally when every file of every group is
a non-empty candidate file; the candidate files are left as they were, and an
output file no later group writes to holds the bytes of its group. -/
theorem mergeLoop_ok {tc : Impl} (B : Nat) (hB : 0 < B) (target_dir : Str) (fs0 : FS) :
    ∀ (packages : Packages) (fs : FS) (c : List Path),
      Good (fun p => isCandidate p.name = true ∧ contentOf fs0 p ≠ []) packages →
      (∀ p, isCandidate p.name = true → readFile fs p = readFile fs0 p) →
      ∃ fs1, mergeLoop tc B target_dir packages fs c
          = Except.ok (fs1, c ++ outputsOf target_dir packages) ∧
        (∀ p, isCandidate p.name = true → readFile fs1 p = readFile fs0 p) ∧
        ((outputsOf target_dir packages).Nodup → ∀ root ∈ packages,
          readFile fs1 (fullMergedFile target_dir root) = some (groupBytes tc fs0 root.2)) := by
  intro packages
  induction packages with
  | nil =>
    intro fs c _ hagree
    exact ⟨fs, by simp [mergeLoop, outputsOf], hagree, fun _ root hr => by cases hr⟩
  | cons root rest ih =>
    intro fs c hgood hagree
    have hroot := hgood root (List.mem_cons_self _ _)
    have hout : isCandidate (fullMergedFile target_dir root).name = false :=
      isCandidate_output target_dir root
    have hne_out : ∀ p, isCandidate p.name = true → p ≠ fullMergedFile target_dir root := by
      intro p hp e
      rw [e, hout] at hp
      cases hp
    have hsame : ∀ p ∈ fragmentPaths root.2, readFile fs p = readFile fs0 p :=
      fun p hp => hagree p (hroot p hp).1
    have hm0 : Mergeable fs0 (fullMergedFile target_dir root) root.2 := by
      refine ⟨fsExists_of_content fs0 _ (hroot _ (mem_fragmentPaths_file _)).2,
        hne_out _ (hroot _ (mem_fragmentPaths_file _)).1, ?_⟩
      intro p hp
      have := hroot _ (mem_fragmentPaths_appended root.2 p hp)
      exact ⟨this.2, hne_out _ this.1⟩
    have hm : Mergeable fs (fullMergedFile target_dir root) root.2 :=
      Mergeable_congr fs0 fs _ root.2 (fun p hp => (hsame p hp).symm) hm0
    have hstep := @mergePackage_ok tc B hB target_dir fs root hm
    rw [groupBytes_congr fs fs0 root.2 hsame] at hstep
    have hagree2 : ∀ p, isCandidate p.name = true →
        readFile (fsRemove fs (fullMergedFile target_dir root)
          ++ [⟨fullMergedFile target_dir root, groupBytes tc fs0 root.2⟩]) p = readFile fs0 p := by
      intro p hp
      rw [readFile_fresh_ne _ _ _ _ (hne_out p hp)]
      exact hagree p hp
    obtain ⟨fs1, h1, h2, h3⟩ := ih _ (c ++ [fullMergedFile target_dir root])
      (fun kv hkv => hgood kv (List.mem_cons_of_mem _ hkv)) hagree2
    refine ⟨fs1, ?_, h2, ?_⟩
    · unfold mergeLoop
      simp only [hstep]
      rw [h1, outputsOf_cons]
      simp
    · intro hnodup r hr
      rw [outputsOf_cons] at hnodup
      obtain ⟨hnot, hnd⟩ := List.nodup_cons.mp hnodup
      rcases List.mem_cons.mp hr with h4 | h4
      · obtain ⟨hf, _⟩ := mergeLoop_frame B hB target_dir rest _ fs1 _ _ h1
        rw [h4, hf _ hnot, readFile_fresh_same]
      · exact h3 hnd r h4

theorem mem_allAppended (packages : Packages) (p : Piece) (h : p ∈ allAppended packages) :
    ∃ root ∈ packages, p ∈ appended root.2 := by
  induction packages with
  | nil => cases h
  | cons root rest ih =>
    unfold allAppended at h
    rcases List.mem_append.mp h with h1 | h1
    · exact ⟨root, List.mem_cons_self _ _, h1⟩
    · obtain ⟨r, hr, hp⟩ := ih h1
      exact ⟨r, List.mem_cons_of_mem _ hr, hp⟩

/-- A run over a source directory without empty candidate files ends
normally (in Single mode: unless it is refused for several terminal files);
it reports one output per discovered group, and an output file that only one
group writes to holds the bytes of that group. -/
theorem pkgMain_ok {tc : Impl}
    (mode : Mode) (uninit : List Nat) (fs : FS) (source_path target_path : Str)
    (hcount : mode = Mode.single →
      ((listDir fs source_path).filter fun f => isTerminal f.path.name).length ≤ 1)
    (hne : ∀ e ∈ fs, e.path.dir = source_path → isCandidate e.path.name = true →
      e.bytes ≠ []) :
    ∃ fs1, pkgMain tc mode uninit fs source_path target_path
        = Outcome.exit 0 fs1
            (outputsOf target_path (discover tc mode uninit (listDir fs source_path))) ∧
      ((outputsOf target_path (discover tc mode uninit (listDir fs source_path))).Nodup →
        ∀ root ∈ discover tc mode uninit (listDir fs source_path),
          readFile fs1 (fullMergedFile target_path root) = some (groupBytes tc fs root.2)) := by
  have hgood : Good (fun p => isCandidate p.name = true ∧ contentOf fs p ≠ [])
      (discover tc mode uninit (listDir fs source_path)) :=
    discover_good _ mode uninit _
      (fun f hf hc => ⟨hc, contentOf_listed_ne_nil fs source_path hne f hf hc⟩)
  have hex : ∀ p ∈ allAppended (discover tc mode uninit (listDir fs source_path)),
      fsExists fs p.file = true := by
    intro p hp
    obtain ⟨root, hr, hpa⟩ := mem_allAppended _ p hp
    exact fsExists_of_content fs _ (hgood root hr _ (mem_fragmentPaths_appended root.2 p hpa)).2
  obtain ⟨fs1, h1, _, h3⟩ := mergeLoop_ok
    (chooseBufferSize (largestAppended fs (discover tc mode uninit (listDir fs source_path))))
    (chooseBufferSize_pos _) target_path fs _ fs [] hgood (fun _ _ => rfl)
  refine ⟨fs1, ?_, h3⟩
  unfold pkgMain
  simp only []
  have hc : ¬ (mode = Mode.single ∧ (listDir fs source_path).foldl countStep 0 > 1) := by
    rintro ⟨hm, hgt⟩
    have := hcount hm
    rw [foldl_countStep] at hgt
    omega
  rw [if_neg hc]
  unfold merge bufferSize
  rw [scanPackages_eq_largest fs _ hex]
  simp only [Option.map_some', h1, List.nil_append]

/-- Whenever `main` returns without refusing the directory, the exit code is
0 and the created files are the outputs of the discovered groups. -/
theorem pkgMain_exit_created {tc : Impl} (mode : Mode) (uninit : List Nat) (fs : FS)
    (source_path target_path : Str)
    (hc : ¬ (mode = Mode.single ∧ (listDir fs source_path).foldl countStep 0 > 1))
    (code : Nat) (fs1 : FS) (created : List Path)
    (h : pkgMain tc mode uninit fs source_path target_path = Outcome.exit code fs1 created) :
    code = 0 ∧
      created = outputsOf target_path (discover tc mode uninit (listDir fs source_path)) := by
  unfold pkgMain at h
  simp only [] at h
  rw [if_neg hc] at h
  cases hm : merge tc fs (discover tc mode uninit (listDir fs source_path)) target_path with
  | error e => rw [hm] at h; cases h
  | ok r =>
    obtain ⟨r1, r2⟩ := r
    rw [hm] at h
    simp only [Outcome.exit.injEq] at h
    obtain ⟨m, _, hloop⟩ := merge_ok_inv _ _ _ _ _ hm
    have := mergeLoop_created _ _ _ _ _ _ _ hloop
    refine ⟨h.1.symm, ?_⟩
    rw [← h.2.2, this]
    rfl

/-! ## Single mode with one identifier -/

theorem addFragment_of_found {tc : Impl}
    (uninit : List Nat) (m : Packages) (file : FileEntry) (v : Package)
    (h : mapFind m (titleId file.path.name) = some v) :
    addFragment tc uninit m file
      = mapModify m (titleId file.path.name) fun pkg =>
        { pkg with
          parts := pkg.parts ++ [⟨intOfLong (strtol tc (partText file.path.name)).1, file.path⟩] } := by
  unfold addFragment
  simp only []
  rw [if_neg (strtol_ptr_ne_null _), h]

theorem addFragment_of_not_found {tc : Impl} (uninit : List Nat) (m : Packages) (file : FileEntry)
    (h : mapFind m (titleId file.path.name) = none) :
    addFragment tc uninit m file
      = if memcmp (readMagic uninit file.bytes) PKG_MAGIC magicCompareLength ≠ 0 then m
        else mapInsert m (titleId file.path.name)
          { Package.new with part := 0, file := file.path } := by
  unfold addFragment
  simp only []
  rw [if_neg (strtol_ptr_ne_null _), h]

theorem mapFind_eq_none_iff (m : Packages) (k : Str) : mapFind m k = none ↔ k ∉ keysOf m := by
  induction m with
  | nil => simp [mapFind, keysOf]
  | cons x rest ih =>
    obtain ⟨xk, xv⟩ := x
    by_cases h : xk = k
    · simp [mapFind, keysOf, h]
    · have h2 : ¬ k = xk := fun e => h e.symm
      simp only [mapFind, h, if_false, ih, keysOf, List.map_cons, List.mem_cons, h2, false_or]

theorem keysOf_mapModify (m : Packages) (k : Str) (f : Package → Package) :
    keysOf (mapModify m k f) = keysOf m := by
  unfold keysOf mapModify
  rw [List.map_map]
  apply List.map_congr_left
  intro kv _
  by_cases h : kv.1 = k <;> simp [h]

theorem keysOf_mapInsert (m : Packages) (k : Str) (v : Package) (h : k ∉ keysOf m) :
    (keysOf (mapInsert m k v)).Perm (k :: keysOf m) := by
  induction m with
  | nil => exact List.Perm.refl _
  | cons x rest ih =>
    obtain ⟨xk, xv⟩ := x
    have hx : ¬ xk = k := by
      intro e; apply h; rw [← e]; exact List.mem_cons_self _ _
    have hrest : k ∉ keysOf rest := fun e => h (List.mem_cons_of_mem _ e)
    unfold mapInsert
    by_cases hl : strLess k xk = true
    · rw [if_pos hl]; exact List.Perm.refl _
    · rw [if_neg hl, if_neg hx]
      exact (List.Perm.cons xk (ih hrest)).trans (List.Perm.swap k xk _)

theorem KeyedBy_mapInsert (S : Str → Package → Prop) (m : Packages) (k : Str) (v : Package)
    (hm : KeyedBy S m) (hv : S k v) : KeyedBy S (mapInsert m k v) := by
  intro kv hkv
  rcases mem_mapInsert m k v kv hkv with h | h
  · exact hm kv h
  · rw [h]; exact hv

theorem KeyedBy_mapModify (S : Str → Package → Prop) (m : Packages) (k : Str)
    (f : Package → Package) (hm : KeyedBy S m) (hf : ∀ pkg, S k pkg → S k (f pkg)) :
    KeyedBy S (mapModify m k f) := by
  intro kv hkv
  unfold mapModify at hkv
  obtain ⟨kv0, h0, h1⟩ := List.mem_map.mp hkv
  by_cases hk : kv0.1 = k
  · rw [if_pos hk] at h1
    rw [← h1]
    have := hm kv0 h0
    rw [hk] at this
    have h2 := hf kv0.2 this
    rw [← hk] at h2
    exact h2
  · rw [if_neg hk] at h1
    rw [← h1]
    exact hm kv0 h0

/-! ## One step of Multiple mode -/

theorem derivedId_terminal (n : Str) (h : isTerminal n = true) : derivedId n = baseName n := by
  unfold isTerminal at h
  simp only [Bool.and_eq_true] at h
  unfold derivedId
  rw [if_pos h.2]

theorem derivedId_fragment (n : Str) (h : isFragment n = true) : derivedId n = titleId n := by
  unfold isFragment at h
  simp only [Bool.and_eq_true, Bool.not_eq_true'] at h
  unfold derivedId
  rw [if_neg (by rw [h.2]; exact Bool.false_ne_true)]

theorem not_terminal_of_fragment (n : Str) (h : isFragment n = true) : isTerminal n = false := by
  unfold isFragment at h
  simp only [Bool.and_eq_true, Bool.not_eq_true'] at h
  simp [isTerminal, h.2]

theorem OwnFiles_scPackage (file : FileEntry) (k : Str) (hk : derivedId file.path.name = k)
    (hb : baseName file.path.name = k) : OwnFiles k (scPackage file) := by
  refine ⟨Or.inr hb, ?_⟩
  exact fragmentPaths_scPackage (fun p => derivedId p.name = k) file hk

theorem OwnFiles_attachSc (file : FileEntry) (k : Str) (hk : derivedId file.path.name = k)
    (hb : baseName file.path.name = k) (pkg : Package) (h : OwnFiles k pkg) :
    OwnFiles k (attachSc file pkg) := by
  refine ⟨Or.inr hb, ?_⟩
  exact fragmentPaths_attachSc (fun p => derivedId p.name = k) file hk pkg h.2

theorem OwnFiles_addPiece (file : FileEntry) (k : Str) (n : Int)
    (hk : derivedId file.path.name = k) (pkg : Package) (h : OwnFiles k pkg) :
    OwnFiles k { pkg with parts := pkg.parts ++ [⟨n, file.path⟩] } := by
  refine ⟨h.1, ?_⟩
  intro p hp
  rcases (mem_fragmentPaths _ p).mp hp with h1 | ⟨q, hq, hqp⟩ | ⟨sc, hsc, hsp⟩
  · exact h.2 p ((mem_fragmentPaths pkg p).mpr (Or.inl h1))
  · rcases List.mem_append.mp hq with h2 | h2
    · exact h.2 p ((mem_fragmentPaths pkg p).mpr (Or.inr (Or.inl ⟨q, h2, hqp⟩)))
    · rw [List.mem_singleton] at h2
      rw [← hqp, h2]; exact hk
  · exact h.2 p ((mem_fragmentPaths pkg p).mpr (Or.inr (Or.inr ⟨sc, hsc, hsp⟩)))

theorem OwnFiles_newRoot (file : FileEntry) (k : Str) (hk : derivedId file.path.name = k) :
    OwnFiles k { Package.new with part := 0, file := file.path } := by
  refine ⟨Or.inl rfl, ?_⟩
  intro p hp
  rcases (mem_fragmentPaths _ p).mp hp with h | ⟨q, hq, _⟩ | ⟨sc, hsc, _⟩
  · rw [h]; exact hk
  · simp [Package.new] at hq
  · simp [Package.new] at hsc

/-- What one file of Multiple mode does to the keys and to the consistency
of the groups: the keys stay or gain the file's derived identifier, a
terminal file's identifier is a key afterwards. -/
theorem multipleStep_keys {tc : Impl} (uninit : List Nat) (m : Packages) (file : FileEntry)
    (hc : isCandidate file.path.name = true) (hnd : (keysOf m).Nodup)
    (hown : KeyedBy OwnFiles m) :
    (keysOf (multipleStep tc uninit m file)).Nodup ∧
    (∀ k ∈ keysOf (multipleStep tc uninit m file),
      k ∈ keysOf m ∨ k = derivedId file.path.name) ∧
    (∀ k ∈ keysOf m, k ∈ keysOf (multipleStep tc uninit m file)) ∧
    (isTerminal file.path.name = true →
      derivedId file.path.name ∈ keysOf (multipleStep tc uninit m file)) ∧
    KeyedBy OwnFiles (multipleStep tc uninit m file) := by
  have hins : ∀ (k : Str) (v : Package), k = derivedId file.path.name → k ∉ keysOf m →
      OwnFiles k v →
      (keysOf (mapInsert m k v)).Nodup ∧
      (∀ x ∈ keysOf (mapInsert m k v), x ∈ keysOf m ∨ x = derivedId file.path.name) ∧
      (∀ x ∈ keysOf m, x ∈ keysOf (mapInsert m k v)) ∧
      derivedId file.path.name ∈ keysOf (mapInsert m k v) ∧
      KeyedBy OwnFiles (mapInsert m k v) := by
    intro k v hk hnot hv
    have hperm := keysOf_mapInsert m k v hnot
    refine ⟨(List.Perm.nodup_iff hperm).mpr (List.nodup_cons.mpr ⟨hnot, hnd⟩), ?_, ?_, ?_,
      KeyedBy_mapInsert OwnFiles m k v hown hv⟩
    · intro x hx
      rcases List.mem_cons.mp ((List.Perm.mem_iff hperm).mp hx) with h1 | h1
      · exact Or.inr (by rw [h1, hk])
      · exact Or.inl h1
    · intro x hx
      exact (List.Perm.mem_iff hperm).mpr (List.mem_cons_of_mem _ hx)
    · rw [← hk]
      exact (List.Perm.mem_iff hperm).mpr (List.mem_cons_self _ _)
  have hmod : ∀ (k : Str) (f : Package → Package), k = derivedId file.path.name →
      k ∈ keysOf m → (∀ pkg, OwnFiles k pkg → OwnFiles k (f pkg)) →
      (keysOf (mapModify m k f)).Nodup ∧
      (∀ x ∈ keysOf (mapModify m k f), x ∈ keysOf m ∨ x = derivedId file.path.name) ∧
      (∀ x ∈ keysOf m, x ∈ keysOf (mapModify m k f)) ∧
      derivedId file.path.name ∈ keysOf (mapModify m k f) ∧
      KeyedBy OwnFiles (mapModify m k f) := by
    intro k f hk hin hf
    rw [keysOf_mapModify]
    exact ⟨hnd, fun x hx => Or.inl hx, fun x hx => hx, by rw [← hk]; exact hin,
      KeyedBy_mapModify OwnFiles m k f hown hf⟩
  rw [multipleStep_eq]
  by_cases hterm : isTerminal file.path.name = true
  · rw [if_pos hterm]
    have hd := derivedId_terminal _ hterm
    cases hfind : mapFind m (baseName file.path.name) with
    | none =>
      simp only []
      obtain ⟨h1, h2, h3, h4, h5⟩ := hins (baseName file.path.name) (scPackage file) hd.symm
        ((mapFind_eq_none_iff m _).mp hfind) (OwnFiles_scPackage file _ hd rfl)
      exact ⟨h1, h2, h3, fun _ => h4, h5⟩
    | some v =>
      simp only []
      have hin : baseName file.path.name ∈ keysOf m := by
        by_contra hcon
        rw [(mapFind_eq_none_iff m _).mpr hcon] at hfind
        cases hfind
      obtain ⟨h1, h2, h3, h4, h5⟩ := hmod (baseName file.path.name) (attachSc file) hd.symm hin
        (OwnFiles_attachSc file _ hd rfl)
      exact ⟨h1, h2, h3, fun _ => h4, h5⟩
  · rw [if_neg hterm]
    have hfrag : isFragment file.path.name = true := by
      unfold isTerminal at hterm
      unfold isFragment
      rw [hc] at hterm ⊢
      simpa using hterm
    rw [if_pos hfrag]
    have hd := derivedId_fragment _ hfrag
    cases hfind : mapFind m (titleId file.path.name) with
    | some v =>
      rw [addFragment_of_found uninit m file v hfind]
      have hin : titleId file.path.name ∈ keysOf m := by
        by_contra hcon
        rw [(mapFind_eq_none_iff m _).mpr hcon] at hfind
        cases hfind
      obtain ⟨h1, h2, h3, _, h5⟩ := hmod (titleId file.path.name) _ hd.symm hin
        (OwnFiles_addPiece file _ (intOfLong (strtol tc (partText file.path.name)).1) hd)
      exact ⟨h1, h2, h3, fun h => absurd h hterm, h5⟩
    | none =>
      rw [addFragment_of_not_found uninit m file hfind]
      by_cases hmagic : memcmp (readMagic uninit file.bytes) PKG_MAGIC magicCompareLength ≠ 0
      · rw [if_pos hmagic]
        exact ⟨hnd, fun x hx => Or.inl hx, fun x hx => hx, fun h => absurd h hterm, hown⟩
      · rw [if_neg hmagic]
        obtain ⟨h1, h2, h3, _, h5⟩ := hins (titleId file.path.name) _ hd.symm
          ((mapFind_eq_none_iff m _).mp hfind) (OwnFiles_newRoot file _ hd)
        exact ⟨h1, h2, h3, fun h => absurd h hterm, h5⟩

/-! ## Multiple mode with two identifiers -/

theorem multipleStep_skip {tc : Impl} (uninit : List Nat) (m : Packages) (file : FileEntry)
    (hc : isCandidate file.path.name = false) : multipleStep tc uninit m file = m := by
  rw [multipleStep_eq, isTerminal_false_of_not_candidate _ hc,
    isFragment_false_of_not_candidate _ hc]
  rfl

theorem foldl_multiple_invariant {tc : Impl} (uninit : List Nat) (A B : Str) :
    ∀ (files : List FileEntry) (m : Packages),
      (∀ f ∈ files, isCandidate f.path.name = true →
        derivedId f.path.name = A ∨ derivedId f.path.name = B) →
      (keysOf m).Nodup → (∀ k ∈ keysOf m, k = A ∨ k = B) → KeyedBy OwnFiles m →
      (keysOf (files.foldl (multipleStep tc uninit) m)).Nodup ∧
      (∀ k ∈ keysOf (files.foldl (multipleStep tc uninit) m), k = A ∨ k = B) ∧
      KeyedBy OwnFiles (files.foldl (multipleStep tc uninit) m) ∧
      (∀ k ∈ keysOf m, k ∈ keysOf (files.foldl (multipleStep tc uninit) m)) ∧
      (∀ f ∈ files, isTerminal f.path.name = true →
        baseName f.path.name ∈ keysOf (files.foldl (multipleStep tc uninit) m)) := by
  intro files
  induction files with
  | nil =>
    intro m _ hnd hsub hown
    exact ⟨hnd, hsub, hown, fun k hk => hk, fun f hf => by cases hf⟩
  | cons f rest ih =>
    intro m hkeys hnd hsub hown
    rw [List.foldl_cons]
    have hkeys2 : ∀ g ∈ rest, isCandidate g.path.name = true →
        derivedId g.path.name = A ∨ derivedId g.path.name = B :=
      fun g hg => hkeys g (List.mem_cons_of_mem _ hg)
    by_cases hc : isCandidate f.path.name = true
    · obtain ⟨s1, s2, s3, s4, s5⟩ := multipleStep_keys uninit m f hc hnd hown
      have hsub2 : ∀ k ∈ keysOf (multipleStep tc uninit m f), k = A ∨ k = B := by
        intro k hk
        rcases s2 k hk with h | h
        · exact hsub k h
        · rw [h]; exact hkeys f (List.mem_cons_self _ _) hc
      obtain ⟨r1, r2, r3, r4, r5⟩ := ih _ hkeys2 s1 hsub2 s5
      refine ⟨r1, r2, r3, fun k hk => r4 k (s3 k hk), ?_⟩
      intro g hg hgt
      rcases List.mem_cons.mp hg with h | h
      · rw [h] at hgt ⊢
        have := s4 hgt
        rw [derivedId_terminal _ hgt] at this
        exact r4 _ this
      · exact r5 g h hgt
    · have hc2 : isCandidate f.path.name = false := by simpa using hc
      rw [multipleStep_skip uninit m f hc2]
      obtain ⟨r1, r2, r3, r4, r5⟩ := ih m hkeys2 hnd hsub hown
      refine ⟨r1, r2, r3, r4, ?_⟩
      intro g hg hgt
      rcases List.mem_cons.mp hg with h | h
      · rw [h, isTerminal_false_of_not_candidate _ hc2] at hgt
        cases hgt
      · exact r5 g h hgt

/-- A map whose keys are distinct, drawn from two values and contain both,
has exactly two bindings. -/
theorem two_keys (m : Packages) (A B : Str) (hAB : A ≠ B) (hnd : (keysOf m).Nodup)
    (hsub : ∀ k ∈ keysOf m, k = A ∨ k = B) (hA : A ∈ keysOf m) (hB : B ∈ keysOf m) :
    ∃ pa pb, m = [(A, pa), (B, pb)] ∨ m = [(B, pb), (A, pa)] := by
  match m, hnd, hsub, hA, hB with
  | [], _, _, hA, _ => cases hA
  | [x], _, _, hA, hB =>
    simp only [keysOf, List.map_cons, List.map_nil, List.mem_singleton] at hA hB
    exact absurd (hA.trans hB.symm) hAB
  | [(k1, v1), (k2, v2)], hnd, hsub, hA, hB =>
    simp only [keysOf, List.map_cons, List.map_nil, List.mem_cons, List.mem_singleton,
      List.not_mem_nil, or_false] at hA hB
    simp only [keysOf, List.map_cons, List.map_nil, List.nodup_cons, List.mem_singleton,
      List.not_mem_nil, not_false_eq_true, List.nodup_nil, and_true] at hnd
    rcases hA with h1 | h1 <;> rcases hB with h2 | h2
    · exact absurd (h1.trans h2.symm) hAB
    · exact ⟨v1, v2, Or.inl (by rw [h1, h2])⟩
    · exact ⟨v2, v1, Or.inr (by rw [h1, h2])⟩
    · exact absurd (h1.trans h2.symm) hAB
  | (k1, v1) :: (k2, v2) :: (k3, v3) :: rest, hnd, hsub, _, _ =>
    exfalso
    have h1 := hsub k1 (by simp [keysOf])
    have h2 := hsub k2 (by simp [keysOf])
    have h3 := hsub k3 (by simp [keysOf])
    simp only [keysOf, List.map_cons, List.nodup_cons, List.mem_cons, not_or] at hnd
    obtain ⟨⟨n12, n13, _⟩, ⟨n23, _⟩, _⟩ := hnd
    rcases h1 with h1 | h1 <;> rcases h2 with h2 | h2 <;> rcases h3 with h3 | h3
    · exact n12 (h1.trans h2.symm)
    · exact n12 (h1.trans h2.symm)
    · exact n13 (h1.trans h3.symm)
    · exact n23 (h2.trans h3.symm)
    · exact n23 (h2.trans h3.symm)
    · exact n13 (h1.trans h3.symm)
    · exact n12 (h1.trans h2.symm)
    · exact n12 (h1.trans h2.symm)

theorem mergedFileName_own (k : Str) (pkg : Package) (h : OwnFiles k pkg) :
    mergedFileName (k, pkg) = k ++ mergedSuffix := by
  unfold mergedFileName
  rcases h.1 with h1 | h1
  · simp [h1]
  · by_cases hk : k = []
    · simp [h1, hk]
    · simp [h1, hk]

/-- C6. In Multiple mode, let every candidate file of the source directory
have derived identifier `A` or `B` (two distinct prefixes), and let each
prefix have a terminal file. Then discovery builds exactly the two groups `A`
and `B`, named `A-merged.pkg` and `B-merged.pkg`; every file of group `A`
(root, numbered, terminal) has derived identifier `A`, and likewise for `B`.
Whenever `main` returns, it returns 0 and reports exactly these two outputs;
it does return when no candidate file is empty, and each output then holds
the bytes of the files of its own group. -/
theorem multiple_mode_two_groups (tc : Impl) (uninit : List Nat) (fs : FS)
    (source_path target_path : Str) (A B : Str) (hAB : A ≠ B)
    (hkeys : ∀ f ∈ listDir fs source_path, isCandidate f.path.name = true →
      derivedId f.path.name = A ∨ derivedId f.path.name = B)
    (hA : ∃ f ∈ listDir fs source_path, isTerminal f.path.name = true ∧
      baseName f.path.name = A)
    (hB : ∃ f ∈ listDir fs source_path, isTerminal f.path.name = true ∧
      baseName f.path.name = B) :
    ∃ pa pb outputs,
      ((discover tc Mode.multiple uninit (listDir fs source_path) = [(A, pa), (B, pb)] ∧
          outputs = [(⟨target_path, A ++ mergedSuffix⟩ : Path),
            ⟨target_path, B ++ mergedSuffix⟩]) ∨
        (discover tc Mode.multiple uninit (listDir fs source_path) = [(B, pb), (A, pa)] ∧
          outputs = [(⟨target_path, B ++ mergedSuffix⟩ : Path),
            ⟨target_path, A ++ mergedSuffix⟩])) ∧
      mergedFileName (A, pa) = A ++ mergedSuffix ∧
      mergedFileName (B, pb) = B ++ mergedSuffix ∧
      (∀ p ∈ fragmentPaths pa, derivedId p.name = A) ∧
      (∀ p ∈ fragmentPaths pb, derivedId p.name = B) ∧
      (∀ code fs1 created,
        pkgMain tc Mode.multiple uninit fs source_path target_path
          = Outcome.exit code fs1 created →
        code = 0 ∧ created = outputs) ∧
      ((∀ e ∈ fs, e.path.dir = source_path → isCandidate e.path.name = true →
          e.bytes ≠ []) →
        ∃ fs1, pkgMain tc Mode.multiple uninit fs source_path target_path
            = Outcome.exit 0 fs1 outputs ∧
          readFile fs1 ⟨target_path, A ++ mergedSuffix⟩ = some (groupBytes tc fs pa) ∧
          readFile fs1 ⟨target_path, B ++ mergedSuffix⟩ = some (groupBytes tc fs pb)) := by
  obtain ⟨h1, h2, h3, _, h5⟩ := foldl_multiple_invariant uninit A B (listDir fs source_path) []
    hkeys List.nodup_nil (fun k hk => by cases hk) (fun kv hkv => by cases hkv)
  have hdef : discover tc Mode.multiple uninit (listDir fs source_path)
      = (listDir fs source_path).foldl (multipleStep tc uninit) [] := rfl
  rw [← hdef] at h1 h2 h3 h5
  have hAin : A ∈ keysOf (discover tc Mode.multiple uninit (listDir fs source_path)) := by
    obtain ⟨f, hf, hft, hfb⟩ := hA
    rw [← hfb]; exact h5 f hf hft
  have hBin : B ∈ keysOf (discover tc Mode.multiple uninit (listDir fs source_path)) := by
    obtain ⟨f, hf, hft, hfb⟩ := hB
    rw [← hfb]; exact h5 f hf hft
  obtain ⟨pa, pb, hform⟩ := two_keys _ A B hAB h1 h2 hAin hBin
  have hmemA : (A, pa) ∈ discover tc Mode.multiple uninit (listDir fs source_path) := by
    rcases hform with h | h <;> rw [h] <;> simp
  have hmemB : (B, pb) ∈ discover tc Mode.multiple uninit (listDir fs source_path) := by
    rcases hform with h | h <;> rw [h] <;> simp
  have hownA : OwnFiles A pa := h3 (A, pa) hmemA
  have hownB : OwnFiles B pb := h3 (B, pb) hmemB
  have houtA : fullMergedFile target_path (A, pa) = ⟨target_path, A ++ mergedSuffix⟩ := by
    unfold fullMergedFile
    rw [mergedFileName_own A pa hownA]
  have houtB : fullMergedFile target_path (B, pb) = ⟨target_path, B ++ mergedSuffix⟩ := by
    unfold fullMergedFile
    rw [mergedFileName_own B pb hownB]
  have hdiff : (⟨target_path, A ++ mergedSuffix⟩ : Path) ≠ ⟨target_path, B ++ mergedSuffix⟩ := by
    intro e
    have : A ++ mergedSuffix = B ++ mergedSuffix := (Path.mk.injEq _ _ _ _).mp e |>.2
    exact hAB (List.append_cancel_right this)
  have hcount : ¬ (Mode.multiple = Mode.single ∧
      (listDir fs source_path).foldl countStep 0 > 1) := by
    rintro ⟨h, _⟩; cases h
  refine ⟨pa, pb, outputsOf target_path (discover tc Mode.multiple uninit (listDir fs source_path)),
    ?_, mergedFileName_own A pa hownA, mergedFileName_own B pb hownB, hownA.2, hownB.2, ?_, ?_⟩
  · rcases hform with h | h
    · left
      refine ⟨h, ?_⟩
      rw [h]
      simp only [outputsOf, List.map_cons, List.map_nil, houtA, houtB]
    · right
      refine ⟨h, ?_⟩
      rw [h]
      simp only [outputsOf, List.map_cons, List.map_nil, houtA, houtB]
  · intro code fs1 created hrun
    exact pkgMain_exit_created Mode.multiple uninit fs source_path target_path hcount
      code fs1 created hrun
  · intro hne
    obtain ⟨fs1, hrun, hcontent⟩ := pkgMain_ok Mode.multiple uninit fs source_path target_path
      (fun h => by cases h) hne
    have hnodup : (outputsOf target_path
        (discover tc Mode.multiple uninit (listDir fs source_path))).Nodup := by
      rcases hform with h | h
      · rw [h]
        simp only [outputsOf, List.map_cons, List.map_nil, houtA, houtB, List.nodup_cons,
          List.mem_singleton, List.not_mem_nil, not_false_eq_true, List.nodup_nil, and_true]
        exact hdiff
      · rw [h]
        simp only [outputsOf, List.map_cons, List.map_nil, houtA, houtB, List.nodup_cons,
          List.mem_singleton, List.not_mem_nil, not_false_eq_true, List.nodup_nil, and_true]
        exact fun e => hdiff e.symm
    have hcA := hcontent hnodup (A, pa) hmemA
    have hcB := hcontent hnodup (B, pb) hmemB
    rw [houtA] at hcA
    rw [houtB] at hcB
    exact ⟨fs1, hrun, hcA, hcB⟩

theorem multiple_mode_two_groups_witness :
    "A".toList ≠ "B".toList ∧
    (∀ f ∈ listDir twoGroupsFs "src".toList, isCandidate f.path.name = true →
      derivedId f.path.name = "A".toList ∨ derivedId f.path.name = "B".toList) ∧
    (∃ f ∈ listDir twoGroupsFs "src".toList, isTerminal f.path.name = true ∧
      baseName f.path.name = "A".toList) ∧
    (∃ f ∈ listDir twoGroupsFs "src".toList, isTerminal f.path.name = true ∧
      baseName f.path.name = "B".toList) ∧
    ∃ pa pb outputs,
      ((discover impl32 Mode.multiple [0, 0, 0, 0] (listDir twoGroupsFs "src".toList)
            = [("A".toList, pa), ("B".toList, pb)] ∧
          outputs = [(⟨"out".toList, "A".toList ++ mergedSuffix⟩ : Path),
            ⟨"out".toList, "B".toList ++ mergedSuffix⟩]) ∨
        (discover impl32 Mode.multiple [0, 0, 0, 0] (listDir twoGroupsFs "src".toList)
            = [("B".toList, pb), ("A".toList, pa)] ∧
          outputs = [(⟨"out".toList, "B".toList ++ mergedSuffix⟩ : Path),
            ⟨"out".toList, "A".toList ++ mergedSuffix⟩])) ∧
      mergedFileName ("A".toList, pa) = "A".toList ++ mergedSuffix ∧
      mergedFileName ("B".toList, pb) = "B".toList ++ mergedSuffix ∧
      (∀ p ∈ fragmentPaths pa, derivedId p.name = "A".toList) ∧
      (∀ p ∈ fragmentPaths pb, derivedId p.name = "B".toList) ∧
      (∀ code fs1 created,
        pkgMain impl32 Mode.multiple [0, 0, 0, 0] twoGroupsFs "src".toList "out".toList
          = Outcome.exit code fs1 created →
        code = 0 ∧ created = outputs) ∧
      ((∀ e ∈ twoGroupsFs, e.path.dir = "src".toList → isCandidate e.path.name = true →
          e.bytes ≠ []) →
        ∃ fs1, pkgMain impl32 Mode.multiple [0, 0, 0, 0] twoGroupsFs "src".toList "out".toList
            = Outcome.exit 0 fs1 outputs ∧
          readFile fs1 ⟨"out".toList, "A".toList ++ mergedSuffix⟩
            = some (groupBytes impl32 twoGroupsFs pa) ∧
          readFile fs1 ⟨"out".toList, "B".toList ++ mergedSuffix⟩
            = some (groupBytes impl32 twoGroupsFs pb)) :=
  ⟨by decide, by decide, by decide, by decide,
    multiple_mode_two_groups impl32 [0, 0, 0, 0] twoGroupsFs "src".toList "out".toList
      "A".toList "B".toList (by decide) (by decide) (by decide) (by decide)⟩

/-! ## Looking up one key while the map changes -/

theorem mapFind_cons (k : Str) (v : Package) (rest : Packages) (key : Str) :
    mapFind ((k, v) :: rest) key = if k = key then some v else mapFind rest key := rfl

theorem mapFind_some_mem (m : Packages) (k : Str) (v : Package) (h : mapFind m k = some v) :
    (k, v) ∈ m := by
  induction m with
  | nil => cases h
  | cons x rest ih =>
    obtain ⟨xk, xv⟩ := x
    rw [mapFind_cons] at h
    by_cases hx : xk = k
    · rw [if_pos hx] at h
      rw [← Option.some.inj h, hx]
      exact List.mem_cons_self _ _
    · rw [if_neg hx] at h
      exact List.mem_cons_of_mem _ (ih h)

theorem mapFind_mapInsert_self (m : Packages) (k : Str) (v : Package)
    (h : mapFind m k = none) : mapFind (mapInsert m k v) k = some v := by
  induction m with
  | nil => rw [mapInsert, mapFind_cons, if_pos rfl]
  | cons x rest ih =>
    obtain ⟨xk, xv⟩ := x
    rw [mapFind_cons] at h
    by_cases hx : xk = k
    · rw [if_pos hx] at h; cases h
    · rw [if_neg hx] at h
      unfold mapInsert
      by_cases hl : strLess k xk = true
      · rw [if_pos hl, mapFind_cons, if_pos rfl]
      · rw [if_neg hl, if_neg hx, mapFind_cons, if_neg hx]
        exact ih h

theorem mapFind_mapInsert_ne (m : Packages) (k : Str) (v : Package) (key : Str)
    (hk : k ≠ key) : mapFind (mapInsert m k v) key = mapFind m key := by
  induction m with
  | nil => rw [mapInsert, mapFind_cons, if_neg hk]
  | cons x rest ih =>
    obtain ⟨xk, xv⟩ := x
    unfold mapInsert
    by_cases hl : strLess k xk = true
    · rw [if_pos hl, mapFind_cons, if_neg hk]
    · rw [if_neg hl]
      by_cases hx : xk = k
      · rw [if_pos hx]
      · rw [if_neg hx, mapFind_cons, mapFind_cons, ih]

theorem mapModify_cons (x : Str × Package) (rest : Packages) (k : Str)
    (f : Package → Package) :
    mapModify (x :: rest) k f
      = (if x.1 = k then (x.1, f x.2) else x) :: mapModify rest k f := rfl

theorem mapFind_mapModify_self (m : Packages) (k : Str) (f : Package → Package) :
    mapFind (mapModify m k f) k = (mapFind m k).map f := by
  induction m with
  | nil => rfl
  | cons x rest ih =>
    obtain ⟨xk, xv⟩ := x
    rw [mapModify_cons, mapFind_cons]
    by_cases hx : xk = k
    · rw [if_pos hx, if_pos hx, mapFind_cons, if_pos hx]
      rfl
    · rw [if_neg hx, if_neg hx, mapFind_cons, if_neg hx]
      exact ih

theorem mapFind_mapModify_ne (m : Packages) (k : Str) (f : Package → Package) (key : Str)
    (hk : k ≠ key) : mapFind (mapModify m k f) key = mapFind m key := by
  induction m with
  | nil => rfl
  | cons x rest ih =>
    obtain ⟨xk, xv⟩ := x
    rw [mapModify_cons, mapFind_cons]
    by_cases hx : xk = k
    · have hxk : ¬ xk = key := fun e => hk (hx.symm.trans e)
      rw [if_pos hx, mapFind_cons, if_neg hxk, if_neg hxk]
      exact ih
    · rw [if_neg hx, mapFind_cons]
      by_cases hxk : xk = key
      · rw [if_pos hxk, if_pos hxk]
      · rw [if_neg hxk, if_neg hxk]
        exact ih

/-! ## Multiple mode: the group of a terminal file seen first -/

/-- Adding a piece to a group, as source lines 541-544 do. -/
theorem addFragment_find_other {tc : Impl} (uninit : List Nat) (m : Packages) (file : FileEntry)
    (X : Str) (hX : titleId file.path.name ≠ X) :
    mapFind (addFragment tc uninit m file) X = mapFind m X := by
  cases hfind : mapFind m (titleId file.path.name) with
  | some v =>
    rw [addFragment_of_found uninit m file v hfind, mapFind_mapModify_ne _ _ _ _ hX]
  | none =>
    rw [addFragment_of_not_found uninit m file hfind]
    split_ifs
    · rfl
    · exact mapFind_mapInsert_ne _ _ _ _ hX

theorem addFragment_find_same {tc : Impl} (uninit : List Nat) (m : Packages) (file : FileEntry)
    (X : Str) (pkg : Package) (hX : titleId file.path.name = X)
    (hfind : mapFind m X = some pkg) :
    mapFind (addFragment tc uninit m file) X
      = some { pkg with parts := pkg.parts ++ [pieceOf tc file] } := by
  have hf : mapFind m (titleId file.path.name) = some pkg := by rw [hX]; exact hfind
  rw [addFragment_of_found uninit m file pkg hf, hX, mapFind_mapModify_self, hfind]
  rfl

/-- One file of Multiple mode, seen from a group `X` that exists already and
whose terminal file has been seen: a fragment file of identifier `X` adds its
piece to the group, with no look at its content; any other file leaves the
group as it is. -/
theorem multipleStep_find {tc : Impl} (uninit : List Nat) (m : Packages) (file : FileEntry)
    (X : Str) (pkg : Package) (hfind : mapFind m X = some pkg)
    (hterm : isTerminal file.path.name = true → baseName file.path.name ≠ X) :
    mapFind (multipleStep tc uninit m file) X
      = some { pkg with parts := pkg.parts ++ piecesFor tc X [file] } := by
  rw [multipleStep_eq]
  by_cases ht : isTerminal file.path.name = true
  · have hfr : isFragment file.path.name = false := by
      unfold isTerminal at ht
      simp only [Bool.and_eq_true] at ht
      simp [isFragment, ht.2]
    have hp : piecesFor tc X [file] = [] := by
      simp [piecesFor, hfr]
    rw [if_pos ht, hp, List.append_nil]
    have hne := hterm ht
    cases hb : mapFind m (baseName file.path.name) with
    | none =>
      simp only []
      rw [mapFind_mapInsert_ne _ _ _ _ hne]; exact hfind
    | some v =>
      simp only []
      rw [mapFind_mapModify_ne _ _ _ _ hne]; exact hfind
  · rw [if_neg ht]
    by_cases hfr : isFragment file.path.name = true
    · rw [if_pos hfr]
      by_cases hid : titleId file.path.name = X
      · have hp : piecesFor tc X [file] = [pieceOf tc file] := by
          simp [piecesFor, hfr, hid]
        rw [hp]
        exact addFragment_find_same uninit m file X pkg hid hfind
      · have hp : piecesFor tc X [file] = [] := by
          simp [piecesFor, hid]
        rw [hp, List.append_nil, addFragment_find_other uninit m file X hid]
        exact hfind
    · have hp : piecesFor tc X [file] = [] := by
        simp [piecesFor, hfr]
      rw [if_neg hfr, hp, List.append_nil]
      exact hfind

theorem piecesFor_cons {tc : Impl} (X : Str) (f : FileEntry) (rest : List FileEntry) :
    piecesFor tc X (f :: rest) = piecesFor tc X [f] ++ piecesFor tc X rest := by
  unfold piecesFor
  rw [← List.map_append, ← List.filter_append]
  rfl

theorem foldl_multiple_find {tc : Impl} (uninit : List Nat) (X : Str) :
    ∀ (files : List FileEntry) (m : Packages) (pkg : Package),
      mapFind m X = some pkg →
      (∀ f ∈ files, isTerminal f.path.name = true → baseName f.path.name ≠ X) →
      mapFind (files.foldl (multipleStep tc uninit) m) X
        = some { pkg with parts := pkg.parts ++ piecesFor tc X files } := by
  intro files
  induction files with
  | nil =>
    intro m pkg hfind _
    simp only [List.foldl_nil, piecesFor, List.filter_nil, List.map_nil, List.append_nil]
    exact hfind
  | cons f rest ih =>
    intro m pkg hfind hterm
    rw [List.foldl_cons]
    have hstep := @multipleStep_find tc uninit m f X pkg hfind
      (hterm f (List.mem_cons_self _ _))
    rw [piecesFor_cons X f rest, ih _ _ hstep (fun g hg => hterm g (List.mem_cons_of_mem _ hg))]
    simp only [List.append_assoc]

/-- Multiple mode keeps the keys distinct and every group consistent with its
key, and a key is the derived identifier of a candidate file seen. -/
theorem foldl_multiple_general {tc : Impl} (uninit : List Nat) :
    ∀ (files : List FileEntry) (m : Packages),
      (keysOf m).Nodup → KeyedBy OwnFiles m →
      (keysOf (files.foldl (multipleStep tc uninit) m)).Nodup ∧
      KeyedBy OwnFiles (files.foldl (multipleStep tc uninit) m) ∧
      (∀ k ∈ keysOf (files.foldl (multipleStep tc uninit) m),
        k ∈ keysOf m ∨
          ∃ f ∈ files, isCandidate f.path.name = true ∧ derivedId f.path.name = k) := by
  intro files
  induction files with
  | nil =>
    intro m hnd hown
    exact ⟨hnd, hown, fun k hk => Or.inl hk⟩
  | cons f rest ih =>
    intro m hnd hown
    rw [List.foldl_cons]
    by_cases hc : isCandidate f.path.name = true
    · obtain ⟨s1, s2, _, _, s5⟩ := multipleStep_keys uninit m f hc hnd hown
      obtain ⟨r1, r2, r3⟩ := ih _ s1 s5
      refine ⟨r1, r2, ?_⟩
      intro k hk
      rcases r3 k hk with h | ⟨g, hg, hgc, hgd⟩
      · rcases s2 k h with h1 | h1
        · exact Or.inl h1
        · exact Or.inr ⟨f, List.mem_cons_self _ _, hc, h1.symm⟩
      · exact Or.inr ⟨g, List.mem_cons_of_mem _ hg, hgc, hgd⟩
    · have hc2 : isCandidate f.path.name = false := by simpa using hc
      rw [multipleStep_skip uninit m f hc2]
      obtain ⟨r1, r2, r3⟩ := ih m hnd hown
      refine ⟨r1, r2, ?_⟩
      intro k hk
      rcases r3 k hk with h | ⟨g, hg, hgc, hgd⟩
      · exact Or.inl h
      · exact Or.inr ⟨g, List.mem_cons_of_mem _ hg, hgc, hgd⟩

theorem fullMergedFile_own (target_dir : Str) (kv : Str × Package) (h : OwnFiles kv.1 kv.2) :
    fullMergedFile target_dir kv = ⟨target_dir, kv.1 ++ mergedSuffix⟩ := by
  obtain ⟨k, pkg⟩ := kv
  unfold fullMergedFile
  rw [mergedFileName_own k pkg h]

/-- Groups with distinct keys, each named from its key, have distinct outputs. -/
theorem outputs_nodup (target_dir : Str) (m : Packages) (hown : KeyedBy OwnFiles m)
    (hnd : (keysOf m).Nodup) : (outputsOf target_dir m).Nodup := by
  induction m with
  | nil => exact List.nodup_nil
  | cons x rest ih =>
    have hnd2 : x.1 ∉ keysOf rest ∧ (keysOf rest).Nodup := List.nodup_cons.mp hnd
    have hown2 : KeyedBy OwnFiles rest := fun kv hkv => hown kv (List.mem_cons_of_mem _ hkv)
    rw [outputsOf_cons]
    refine List.nodup_cons.mpr ⟨?_, ih hown2 hnd2.2⟩
    intro hmem
    obtain ⟨y, hy, hyx⟩ := List.mem_map.mp hmem
    rw [fullMergedFile_own target_dir y (hown2 y hy),
      fullMergedFile_own target_dir x (hown x (List.mem_cons_self _ _))] at hyx
    have hname : y.1 ++ mergedSuffix = x.1 ++ mergedSuffix := (Path.mk.injEq _ _ _ _).mp hyx |>.2
    have hkey : y.1 = x.1 := List.append_cancel_right hname
    apply hnd2.1
    rw [← hkey]
    exact List.mem_map_of_mem Prod.fst hy

/-! ## The name `X_<n>.pkg` next to the terminal file `X_sc.pkg` -/

theorem startsWith_iff_prefix (pat : Str) : ∀ s : Str, startsWith s pat = true ↔ pat <+: s := by
  induction pat with
  | nil => intro s; cases s <;> simp [startsWith]
  | cons p ps ih =>
    intro s
    cases s with
    | nil => simp [startsWith]
    | cons x xs =>
      rw [List.cons_prefix_cons, ← ih xs]
      simp only [startsWith, Bool.and_eq_true, beq_iff_eq]
      constructor
      · rintro ⟨h1, h2⟩; exact ⟨h1.symm, h2⟩
      · rintro ⟨h1, h2⟩; exact ⟨h1.symm, h2⟩

theorem find_eq_none_iff (pat : Str) : ∀ s : Str, find s pat = none ↔ ¬ pat <:+: s := by
  intro s
  induction s with
  | nil =>
    rw [List.infix_nil]
    by_cases hp : pat = [] <;> simp [find, hp]
  | cons x xs ih =>
    rw [List.infix_cons_iff, ← startsWith_iff_prefix]
    unfold find
    by_cases hs : startsWith (x :: xs) pat = true
    · simp [hs]
    · rw [if_neg hs]
      simp only [Option.map_eq_none', ih, hs, false_or, Bool.false_eq_true]

theorem prefix_before_char (l : Str) (c : Char) (hc : c ∉ l) :
    ∀ (A R : Str), l <+: A ++ c :: R → l <+: A := by
  induction l with
  | nil => intro A R _; exact List.nil_prefix
  | cons x xs ih =>
    intro A R h
    cases A with
    | nil =>
      rw [List.nil_append, List.cons_prefix_cons] at h
      exact absurd (by rw [h.1]; exact List.mem_cons_self _ _) hc
    | cons a as =>
      rw [List.cons_append, List.cons_prefix_cons] at h
      rw [List.cons_prefix_cons]
      exact ⟨h.1, ih (fun e => hc (List.mem_cons_of_mem _ e)) as R h.2⟩

theorem infix_around_char (l : Str) (c : Char) (hc : c ∉ l) (R : Str) :
    ∀ A : Str, l <:+: A ++ c :: R → l <:+: A ∨ l <:+: R := by
  intro A
  induction A with
  | nil =>
    intro h
    rw [List.nil_append, List.infix_cons_iff] at h
    rcases h with h | h
    · exact Or.inl (prefix_before_char l c hc [] R h).isInfix
    · exact Or.inr h
  | cons a as ih =>
    intro h
    rw [List.cons_append, List.infix_cons_iff] at h
    rcases h with h | h
    · exact Or.inl (prefix_before_char l c hc (a :: as) R h).isInfix
    · rcases ih h with h1 | h1
      · exact Or.inl (List.infix_cons_iff.mpr (Or.inr h1))
      · exact Or.inr h1

theorem endsWith_iff_suffix (s suf : Str) : endsWith s suf = true ↔ suf <:+ s := by
  unfold endsWith substr
  by_cases hl : suf.length > s.length
  · rw [if_pos hl]
    constructor
    · intro h; cases h
    · intro h
      have := h.length_le
      omega
  · rw [if_neg hl, decide_eq_true_iff, List.suffix_iff_eq_drop]
    have hlen : (List.drop (s.length - suf.length) s).length = suf.length := by
      rw [List.length_drop]; omega
    rw [List.take_of_length_le (le_of_eq hlen)]
    exact eq_comm

theorem name_of_terminal (n : Str) (h : isTerminal n = true) : n = baseName n ++ scSuffix := by
  unfold isTerminal at h
  simp only [Bool.and_eq_true] at h
  have hs := (endsWith_iff_suffix n scSuffix).mp h.2
  have := List.suffix_iff_eq_append.mp hs
  unfold baseName substr
  rw [List.drop_zero]
  have h7 : scSuffix.length = 7 := by decide
  rw [h7] at this
  exact this.symm

theorem extension_of_pkg_name (P : Str) (hP : P ≠ []) : extension (P ++ pkgExt) = pkgExt := by
  have hext : pkgExt = '.' :: ['p', 'k', 'g'] := by decide
  have hfind : findLast? (P ++ pkgExt) '.' = some P.length := by
    rw [hext]
    exact findLast_split P ['p', 'k', 'g'] '.' (by decide)
  obtain ⟨i, hi⟩ : ∃ i, P.length = i + 1 := by
    cases P with
    | nil => exact absurd rfl hP
    | cons x xs => exact ⟨xs.length, rfl⟩
  have hne : ¬ P ++ pkgExt = ['.', '.'] := by
    intro e
    have := congrArg List.length e
    rw [List.length_append, hi, hext] at this
    simp at this
  unfold extension
  rw [if_neg hne, hfind, hi]
  simp only []
  rw [← hi, List.drop_left]

theorem not_endsWith_sc_of_digits (X D : Str) (hD : D ≠ []) (hdig : ∀ c ∈ D, isdigit c = true) :
    endsWith (X ++ '_' :: (D ++ pkgExt)) scSuffix = false := by
  cases he : endsWith (X ++ '_' :: (D ++ pkgExt)) scSuffix with
  | false => rfl
  | true =>
    exfalso
    have hs := (endsWith_iff_suffix _ _).mp he
    have hsc : scSuffix = ['_', 's', 'c'] ++ pkgExt := by decide
    have hname : X ++ '_' :: (D ++ pkgExt) = (X ++ '_' :: D) ++ pkgExt := by simp
    rw [hsc, hname, ← List.reverse_prefix, List.reverse_append, List.reverse_append,
      List.prefix_append_right_inj] at hs
    obtain ⟨d, ds, hd⟩ : ∃ d ds, D.reverse = d :: ds := by
      cases hr : D.reverse with
      | nil => exact absurd (List.reverse_eq_nil_iff.mp hr) hD
      | cons d ds => exact ⟨d, ds, rfl⟩
    have hdm : d ∈ D := by
      rw [← List.mem_reverse, hd]; exact List.mem_cons_self _ _
    have hrev : (X ++ '_' :: D).reverse = d :: (ds ++ '_' :: X.reverse) := by
      rw [List.reverse_append, List.reverse_cons, hd]
      simp
    have hrsc : ['_', 's', 'c'].reverse = 'c' :: ['s', '_'] := by decide
    rw [hrev, hrsc, List.cons_prefix_cons] at hs
    have := hdig d hdm
    rw [← hs.1] at this
    revert this
    decide

/-- Next to a terminal file `X_sc.pkg`, a name `X_<n>.pkg` with decimal digits
`n` is the name of a fragment file. -/
theorem isFragment_numbered (X D : Str) (hX : isCandidate (X ++ scSuffix) = true)
    (hD : D ≠ []) (hdig : ∀ c ∈ D, isdigit c = true) :
    isFragment (X ++ '_' :: (D ++ pkgExt)) = true := by
  have hname : X ++ '_' :: (D ++ pkgExt) = (X ++ '_' :: D) ++ pkgExt := by simp
  have hext : extension (X ++ '_' :: (D ++ pkgExt)) = pkgExt := by
    rw [hname]
    exact extension_of_pkg_name _ (by simp)
  have hXfind : find (X ++ scSuffix) mergedTag = none := by
    unfold isCandidate at hX
    simp only [Bool.and_eq_true, decide_eq_true_eq] at hX
    exact hX.2
  have hfind : find (X ++ '_' :: (D ++ pkgExt)) mergedTag = none := by
    rw [find_eq_none_iff]
    intro hin
    rcases infix_around_char mergedTag '_' (by decide) _ X hin with h | h
    · have h2 : mergedTag <:+: X ++ scSuffix :=
        h.trans (List.prefix_append X scSuffix).isInfix
      exact ((find_eq_none_iff mergedTag _).mp hXfind) h2
    · have hm : '-' ∈ D ++ pkgExt := h.subset (by decide)
      rcases List.mem_append.mp hm with h1 | h1
      · have := hdig _ h1
        revert this
        decide
      · revert h1
        decide
  unfold isFragment isCandidate
  rw [hext, hfind, not_endsWith_sc_of_digits X D hD hdig]
  rfl

/-- The map after the terminal file `t` of identifier `X` has been seen, no
file of identifier `X` having been seen before it, and the files `post` after
it: group `X` has `t` as root and as terminal piece, and the fragment files of
identifier `X` of `post` as numbered pieces. -/
theorem discover_terminal_first {tc : Impl}
    (uninit : List Nat) (X : Str) (pre post : List FileEntry)
    (t : FileEntry) (ht : isTerminal t.path.name = true) (hbase : baseName t.path.name = X)
    (hpre : ∀ f ∈ pre, isCandidate f.path.name = true → derivedId f.path.name ≠ X)
    (hpost : ∀ f ∈ post, isTerminal f.path.name = true → baseName f.path.name ≠ X) :
    mapFind (discover tc Mode.multiple uninit (pre ++ t :: post)) X
      = some ⟨0, t.path, piecesFor tc X post, some (scPiece t), X⟩ := by
  have hdisc : discover tc Mode.multiple uninit (pre ++ t :: post)
      = post.foldl (multipleStep tc uninit)
          (multipleStep tc uninit (pre.foldl (multipleStep tc uninit) []) t) := by
    show (pre ++ t :: post).foldl (multipleStep tc uninit) [] = _
    rw [List.foldl_append, List.foldl_cons]
  obtain ⟨_, _, h3⟩ := foldl_multiple_general uninit pre [] List.nodup_nil
    (fun kv hkv => by cases hkv)
  have hnot : X ∉ keysOf (pre.foldl (multipleStep tc uninit) []) := by
    intro hin
    rcases h3 X hin with h | ⟨f, hf, hfc, hfd⟩
    · cases h
    · exact hpre f hf hfc hfd
  have hnone : mapFind (pre.foldl (multipleStep tc uninit) []) X = none :=
    (mapFind_eq_none_iff _ X).mpr hnot
  have hstep : mapFind (multipleStep tc uninit (pre.foldl (multipleStep tc uninit) []) t) X
      = some (scPackage t) := by
    rw [multipleStep_eq, if_pos ht, hbase, hnone]
    exact mapFind_mapInsert_self _ X _ hnone
  rw [hdisc, foldl_multiple_find uninit X post _ _ hstep hpost]
  simp only [scPackage, Package.new, List.nil_append, hbase]

/-! ## The output files at the end of `merge` -/

/-- The loop over the groups, started on a file system that agrees with
`fs0` outside a set `O` of paths that contains the outputs and none of the
files of the groups: it ends normally, and the output file of a group that
no later group writes to holds the bytes of that group, as `fs0` has them. -/
theorem mergeLoop_last_wins {tc : Impl} (B : Nat) (hB : 0 < B) (target_dir : Str) (fs0 : FS)
    (O : List Path) :
    ∀ (packages : Packages) (fs : FS) (c : List Path),
      (∀ p ∈ outputsOf target_dir packages, p ∈ O) →
      (∀ root ∈ packages, fsExists fs0 root.2.file = true ∧
        (∀ p ∈ appended root.2, contentOf fs0 p.file ≠ []) ∧
        ∀ p ∈ fragmentPaths root.2, p ∉ O) →
      (∀ p, p ∉ O → readFile fs p = readFile fs0 p) →
      ∃ fs1, mergeLoop tc B target_dir packages fs c
          = Except.ok (fs1, c ++ outputsOf target_dir packages) ∧
        (∀ p, p ∉ O → readFile fs1 p = readFile fs0 p) ∧
        ∀ before root after, packages = before ++ root :: after →
          fullMergedFile target_dir root ∉ outputsOf target_dir after →
          readFile fs1 (fullMergedFile target_dir root) = some (groupBytes tc fs0 root.2) := by
  intro packages
  induction packages with
  | nil =>
    intro fs c _ _ hagree
    refine ⟨fs, by simp [mergeLoop, outputsOf], hagree, ?_⟩
    intro before root after h
    exact absurd h (by simp)
  | cons root rest ih =>
    intro fs c hO hgood hagree
    obtain ⟨hex, happ, hnotO⟩ := hgood root (List.mem_cons_self _ _)
    have houtO : fullMergedFile target_dir root ∈ O :=
      hO _ (by rw [outputsOf_cons]; exact List.mem_cons_self _ _)
    have hne_out : ∀ p, p ∉ O → p ≠ fullMergedFile target_dir root := by
      intro p hp e
      rw [e] at hp
      exact hp houtO
    have hsame : ∀ p ∈ fragmentPaths root.2, readFile fs p = readFile fs0 p :=
      fun p hp => hagree p (hnotO p hp)
    have hm0 : Mergeable fs0 (fullMergedFile target_dir root) root.2 :=
      ⟨hex, hne_out _ (hnotO _ (mem_fragmentPaths_file _)),
        fun p hp => ⟨happ p hp, hne_out _ (hnotO _ (mem_fragmentPaths_appended root.2 p hp))⟩⟩
    have hm : Mergeable fs (fullMergedFile target_dir root) root.2 :=
      Mergeable_congr fs0 fs _ root.2 (fun p hp => (hsame p hp).symm) hm0
    have hstep := @mergePackage_ok tc B hB target_dir fs root hm
    rw [groupBytes_congr fs fs0 root.2 hsame] at hstep
    have hagree2 : ∀ p, p ∉ O →
        readFile (fsRemove fs (fullMergedFile target_dir root)
          ++ [⟨fullMergedFile target_dir root, groupBytes tc fs0 root.2⟩]) p = readFile fs0 p := by
      intro p hp
      rw [readFile_fresh_ne _ _ _ _ (hne_out p hp)]
      exact hagree p hp
    obtain ⟨fs1, h1, hag, h2⟩ := ih _ (c ++ [fullMergedFile target_dir root])
      (fun p hp => hO p (by rw [outputsOf_cons]; exact List.mem_cons_of_mem _ hp))
      (fun r hr => hgood r (List.mem_cons_of_mem _ hr)) hagree2
    refine ⟨fs1, ?_, hag, ?_⟩
    · unfold mergeLoop
      simp only [hstep]
      rw [h1, outputsOf_cons]
      simp
    · intro before r after hsplit hlast
      cases before with
      | nil =>
        simp only [List.nil_append, List.cons.injEq] at hsplit
        obtain ⟨hr, hrest⟩ := hsplit
        rw [← hr]
        rw [← hr, ← hrest] at hlast
        obtain ⟨hf, _⟩ := mergeLoop_frame B hB target_dir rest _ fs1 _ _ h1
        rw [hf _ hlast, readFile_fresh_same]
      | cons b bs =>
        simp only [List.cons_append, List.cons.injEq] at hsplit
        exact h2 bs r after hsplit.2 hlast

/-- C1 as stated fails for a group whose output file a later group writes to
as well. In Single mode the directory `A_0.pkg`, `B_0.pkg`, `B_sc.pkg` gives
two groups: `A` (root `A_0.pkg`, terminal piece `B_sc.pkg`, output name `B`)
and `B` (root `B_0.pkg`), both with the output file `B-merged.pkg`. The run
ends normally and reports that file twice; at the end it holds the bytes of
`B_0.pkg` alone, not the root and terminal bytes of group `A`. -/
theorem shared_output_is_overwritten :
    (∀ tc : Impl, discover tc Mode.single [0, 0, 0, 0] (listDir sharedOutputFs "src".toList)
      = sharedOutputPackages) ∧
    outputsOf "out".toList sharedOutputPackages
      = [⟨"out".toList, "B-merged.pkg".toList⟩, ⟨"out".toList, "B-merged.pkg".toList⟩] ∧
    (∀ tc : Impl, merge tc sharedOutputFs sharedOutputPackages "out".toList
      = Except.ok
          (sharedOutputFs ++
            [⟨⟨"out".toList, "B-merged.pkg".toList⟩, [0x7F, 0x43, 0x4E, 0x54, 2]⟩],
           [⟨"out".toList, "B-merged.pkg".toList⟩, ⟨"out".toList, "B-merged.pkg".toList⟩])) ∧
    (∀ tc : Impl, pkgMain tc Mode.single [0, 0, 0, 0] sharedOutputFs "src".toList "out".toList
      = Outcome.exit 0
          (sharedOutputFs ++
            [⟨⟨"out".toList, "B-merged.pkg".toList⟩, [0x7F, 0x43, 0x4E, 0x54, 2]⟩])
          [⟨"out".toList, "B-merged.pkg".toList⟩, ⟨"out".toList, "B-merged.pkg".toList⟩]) ∧
    (∀ tc : Impl, contentOf sharedOutputFs ⟨"src".toList, "A_0.pkg".toList⟩
        ++ piecesBytes sharedOutputFs (tc.stdSort [])
        ++ scBytes sharedOutputFs (some ⟨9999, ⟨"src".toList, "B_sc.pkg".toList⟩⟩)
      = [0x7F, 0x43, 0x4E, 0x54, 1, 9, 9]) ∧
    readFile
        (sharedOutputFs ++
          [⟨⟨"out".toList, "B-merged.pkg".toList⟩, [0x7F, 0x43, 0x4E, 0x54, 2]⟩])
        ⟨"out".toList, "B-merged.pkg".toList⟩
      ≠ some [0x7F, 0x43, 0x4E, 0x54, 1, 9, 9] := by
  refine ⟨?_, by decide, ?_, ?_, ?_, by decide⟩
  · intro tc
    rw [discover_any_impl tc impl32 _ _ _ (by decide)]
    decide
  · intro tc
    rw [merge_any_impl tc impl32 _ _ _ (by decide)]
    rfl
  · intro tc
    rw [pkgMain_impl tc impl32 _ _ _ _ _ (by decide) (by decide)]
    decide
  · intro tc
    rw [stdSort_nil]
    decide

/-- C1, amended. Let `merge` be handed a map in which every root can be
read, every numbered or terminal piece is a non-empty file, and no file of a
group is an output file. Then `merge` ends normally and reports one output
per group, in key order. For every group of the map, the loop reaches the
group and its loop body ends with the output file of the group holding the
root's bytes, followed by the bytes of the numbered pieces in the order
`std::sort` leaves them (a rearrangement of the group's pieces in
non-decreasing order of `part`), followed by the terminal piece's bytes if
there is one; its size is the sum of the sizes of those files. When no later
group of the map writes to the same output file, the file holds these bytes
at the end of `merge`. -/
theorem merge_output_is_concatenation (tc : Impl) (fs : FS) (packages : Packages)
    (target_dir : Str) (h : AllMergeable fs target_dir packages) :
    ∃ fs1 BUFFER_SIZE, bufferSize fs packages = some BUFFER_SIZE ∧
      merge tc fs packages target_dir = Except.ok (fs1, outputsOf target_dir packages) ∧
      ∀ before root after, packages = before ++ root :: after →
        (tc.stdSort root.2.parts).Perm root.2.parts ∧
        (tc.stdSort root.2.parts).Pairwise (fun a b => a.part ≤ b.part) ∧
        (∃ fsa fsb, mergeLoop tc BUFFER_SIZE target_dir before fs []
              = Except.ok (fsa, outputsOf target_dir before) ∧
            mergePackage tc BUFFER_SIZE target_dir fsa root = Except.ok fsb ∧
            readFile fsb (fullMergedFile target_dir root)
              = some (contentOf fs root.2.file ++ piecesBytes fs (tc.stdSort root.2.parts)
                  ++ scBytes fs root.2.sc_part) ∧
            file_size fsb (fullMergedFile target_dir root)
              = some ((contentOf fs root.2.file).length
                  + (root.2.parts.map fun p => (contentOf fs p.file).length).sum
                  + (scBytes fs root.2.sc_part).length)) ∧
        (fullMergedFile target_dir root ∉ outputsOf target_dir after →
          readFile fs1 (fullMergedFile target_dir root)
            = some (contentOf fs root.2.file ++ piecesBytes fs (tc.stdSort root.2.parts)
                ++ scBytes fs root.2.sc_part) ∧
          file_size fs1 (fullMergedFile target_dir root)
            = some ((contentOf fs root.2.file).length
                + (root.2.parts.map fun p => (contentOf fs p.file).length).sum
                + (scBytes fs root.2.sc_part).length)) := by
  have hex : ∀ p ∈ allAppended packages, fsExists fs p.file = true := by
    intro p hp
    obtain ⟨root, hr, hpa⟩ := mem_allAppended _ p hp
    exact fsExists_of_content fs _ ((h root hr).2.1 p hpa)
  have hbuf : bufferSize fs packages
      = some (chooseBufferSize (largestAppended fs packages)) := by
    unfold bufferSize
    rw [scanPackages_eq_largest fs _ hex]
    rfl
  have hB := chooseBufferSize_pos (largestAppended fs packages)
  obtain ⟨fs1, h1, _, h2⟩ := @mergeLoop_last_wins tc
    (chooseBufferSize (largestAppended fs packages)) hB target_dir fs
    (outputsOf target_dir packages) packages fs [] (fun p hp => hp) h (fun _ _ => rfl)
  refine ⟨fs1, _, hbuf, ?_, ?_⟩
  · unfold merge
    rw [hbuf]
    simp only [h1, List.nil_append]
  · intro before root after hs
    have hmem : root ∈ packages := by rw [hs]; simp
    have hsub : ∀ r ∈ before, r ∈ packages := by
      intro r hr; rw [hs]; exact List.mem_append_left _ hr
    have houts : ∀ p ∈ outputsOf target_dir before, p ∈ outputsOf target_dir packages := by
      intro p hp
      obtain ⟨r, hr, hrp⟩ := List.mem_map.mp hp
      exact List.mem_map.mpr ⟨r, hsub r hr, hrp⟩
    obtain ⟨fsa, ha1, ha2, _⟩ := @mergeLoop_last_wins tc
      (chooseBufferSize (largestAppended fs packages)) hB target_dir fs
      (outputsOf target_dir packages) before fs [] houts (fun r hr => h r (hsub r hr))
      (fun _ _ => rfl)
    obtain ⟨hexr, happ, hnotO⟩ := h root hmem
    have houtO : fullMergedFile target_dir root ∈ outputsOf target_dir packages :=
      List.mem_map_of_mem (fullMergedFile target_dir) hmem
    have hne_out : ∀ p, p ∉ outputsOf target_dir packages →
        p ≠ fullMergedFile target_dir root := by
      intro p hp e
      rw [e] at hp
      exact hp houtO
    have hsame : ∀ p ∈ fragmentPaths root.2, readFile fsa p = readFile fs p :=
      fun p hp => ha2 p (hnotO p hp)
    have hm0 : Mergeable fs (fullMergedFile target_dir root) root.2 :=
      ⟨hexr, hne_out _ (hnotO _ (mem_fragmentPaths_file _)),
        fun p hp => ⟨happ p hp, hne_out _ (hnotO _ (mem_fragmentPaths_appended root.2 p hp))⟩⟩
    have hm : Mergeable fsa (fullMergedFile target_dir root) root.2 :=
      Mergeable_congr fs fsa _ root.2 (fun p hp => (hsame p hp).symm) hm0
    have hstep := @mergePackage_ok tc _ hB target_dir fsa root hm
    rw [groupBytes_congr fsa fs root.2 hsame] at hstep
    have hsum : ((tc.stdSort root.2.parts).map fun p => (contentOf fs p.file).length).sum
        = (root.2.parts.map fun p => (contentOf fs p.file).length).sum :=
      List.Perm.sum_eq (List.Perm.map _ (tc.stdSort_perm _))
    refine ⟨tc.stdSort_perm _, tc.stdSort_sorted _, ⟨fsa, _, ?_, hstep, ?_, ?_⟩, ?_⟩
    · rw [ha1, List.nil_append]
    · rw [readFile_fresh_same]
      rfl
    · rw [file_size, readFile_fresh_same]
      simp [groupBytes, length_piecesBytes, hsum, Nat.add_assoc]
    · intro hl
      have hr := h2 before root after hs hl
      refine ⟨hr, ?_⟩
      rw [file_size, hr]
      simp [groupBytes, length_piecesBytes, hsum, Nat.add_assoc]

theorem merge_output_is_concatenation_witness :
    AllMergeable gameFs "out".toList [gameGroup] ∧
    ∃ fs1 BUFFER_SIZE, bufferSize gameFs [gameGroup] = some BUFFER_SIZE ∧
      merge impl32 gameFs [gameGroup] "out".toList
        = Except.ok (fs1, outputsOf "out".toList [gameGroup]) ∧
      ∀ before root after, [gameGroup] = before ++ root :: after →
        (impl32.stdSort root.2.parts).Perm root.2.parts ∧
        (impl32.stdSort root.2.parts).Pairwise (fun a b => a.part ≤ b.part) ∧
        (∃ fsa fsb, mergeLoop impl32 BUFFER_SIZE "out".toList before gameFs []
              = Except.ok (fsa, outputsOf "out".toList before) ∧
            mergePackage impl32 BUFFER_SIZE "out".toList fsa root = Except.ok fsb ∧
            readFile fsb (fullMergedFile "out".toList root)
              = some (contentOf gameFs root.2.file
                  ++ piecesBytes gameFs (impl32.stdSort root.2.parts)
                  ++ scBytes gameFs root.2.sc_part) ∧
            file_size fsb (fullMergedFile "out".toList root)
              = some ((contentOf gameFs root.2.file).length
                  + (root.2.parts.map fun p => (contentOf gameFs p.file).length).sum
                  + (scBytes gameFs root.2.sc_part).length)) ∧
        (fullMergedFile "out".toList root ∉ outputsOf "out".toList after →
          readFile fs1 (fullMergedFile "out".toList root)
            = some (contentOf gameFs root.2.file
                ++ piecesBytes gameFs (impl32.stdSort root.2.parts)
                ++ scBytes gameFs root.2.sc_part) ∧
          file_size fs1 (fullMergedFile "out".toList root)
            = some ((contentOf gameFs root.2.file).length
                + (root.2.parts.map fun p => (contentOf gameFs p.file).length).sum
                + (scBytes gameFs root.2.sc_part).length)) :=
  ⟨by decide, merge_output_is_concatenation impl32 gameFs [gameGroup] "out".toList (by decide)⟩

/-! ## The buffer size, stated -/

theorem largestAppended_congr (fs gs : FS) (packages : Packages)
    (h : ∀ p ∈ allAppended packages, readFile gs p.file = readFile fs p.file) :
    largestAppended gs packages = largestAppended fs packages := by
  unfold largestAppended
  congr 1
  apply List.map_congr_left
  intro p hp
  rw [contentOf_congr gs fs p.file (h p hp)]

/-- C10 as stated fails. A group with a root of 200 MiB (plus header) and one
1-byte numbered piece is what discovery builds from `bigRootFs`; the scan of
`merge` finds the maximum 1 and the buffer has 512 KiB, while the largest file
of the group, its root, has more than 200 MiB, for which the tiers give at
least 2 MiB. -/
theorem buffer_size_ignores_roots :
    (∀ tc : Impl, discover tc Mode.single [0, 0, 0, 0] (listDir bigRootFs "src".toList)
      = bigRootPackages) ∧
    scanPackages bigRootFs bigRootPackages 0 = some 1 ∧
    bufferSize bigRootFs bigRootPackages = some (512 * 1024) ∧
    200 * 1024 * 1024 ≤ largestOfAll bigRootFs bigRootPackages ∧
    bufferSize bigRootFs bigRootPackages
      ≠ some (chooseBufferSize (largestOfAll bigRootFs bigRootPackages)) := by
  have h1 : ∀ tc : Impl, discover tc Mode.single [0, 0, 0, 0] (listDir bigRootFs "src".toList)
      = bigRootPackages := by
    intro tc
    rw [discover_any_impl tc impl32 _ _ _ (by decide)]
    decide
  have h2 : bufferSize bigRootFs bigRootPackages = some (512 * 1024) := by decide
  have hr : readFile bigRootFs ⟨"src".toList, "BIG_0.pkg".toList⟩
      = some (0x7F :: 0x43 :: 0x4E :: 0x54 :: List.replicate (200 * 1024 * 1024) 0) := rfl
  have ha : (contentOf bigRootFs ⟨"src".toList, "BIG_0.pkg".toList⟩).length
      = 200 * 1024 * 1024 + 4 := by
    rw [contentOf, hr, Option.getD_some, List.length_cons, List.length_cons, List.length_cons,
      List.length_cons, List.length_replicate]
  have h3 : 200 * 1024 * 1024 ≤ largestOfAll bigRootFs bigRootPackages := by
    have := le_largestOfAll bigRootFs bigRootPackages _ (List.mem_cons_self _ _)
      ⟨"src".toList, "BIG_0.pkg".toList⟩ (List.mem_cons_self _ _)
    rw [ha] at this
    omega
  refine ⟨h1, by decide, h2, h3, ?_⟩
  rw [h2]
  intro h
  have h4 := chooseBufferSize_ge _ h3
  rw [← Option.some.inj h] at h4
  omega

/-- C10, amended. When the numbered and terminal pieces of the groups exist,
the scan of `merge` ends with `M`, the largest size among the numbered and
terminal pieces of all groups, and `BUFFER_SIZE` is the value the tiers give
for `M`: 512 KiB when `M` < 200 MiB, 2 MiB when 200 MiB ≤ `M` < 1 GiB, 4 MiB
when 1 GiB ≤ `M` < 4 GiB, 8 MiB otherwise; the loop over the groups runs with
that buffer size. Root files are not scanned: the buffer size is the same on
every file system that has the same numbered and terminal pieces. -/
theorem buffer_size_from_appended_pieces (tc : Impl) (fs : FS) (packages : Packages)
    (target_dir : Str) (h : ∀ p ∈ allAppended packages, fsExists fs p.file = true) :
    scanPackages fs packages 0 = some (largestAppended fs packages) ∧
    bufferSize fs packages = some (chooseBufferSize (largestAppended fs packages)) ∧
    merge tc fs packages target_dir
      = mergeLoop tc (chooseBufferSize (largestAppended fs packages)) target_dir packages fs [] ∧
    (∀ gs : FS, (∀ p ∈ allAppended packages, readFile gs p.file = readFile fs p.file) →
      bufferSize gs packages = bufferSize fs packages) ∧
    (largestAppended fs packages < 200 * 1024 * 1024 →
      bufferSize fs packages = some (512 * 1024)) ∧
    (200 * 1024 * 1024 ≤ largestAppended fs packages →
      largestAppended fs packages < 1024 * 1024 * 1024 →
      bufferSize fs packages = some (2 * 1024 * 1024)) ∧
    (1024 * 1024 * 1024 ≤ largestAppended fs packages →
      largestAppended fs packages < 4 * 1024 * 1024 * 1024 →
      bufferSize fs packages = some (4 * 1024 * 1024)) ∧
    (4 * 1024 * 1024 * 1024 ≤ largestAppended fs packages →
      bufferSize fs packages = some (8 * 1024 * 1024)) := by
  have hscan := scanPackages_eq_largest fs packages h
  have hbuf : bufferSize fs packages = some (chooseBufferSize (largestAppended fs packages)) := by
    unfold bufferSize
    rw [hscan]
    rfl
  refine ⟨hscan, hbuf, ?_, ?_, ?_, ?_, ?_, ?_⟩
  · unfold merge
    rw [hbuf]
  · intro gs hgs
    have hg : ∀ p ∈ allAppended packages, fsExists gs p.file = true := by
      intro p hp
      unfold fsExists
      rw [hgs p hp]
      exact h p hp
    unfold bufferSize
    rw [hscan, scanPackages_eq_largest gs packages hg, largestAppended_congr fs gs packages hgs]
  · intro h1
    rw [hbuf]
    unfold chooseBufferSize
    rw [if_pos h1]
  · intro h1 h2
    rw [hbuf]
    unfold chooseBufferSize
    rw [if_neg (by omega), if_pos h2]
  · intro h1 h2
    rw [hbuf]
    unfold chooseBufferSize
    rw [if_neg (by omega), if_neg (by omega), if_pos h2]
  · intro h1
    rw [hbuf]
    unfold chooseBufferSize
    rw [if_neg (by omega), if_neg (by omega), if_neg (by omega)]

theorem buffer_size_from_appended_pieces_witness :
    (∀ p ∈ allAppended [gameGroup], fsExists gameFs p.file = true) ∧
    (scanPackages gameFs [gameGroup] 0 = some (largestAppended gameFs [gameGroup]) ∧
    bufferSize gameFs [gameGroup] = some (chooseBufferSize (largestAppended gameFs [gameGroup])) ∧
    merge impl32 gameFs [gameGroup] "out".toList
      = mergeLoop impl32 (chooseBufferSize (largestAppended gameFs [gameGroup])) "out".toList
          [gameGroup] gameFs [] ∧
    (∀ gs : FS, (∀ p ∈ allAppended [gameGroup], readFile gs p.file = readFile gameFs p.file) →
      bufferSize gs [gameGroup] = bufferSize gameFs [gameGroup]) ∧
    (largestAppended gameFs [gameGroup] < 200 * 1024 * 1024 →
      bufferSize gameFs [gameGroup] = some (512 * 1024)) ∧
    (200 * 1024 * 1024 ≤ largestAppended gameFs [gameGroup] →
      largestAppended gameFs [gameGroup] < 1024 * 1024 * 1024 →
      bufferSize gameFs [gameGroup] = some (2 * 1024 * 1024)) ∧
    (1024 * 1024 * 1024 ≤ largestAppended gameFs [gameGroup] →
      largestAppended gameFs [gameGroup] < 4 * 1024 * 1024 * 1024 →
      bufferSize gameFs [gameGroup] = some (4 * 1024 * 1024)) ∧
    (4 * 1024 * 1024 * 1024 ≤ largestAppended gameFs [gameGroup] →
      bufferSize gameFs [gameGroup] = some (8 * 1024 * 1024))) :=
  ⟨by decide, buffer_size_from_appended_pieces impl32 gameFs [gameGroup] "out".toList
    (by decide)⟩

/-! ## The ordinal of a file name -/

/-- The parse of a name `I_D.pkg` with `D` decimal digits: identifier `I`;
the ordinal is the value of `D`, saturated at `LONG_MAX` as `strtol` does and
then converted to `int`. -/
theorem parse_digits_name {tc : Impl} (I D : Str) (hD : D ≠ [])
    (hdig : ∀ c ∈ D, isdigit c = true)
    (hlen : (I ++ '_' :: (D ++ pkgExt)).length < 2 ^ 64) :
    titleId (I ++ '_' :: (D ++ pkgExt)) = I ∧
      ordinalOf tc (I ++ '_' :: (D ++ pkgExt))
        = intOfLong (min tc.LONG_MAX (decimalValue D : Int)) := by
  have hrest : '_' ∉ D ++ pkgExt := by
    intro hm
    rcases List.mem_append.mp hm with h1 | h1
    · exact isdigit_ne_underscore _ (hdig _ h1) rfl
    · exact not_mem_pkgExt h1
  refine ⟨titleId_split I _ hrest hlen, ?_⟩
  unfold ordinalOf
  rw [partText_split I _ hrest hlen]
  by_cases hdot : '.' ∈ I
  · rw [if_pos hdot, strtol_digits D pkgExt hD hdig (by decide)]
  · rw [if_neg hdot, takeWhile_digits_pkgExt D hdig]
    have := @strtol_digits tc D [] hD hdig (by simp)
    rw [List.append_nil] at this
    rw [this]

/-- C7 as stated fails for digit strings that denote more than an `int`
holds. For `GAME_4294967295.pkg` the identifier is `GAME` and the ordinal text
is `4294967295`, but the ordinal stored in `part` is not 4294967295 with any
implementation: it is 2147483647 where `long` has 32 bits (`strtol`
saturates) and -1 where `long` has 64 bits (the conversion to `int` keeps the
low 32 bits), and -1 is the `part` of the piece discovery then builds. -/
theorem large_ordinal_is_not_kept :
    (∀ c ∈ "4294967295".toList, isdigit c = true) ∧
    titleId "GAME_4294967295.pkg".toList = "GAME".toList ∧
    partText "GAME_4294967295.pkg".toList = "4294967295".toList ∧
    (decimalValue "4294967295".toList : Int) = 4294967295 ∧
    (∀ tc : Impl, ordinalOf tc "GAME_4294967295.pkg".toList ≠ 4294967295) ∧
    ordinalOf impl32 "GAME_4294967295.pkg".toList = 2147483647 ∧
    ordinalOf impl64 "GAME_4294967295.pkg".toList = -1 ∧
    ordinalOf impl64 "GAME_2147483648.pkg".toList = -2147483648 ∧
    discover impl32 Mode.single [0, 0, 0, 0] largeOrdinalFs
      = [("GAME".toList, ⟨0, ⟨"src".toList, "GAME_0.pkg".toList⟩,
            [⟨2147483647, ⟨"src".toList, "GAME_4294967295.pkg".toList⟩⟩], none, []⟩)] ∧
    discover impl64 Mode.single [0, 0, 0, 0] largeOrdinalFs
      = [("GAME".toList, ⟨0, ⟨"src".toList, "GAME_0.pkg".toList⟩,
            [⟨-1, ⟨"src".toList, "GAME_4294967295.pkg".toList⟩⟩], none, []⟩)] := by
  refine ⟨by decide, by decide, by decide, by decide, ?_, by decide, by decide, by decide,
    by decide, by decide⟩
  intro tc h
  have := (intOfLong_range (strtol tc (partText "GAME_4294967295.pkg".toList)).1).2
  unfold ordinalOf at h
  rw [h] at this
  omega

/-- C7, amended. For a file name (shorter than 2^64 characters) that contains
`_`, written as `pre`, the last `_`, and `rest`: the identifier `title_id` is
`pre`, the key under which the file is looked up and, as a root, inserted;
the text handed to `strtol` is `rest` up to its first `.`, or all of `rest`
when a `.` occurs in `pre`; the ordinal stored in `part` when the file
becomes a numbered piece is the `long` that `strtol` returns for that text,
converted to `int`. When the name is `I`, `_`, a non-empty string `D` of
decimal digits and `.pkg`, the identifier is `I` and the ordinal is the value
of `D` saturated at `LONG_MAX` and converted to `int`: the value of `D` when
it is at most 2147483647, never the value of `D` when it is larger (then
2147483647 where `long` has 32 bits). -/
theorem identifier_and_ordinal_of_name (tc : Impl) (file_name : Str) (hu : '_' ∈ file_name)
    (hlen : file_name.length < 2 ^ 64) :
    ∃ pre rest, file_name = pre ++ '_' :: rest ∧ '_' ∉ rest ∧
      titleId file_name = pre ∧
      partText file_name = (if '.' ∈ pre then rest else rest.takeWhile (fun x => x ≠ '.')) ∧
      ordinalOf tc file_name = intOfLong (strtol tc (partText file_name)).1 ∧
      (∀ (uninit : List Nat) (m : Packages) (file : FileEntry) (pkg : Package),
        file.path.name = file_name → mapFind m pre = some pkg →
        addFragment tc uninit m file
          = mapModify m pre fun pkg =>
            { pkg with parts := pkg.parts ++ [⟨ordinalOf tc file_name, file.path⟩] }) ∧
      (∀ (uninit : List Nat) (m : Packages) (file : FileEntry),
        file.path.name = file_name → mapFind m pre = none →
        addFragment tc uninit m file
          = if memcmp (readMagic uninit file.bytes) PKG_MAGIC magicCompareLength ≠ 0 then m
            else mapInsert m pre { Package.new with part := 0, file := file.path }) ∧
      ∀ I D, file_name = I ++ '_' :: (D ++ pkgExt) → D ≠ [] →
        (∀ c ∈ D, isdigit c = true) →
        titleId file_name = I ∧
        ordinalOf tc file_name = intOfLong (min tc.LONG_MAX (decimalValue D : Int)) ∧
        ((decimalValue D : Int) ≤ 2147483647 →
          ordinalOf tc file_name = (decimalValue D : Int)) ∧
        (2147483647 < (decimalValue D : Int) →
          ordinalOf tc file_name ≠ (decimalValue D : Int)) ∧
        (2147483647 < (decimalValue D : Int) → tc.LONG_MAX = 2147483647 →
          ordinalOf tc file_name = 2147483647) := by
  obtain ⟨pre, rest, hsplit, hrest⟩ := exists_last_split file_name '_' hu
  have ht : titleId file_name = pre := by
    rw [hsplit]; exact titleId_split pre rest hrest (by rw [← hsplit]; exact hlen)
  have hp : partText file_name
      = (if '.' ∈ pre then rest else rest.takeWhile (fun x => x ≠ '.')) := by
    rw [hsplit]; exact partText_split pre rest hrest (by rw [← hsplit]; exact hlen)
  refine ⟨pre, rest, hsplit, hrest, ht, hp, rfl, ?_, ?_, ?_⟩
  · intro uninit m file pkg hname hfind
    rw [← ht, ← hname] at hfind
    rw [addFragment_of_found uninit m file pkg hfind, ← ht, ← hname]
    rfl
  · intro uninit m file hname hfind
    rw [← ht, ← hname] at hfind
    rw [addFragment_of_not_found uninit m file hfind, ← ht, ← hname]
  · intro I D hname hD hdig
    have hlen2 : (I ++ '_' :: (D ++ pkgExt)).length < 2 ^ 64 := by rw [← hname]; exact hlen
    obtain ⟨hid, hord⟩ := @parse_digits_name tc I D hD hdig hlen2
    rw [← hname] at hid hord
    have hl := tc.long_holds_int
    have hnn : (0 : Int) ≤ (decimalValue D : Int) := Int.natCast_nonneg _
    refine ⟨hid, hord, ?_, ?_, ?_⟩
    · intro hval
      rw [hord, min_eq_right (le_trans hval hl)]
      exact intOfLong_of_int _ (by omega) hval
    · intro hval h
      have := (intOfLong_range (min tc.LONG_MAX (decimalValue D : Int))).2
      rw [← hord, h] at this
      omega
    · intro hval hmax
      rw [hord, hmax, min_eq_left (le_of_lt hval)]
      rfl

theorem identifier_and_ordinal_of_name_witness :
    '_' ∈ "GAME_12.pkg".toList ∧ "GAME_12.pkg".toList.length < 2 ^ 64 ∧
    ∃ pre rest, "GAME_12.pkg".toList = pre ++ '_' :: rest ∧ '_' ∉ rest ∧
      titleId "GAME_12.pkg".toList = pre ∧
      partText "GAME_12.pkg".toList
        = (if '.' ∈ pre then rest else rest.takeWhile (fun x => x ≠ '.')) ∧
      ordinalOf impl32 "GAME_12.pkg".toList
        = intOfLong (strtol impl32 (partText "GAME_12.pkg".toList)).1 ∧
      (∀ (uninit : List Nat) (m : Packages) (file : FileEntry) (pkg : Package),
        file.path.name = "GAME_12.pkg".toList → mapFind m pre = some pkg →
        addFragment impl32 uninit m file
          = mapModify m pre fun pkg =>
            { pkg with
              parts := pkg.parts ++ [⟨ordinalOf impl32 "GAME_12.pkg".toList, file.path⟩] }) ∧
      (∀ (uninit : List Nat) (m : Packages) (file : FileEntry),
        file.path.name = "GAME_12.pkg".toList → mapFind m pre = none →
        addFragment impl32 uninit m file
          = if memcmp (readMagic uninit file.bytes) PKG_MAGIC magicCompareLength ≠ 0 then m
            else mapInsert m pre { Package.new with part := 0, file := file.path }) ∧
      ∀ I D, "GAME_12.pkg".toList = I ++ '_' :: (D ++ pkgExt) → D ≠ [] →
        (∀ c ∈ D, isdigit c = true) →
        titleId "GAME_12.pkg".toList = I ∧
        ordinalOf impl32 "GAME_12.pkg".toList
          = intOfLong (min impl32.LONG_MAX (decimalValue D : Int)) ∧
        ((decimalValue D : Int) ≤ 2147483647 →
          ordinalOf impl32 "GAME_12.pkg".toList = (decimalValue D : Int)) ∧
        (2147483647 < (decimalValue D : Int) →
          ordinalOf impl32 "GAME_12.pkg".toList ≠ (decimalValue D : Int)) ∧
        (2147483647 < (decimalValue D : Int) → impl32.LONG_MAX = 2147483647 →
          ordinalOf impl32 "GAME_12.pkg".toList = 2147483647) :=
  ⟨by decide, by decide,
    identifier_and_ordinal_of_name impl32 "GAME_12.pkg".toList (by decide) (by decide)⟩

/-! ## The terminal file first, in Multiple mode -/

/-- C11. In Multiple mode, let the enumeration of the source directory be
`pre`, the terminal file `t` = `X_sc.pkg`, then `post`, with no candidate file
of identifier `X` in `pre` and the name of `t` not listed a second time. Then
`t` is both the root and the terminal piece of group `X`, whose numbered
pieces are exactly the fragment files of identifier `X` in `post`, in
enumeration order, whatever their content: no magic check is made. Every file
`X_<n>.pkg` of `post` (`n` decimal digits) is such a fragment file and is a
numbered piece, of ordinal `n` when `n` is at most 2147483647, so `X_0.pkg`
is a piece of ordinal 0. The output is named `X-merged.pkg` and is
among the created files whenever `main` returns. When no candidate file is
empty the run returns 0 and the output holds the bytes of `t`, then the
numbered pieces in the order `std::sort` leaves them (a rearrangement in
non-decreasing order of ordinal), then the bytes of `t` again: the bytes of
`t` twice when there is no numbered piece. -/
theorem multiple_mode_terminal_first (tc : Impl) (uninit : List Nat) (fs : FS)
    (source_path target_path : Str) (X : Str) (pre post : List FileEntry) (t : FileEntry)
    (hlist : listDir fs source_path = pre ++ t :: post)
    (ht : isTerminal t.path.name = true) (hbase : baseName t.path.name = X)
    (hpre : ∀ f ∈ pre, isCandidate f.path.name = true → derivedId f.path.name ≠ X)
    (hpost : ∀ f ∈ post, f.path.name ≠ t.path.name) :
    mapFind (discover tc Mode.multiple uninit (listDir fs source_path)) X
      = some ⟨0, t.path, piecesFor tc X post, some (scPiece t), X⟩ ∧
    mergedFileName (X, ⟨0, t.path, piecesFor tc X post, some (scPiece t), X⟩)
      = X ++ mergedSuffix ∧
    (∀ f ∈ post, isFragment f.path.name = true → titleId f.path.name = X →
      pieceOf tc f ∈ piecesFor tc X post) ∧
    (∀ f ∈ post, ∀ D : Str,
      f.path.name = X ++ '_' :: (D ++ pkgExt) → D ≠ [] → (∀ c ∈ D, isdigit c = true) →
      f.path.name.length < 2 ^ 64 →
      isFragment f.path.name = true ∧ pieceOf tc f ∈ piecesFor tc X post ∧
        ((decimalValue D : Int) ≤ 2147483647 →
          pieceOf tc f = ⟨(decimalValue D : Int), f.path⟩)) ∧
    (tc.stdSort (piecesFor tc X post)).Perm (piecesFor tc X post) ∧
    (tc.stdSort (piecesFor tc X post)).Pairwise (fun a b => a.part ≤ b.part) ∧
    (∀ code fs1 created,
      pkgMain tc Mode.multiple uninit fs source_path target_path
        = Outcome.exit code fs1 created →
      code = 0 ∧ (⟨target_path, X ++ mergedSuffix⟩ : Path) ∈ created) ∧
    ((∀ e ∈ fs, e.path.dir = source_path → isCandidate e.path.name = true →
        e.bytes ≠ []) →
      ∃ fs1 created,
        pkgMain tc Mode.multiple uninit fs source_path target_path
          = Outcome.exit 0 fs1 created ∧
        (⟨target_path, X ++ mergedSuffix⟩ : Path) ∈ created ∧
        readFile fs1 ⟨target_path, X ++ mergedSuffix⟩
          = some (contentOf fs t.path ++ piecesBytes fs (tc.stdSort (piecesFor tc X post))
              ++ contentOf fs t.path) ∧
        (piecesFor tc X post = [] →
          readFile fs1 ⟨target_path, X ++ mergedSuffix⟩
            = some (contentOf fs t.path ++ contentOf fs t.path))) := by
  have htname : t.path.name = X ++ scSuffix := by
    rw [← hbase]
    exact name_of_terminal _ ht
  have hpost2 : ∀ f ∈ post, isTerminal f.path.name = true → baseName f.path.name ≠ X := by
    intro f hf hft hfb
    apply hpost f hf
    rw [htname, ← hfb]
    exact name_of_terminal _ hft
  have hcandX : isCandidate (X ++ scSuffix) = true := by
    rw [← htname]
    unfold isTerminal at ht
    simp only [Bool.and_eq_true] at ht
    exact ht.1
  have hfind := @discover_terminal_first tc uninit X pre post t ht hbase hpre hpost2
  rw [← hlist] at hfind
  obtain ⟨hnd, hown, _⟩ := foldl_multiple_general uninit (listDir fs source_path) []
    List.nodup_nil (fun kv hkv => by cases hkv)
  have hdef : (listDir fs source_path).foldl (multipleStep tc uninit) []
      = discover tc Mode.multiple uninit (listDir fs source_path) := rfl
  rw [hdef] at hnd hown
  have hmem := mapFind_some_mem _ X _ hfind
  have hownX : OwnFiles X ⟨0, t.path, piecesFor tc X post, some (scPiece t), X⟩ :=
    hown _ hmem
  have hname := mergedFileName_own X _ hownX
  have hout : fullMergedFile target_path
      (X, ⟨0, t.path, piecesFor tc X post, some (scPiece t), X⟩)
      = ⟨target_path, X ++ mergedSuffix⟩ := by
    unfold fullMergedFile
    rw [hname]
  have hmemout : (⟨target_path, X ++ mergedSuffix⟩ : Path)
      ∈ outputsOf target_path (discover tc Mode.multiple uninit (listDir fs source_path)) := by
    rw [← hout]
    exact List.mem_map_of_mem (fullMergedFile target_path) hmem
  have hpiece : ∀ f ∈ post, isFragment f.path.name = true → titleId f.path.name = X →
      pieceOf tc f ∈ piecesFor tc X post := by
    intro f hf hfr hid
    unfold piecesFor
    apply List.mem_map_of_mem (pieceOf tc)
    rw [List.mem_filter]
    refine ⟨hf, ?_⟩
    rw [hfr, Bool.true_and]
    exact decide_eq_true hid
  have hcount : ¬ (Mode.multiple = Mode.single ∧
      (listDir fs source_path).foldl countStep 0 > 1) := by
    rintro ⟨h, _⟩; cases h
  refine ⟨hfind, hname, hpiece, ?_, tc.stdSort_perm _, tc.stdSort_sorted _, ?_, ?_⟩
  · intro f hf D hD hne hdig hlen
    rw [hD] at hlen
    obtain ⟨hid, hord⟩ := @parse_digits_name tc X D hne hdig hlen
    have hfr := isFragment_numbered X D hcandX hne hdig
    rw [← hD] at hid hord hfr
    refine ⟨hfr, hpiece f hf hfr hid, ?_⟩
    intro hval
    have hl := tc.long_holds_int
    have hnn : (0 : Int) ≤ (decimalValue D : Int) := Int.natCast_nonneg _
    unfold pieceOf
    rw [hord, min_eq_right (le_trans hval hl), intOfLong_of_int _ (by omega) hval]
  · intro code fs1 created hrun
    obtain ⟨hc, hcr⟩ := pkgMain_exit_created Mode.multiple uninit fs source_path target_path
      hcount code fs1 created hrun
    exact ⟨hc, by rw [hcr]; exact hmemout⟩
  · intro hne
    obtain ⟨fs1, hrun, hcontent⟩ := pkgMain_ok Mode.multiple uninit fs source_path target_path
      (fun h => by cases h) hne
    have hc := hcontent (outputs_nodup target_path _ hown hnd) _ hmem
    rw [hout] at hc
    have hbytes : groupBytes tc fs ⟨0, t.path, piecesFor tc X post, some (scPiece t), X⟩
        = contentOf fs t.path ++ piecesBytes fs (tc.stdSort (piecesFor tc X post))
            ++ contentOf fs t.path := rfl
    rw [hbytes] at hc
    refine ⟨fs1, _, hrun, hmemout, hc, ?_⟩
    intro hnil
    rw [hc, hnil, stdSort_nil]
    simp [piecesBytes]

theorem multiple_mode_terminal_first_witness :
    listDir scFirstFs "src".toList
      = [] ++ srcFile "X_sc.pkg" [9, 9] :: [srcFile "X_1.pkg" [3], srcFile "X_0.pkg" [5, 6]] ∧
    isTerminal (srcFile "X_sc.pkg" [9, 9]).path.name = true ∧
    baseName (srcFile "X_sc.pkg" [9, 9]).path.name = "X".toList ∧
    (∀ f ∈ ([] : List FileEntry), isCandidate f.path.name = true →
      derivedId f.path.name ≠ "X".toList) ∧
    (∀ f ∈ [srcFile "X_1.pkg" [3], srcFile "X_0.pkg" [5, 6]],
      f.path.name ≠ (srcFile "X_sc.pkg" [9, 9]).path.name) ∧
    (mapFind (discover impl32 Mode.multiple [0, 0, 0, 0] (listDir scFirstFs "src".toList)) "X".toList
      = some ⟨0, (srcFile "X_sc.pkg" [9, 9]).path,
          piecesFor impl32 "X".toList [srcFile "X_1.pkg" [3], srcFile "X_0.pkg" [5, 6]],
          some (scPiece (srcFile "X_sc.pkg" [9, 9])), "X".toList⟩ ∧
    mergedFileName ("X".toList, ⟨0, (srcFile "X_sc.pkg" [9, 9]).path,
        piecesFor impl32 "X".toList [srcFile "X_1.pkg" [3], srcFile "X_0.pkg" [5, 6]],
        some (scPiece (srcFile "X_sc.pkg" [9, 9])), "X".toList⟩)
      = "X".toList ++ mergedSuffix ∧
    (∀ f ∈ [srcFile "X_1.pkg" [3], srcFile "X_0.pkg" [5, 6]],
      isFragment f.path.name = true → titleId f.path.name = "X".toList →
      pieceOf impl32 f ∈ piecesFor impl32 "X".toList [srcFile "X_1.pkg" [3], srcFile "X_0.pkg" [5, 6]]) ∧
    (∀ f ∈ [srcFile "X_1.pkg" [3], srcFile "X_0.pkg" [5, 6]], ∀ D : Str,
      f.path.name = "X".toList ++ '_' :: (D ++ pkgExt) → D ≠ [] →
      (∀ c ∈ D, isdigit c = true) → f.path.name.length < 2 ^ 64 →
      isFragment f.path.name = true ∧
        pieceOf impl32 f ∈ piecesFor impl32 "X".toList [srcFile "X_1.pkg" [3], srcFile "X_0.pkg" [5, 6]] ∧
        ((decimalValue D : Int) ≤ 2147483647 →
          pieceOf impl32 f = ⟨(decimalValue D : Int), f.path⟩)) ∧
    (impl32.stdSort (piecesFor impl32 "X".toList [srcFile "X_1.pkg" [3], srcFile "X_0.pkg" [5, 6]])).Perm
      (piecesFor impl32 "X".toList [srcFile "X_1.pkg" [3], srcFile "X_0.pkg" [5, 6]]) ∧
    (impl32.stdSort (piecesFor impl32 "X".toList
      [srcFile "X_1.pkg" [3], srcFile "X_0.pkg" [5, 6]])).Pairwise
      (fun a b => a.part ≤ b.part) ∧
    (∀ code fs1 created,
      pkgMain impl32 Mode.multiple [0, 0, 0, 0] scFirstFs "src".toList "out".toList
        = Outcome.exit code fs1 created →
      code = 0 ∧ (⟨"out".toList, "X".toList ++ mergedSuffix⟩ : Path) ∈ created) ∧
    ((∀ e ∈ scFirstFs, e.path.dir = "src".toList → isCandidate e.path.name = true →
        e.bytes ≠ []) →
      ∃ fs1 created,
        pkgMain impl32 Mode.multiple [0, 0, 0, 0] scFirstFs "src".toList "out".toList
          = Outcome.exit 0 fs1 created ∧
        (⟨"out".toList, "X".toList ++ mergedSuffix⟩ : Path) ∈ created ∧
        readFile fs1 ⟨"out".toList, "X".toList ++ mergedSuffix⟩
          = some (contentOf scFirstFs (srcFile "X_sc.pkg" [9, 9]).path
              ++ piecesBytes scFirstFs (impl32.stdSort (piecesFor impl32 "X".toList
                  [srcFile "X_1.pkg" [3], srcFile "X_0.pkg" [5, 6]]))
              ++ contentOf scFirstFs (srcFile "X_sc.pkg" [9, 9]).path) ∧
        (piecesFor impl32 "X".toList [srcFile "X_1.pkg" [3], srcFile "X_0.pkg" [5, 6]] = [] →
          readFile fs1 ⟨"out".toList, "X".toList ++ mergedSuffix⟩
            = some (contentOf scFirstFs (srcFile "X_sc.pkg" [9, 9]).path
                ++ contentOf scFirstFs (srcFile "X_sc.pkg" [9, 9]).path)))) :=
  ⟨by decide, by decide, by decide, by decide, by decide,
    multiple_mode_terminal_first impl32 [0, 0, 0, 0] scFirstFs "src".toList "out".toList "X".toList
      [] [srcFile "X_1.pkg" [3], srcFile "X_0.pkg" [5, 6]] (srcFile "X_sc.pkg" [9, 9])
      (by decide) (by decide) (by decide) (by decide) (by decide)⟩

/-- The two concrete cases of C11, run through `main` with any
implementation: with `X_sc.pkg` listed before `X_1.pkg` and `X_0.pkg` (which
lacks the magic header) the output is the terminal file, piece 0, piece 1,
the terminal file; a directory that holds `X_sc.pkg` alone yields its bytes
twice. -/
theorem terminal_first_runs :
    (∀ tc : Impl, pkgMain tc Mode.multiple [0, 0, 0, 0] scFirstFs "src".toList "out".toList
      = Outcome.exit 0
          (scFirstFs ++ [⟨⟨"out".toList, "X-merged.pkg".toList⟩, [9, 9, 5, 6, 3, 9, 9]⟩])
          [⟨"out".toList, "X-merged.pkg".toList⟩]) ∧
    (∀ tc : Impl, pkgMain tc Mode.multiple [0, 0, 0, 0] scOnlyFs "src".toList "out".toList
      = Outcome.exit 0
          (scOnlyFs ++ [⟨⟨"out".toList, "X-merged.pkg".toList⟩, [9, 9, 9, 9]⟩])
          [⟨"out".toList, "X-merged.pkg".toList⟩]) := by
  constructor
  · intro tc
    rw [pkgMain_impl tc impl32 _ _ _ _ _ (by decide) (by decide)]
    decide
  · intro tc
    rw [pkgMain_impl tc impl32 _ _ _ _ _ (by decide) (by decide)]
    decide

/-- Pieces of equal ordinal: with `X_sc.pkg`, `X_0.pkg` and `X_00.pkg` both
numbered pieces have ordinal 0, and the order of their bytes in the output is
the one the implementation's `std::sort` leaves them in. -/
theorem equal_ordinals_order_is_open :
    (∀ tc : Impl, piecesFor tc "X".toList [srcFile "X_0.pkg" [1], srcFile "X_00.pkg" [2]]
      = [⟨0, ⟨"src".toList, "X_0.pkg".toList⟩⟩, ⟨0, ⟨"src".toList, "X_00.pkg".toList⟩⟩]) ∧
    pkgMain impl32 Mode.multiple [0, 0, 0, 0] scTieFs "src".toList "out".toList
      = Outcome.exit 0
          (scTieFs ++ [⟨⟨"out".toList, "X-merged.pkg".toList⟩, [9, 1, 2, 9]⟩])
          [⟨"out".toList, "X-merged.pkg".toList⟩] ∧
    pkgMain (tiesReversedImpl 2147483647 (by decide)) Mode.multiple [0, 0, 0, 0] scTieFs
        "src".toList "out".toList
      = Outcome.exit 0
          (scTieFs ++ [⟨⟨"out".toList, "X-merged.pkg".toList⟩, [9, 2, 1, 9]⟩])
          [⟨"out".toList, "X-merged.pkg".toList⟩] := by
  refine ⟨?_, by decide, by decide⟩
  intro tc
  have h : ∀ f ∈ [srcFile "X_0.pkg" [1], srcFile "X_00.pkg" [2]],
      pieceOf tc f = pieceOf impl32 f := by
    intro f hf
    unfold pieceOf ordinalOf
    rw [strtol_of_readsAnInt tc impl32 _ (by revert f; decide)]
  have h2 : piecesFor tc "X".toList [srcFile "X_0.pkg" [1], srcFile "X_00.pkg" [2]]
      = piecesFor impl32 "X".toList [srcFile "X_0.pkg" [1], srcFile "X_00.pkg" [2]] := by
    unfold piecesFor
    apply List.map_congr_left
    intro f hf
    exact h f (List.mem_filter.mp hf).1
  rw [h2]
  decide

end PkgMerge
